import Mathlib

/-!
# Speech-to-Text-Lichess: board tracking and SAN to UCI translation

A shallow embedding of `src/boardState.js`.  The script keeps the whole chess
board, an index of the user's own pieces and the list of moves already applied
in module-level variables; `movePiece` and `updateGameState` mutate them and
`getUCIFromSAN` reads them to turn shorthand notation into a coordinate move.

Conventions of the embedding

* A JavaScript string is a `List Char` (`Str`); string literals are written
  `"e1g1".toList`.
* The module-level variables are the fields of `Session`.  A function that
  mutates them returns a `Run`: the variables as the call leaves them together
  with the exception thrown, if any.  A throwing call keeps whatever it had
  already written, exactly as the script does.
* `undefined` is `none`; `NaN` is `none` in a numeric position.
* The script is a classic (sloppy mode) script: an assignment to an undeclared
  name creates a new global variable.
* A character is one code unit of a JavaScript string; `toUpperCase` is taken
  on the ASCII letters.
* The keys of `userPieceMap` are squares, so the loose comparison
  `pieceList == -1` of line 313 holds exactly when `getPieceList` returned
  `-1`.
* The recursion of `movePiece` and the loop of `isBlocked` carry a bound, and
  `Err.bound` marks its exhaustion; `movePiece_ne_bound` and
  `getUCIFromSAN_ne_bound` show it is never reached.
-/

namespace BoardState

/-- A JavaScript string. -/
abbrev Str := List Char

/-- The colour handed to `setInitialGameState`: the string `'w'` or `'b'`. -/
inductive Color
  | w
  | b
  deriving DecidableEq, Repr

/-- The colour as the one-character string stored in `userColor`. -/
def Color.toStr : Color → Str
  | .w => "w".toList
  | .b => "b".toList

/-- A value held in a cell of `board`: the number `0` that fills slot 0 of
every column literal, or a string (`'--'` or a piece code).  Every write to a
cell stores a string, so no other number occurs. -/
inductive Cell
  | zero
  | str (s : Str)
  deriving DecidableEq, Repr

/-- The result of `.toString()` on a cell value (line 186). -/
def Cell.toStr : Cell → Str
  | .zero => "0".toList
  | .str s => s

/-- Everything the script can throw. -/
inductive Err
  /-- A runtime `TypeError`: a property read on `undefined`, or a call of
  `.includes` on a value that has none. -/
  | typeError
  /-- Line 191: the moving square holds `'--'`. -/
  | emptyOrigin
  /-- Line 163: the reported list does not extend the local one. -/
  | inconsistentPrefix
  /-- Line 173: the reported list is not exactly one move longer. -/
  | wrongDelta
  /-- Line 261, `deleteUserPiece`. -/
  | deleteMissing
  /-- Line 269, `promoteUserPawn`. -/
  | promoteMissing
  /-- Line 284, `updateUserPiece`. -/
  | updateMissing
  /-- Line 314, `'panik'`. -/
  | panik
  /-- Line 334, `INVALID_MOVE`. -/
  | invalidMove
  /-- Line 561: the two squares share no line. -/
  | notOnLine
  /-- Not an exception of the script: the bound the embedding puts on a loop
  or on the nesting of calls was reached. -/
  | bound
  deriving DecidableEq, Repr

/-- The two messages of `updateGameState` itself (lines 163 and 173). -/
def Err.isInconsistentHistory : Err → Bool
  | .inconsistentPrefix => true
  | .wrongDelta => true
  | _ => false

/-- What a translation function hands back: `undefined`, a number or a
string. -/
inductive JSVal
  | undefined
  | num (n : Int)
  | str (s : Str)
  deriving DecidableEq, Repr

deriving instance DecidableEq for Except

/-! ## Strings and numbers -/

/-- The JavaScript conversion of an integer to a string. -/
def numStr (n : Int) : Str :=
  if n < 0 then '-' :: Nat.toDigits 10 n.natAbs else Nat.toDigits 10 n.toNat

/-- The string `s.includes(pat)`. -/
def includes : Str → Str → Bool
  | [], pat => pat.isEmpty
  | c :: s, pat => pat.isPrefixOf (c :: s) || includes s pat

/-- The string `s.toUpperCase()`, on the ASCII letters. -/
def toUpperCase (s : Str) : Str := s.map Char.toUpper

/-- The call `s.replace(c, '')` with a one-character string `c`: the first
occurrence is removed. -/
def removeFirst (c : Char) : Str → Str
  | [] => []
  | d :: s => if d = c then s else d :: removeFirst c s

/-- The call `s.substr(start, len)`. -/
def substr (s : Str) (start len : Int) : Str :=
  let n : Int := s.length
  let from_ : Int := if start < 0 then max (n + start) 0 else min start n
  (s.drop from_.toNat).take (max len 0).toNat

/-- The call `parseInt(x)` on a one-character string or `undefined`; `none`
is `NaN`. -/
def parseInt : Option Char → Option Int
  | some c => if c.isDigit then some ((c.toNat - '0'.toNat : Nat) : Int) else none
  | none => none

/-- The index a one-character property key denotes in an array. -/
def digitIndex (c : Char) : Option Nat :=
  if c.isDigit then some (c.toNat - '0'.toNat) else none

/-! ## The board -/

/-- The object `board`: its keys are column letters, its values arrays of
cells indexed by rank. -/
abbrev Board := List (Char × List Cell)

/-- A string cell. -/
def pc (s : String) : Cell := .str s.toList

/-- Lines 75-83. -/
def initialBoard : Board :=
  [('a', [.zero, pc "wR", pc "wp", pc "--", pc "--", pc "--", pc "--", pc "bp", pc "bR"]),
   ('b', [.zero, pc "wN", pc "wp", pc "--", pc "--", pc "--", pc "--", pc "bp", pc "bN"]),
   ('c', [.zero, pc "wB", pc "wp", pc "--", pc "--", pc "--", pc "--", pc "bp", pc "bB"]),
   ('d', [.zero, pc "wQ", pc "wp", pc "--", pc "--", pc "--", pc "--", pc "bp", pc "bQ"]),
   ('e', [.zero, pc "wK", pc "wp", pc "--", pc "--", pc "--", pc "--", pc "bp", pc "bK"]),
   ('f', [.zero, pc "wB", pc "wp", pc "--", pc "--", pc "--", pc "--", pc "bp", pc "bB"]),
   ('g', [.zero, pc "wN", pc "wp", pc "--", pc "--", pc "--", pc "--", pc "bp", pc "bN"]),
   ('h', [.zero, pc "wR", pc "wp", pc "--", pc "--", pc "--", pc "--", pc "bp", pc "bR"])]

/-- Line 85. -/
def columns : List Str :=
  ["no!".toList, "a".toList, "b".toList, "c".toList, "d".toList, "e".toList, "f".toList,
   "g".toList, "h".toList]

/-- The property read `board[c]` for a one-character key. -/
def Board.column : Board → Char → Option (List Cell)
  | [], _ => none
  | (k, col) :: rest, c => if k = c then some col else Board.column rest c

/-- The property read `board[k]` where `k` is a character of a string, or
`undefined` when the string is too short. -/
def Board.columnOf (b : Board) (k : Option Char) : Option (List Cell) :=
  match k with
  | some c => b.column c
  | none => none

/-- The property read `board[name]` for a string key; every key of `board` is
one character long. -/
def Board.columnNamed (b : Board) (name : Option Str) : Option (List Cell) :=
  match name with
  | some [c] => b.column c
  | _ => none

/-- The element read `col[k]` for a one-character key or `undefined`. -/
def cellAt (col : List Cell) (k : Option Char) : Option Cell :=
  match k with
  | some c =>
    match digitIndex c with
    | some i => col.get? i
    | none => none
  | none => none

/-- The element read `col[i]` for a number; `none` is `NaN`. -/
def cellAtNum (col : List Cell) (i : Option Int) : Option Cell :=
  match i with
  | some (Int.ofNat n) => col.get? n
  | _ => none

/-- The read `board[sq[0]][sq[1]]` when the column exists. -/
def Board.cell (b : Board) (sq : Str) : Option Cell :=
  match b.columnOf (sq.get? 0) with
  | some col => cellAt col (sq.get? 1)
  | none => none

/-- The write `board[c][i] = v`. -/
def Board.setCell : Board → Char → Nat → Cell → Board
  | [], _, _, _ => []
  | (k, col) :: rest, c, i, v =>
    if k = c then (k, col.set i v) :: rest else (k, col) :: Board.setCell rest c i v

/-- The write `board[sq[0]][sq[1]] = v`, made by the script only on a square it
has just read a cell from. -/
def Board.write (b : Board) (sq : Str) (v : Cell) : Board :=
  match sq.get? 0, (sq.get? 1).bind digitIndex with
  | some c, some i => b.setCell c i v
  | _, _ => b

/-! ## The index of the user's pieces -/

/-- The `Map` `userPieceMap`, entries in insertion order. -/
abbrev PieceMap := List (Str × Str)

/-- The call `userPieceMap.get(sq)`. -/
def PieceMap.get : PieceMap → Str → Option Str
  | [], _ => none
  | (k, v) :: rest, sq => if k = sq then some v else PieceMap.get rest sq

/-- The call `userPieceMap.has(sq)`. -/
def PieceMap.has (m : PieceMap) (sq : Str) : Bool := (m.get sq).isSome

/-- The call `userPieceMap.delete(sq)`. -/
def PieceMap.delete (m : PieceMap) (sq : Str) : PieceMap :=
  m.filter (fun e => decide (e.1 ≠ sq))

/-- The call `userPieceMap.set(sq, v)`: an existing key keeps its place. -/
def PieceMap.set : PieceMap → Str → Str → PieceMap
  | [], sq, v => [(sq, v)]
  | (k, x) :: rest, sq, v =>
    if k = sq then (k, v) :: rest else (k, x) :: PieceMap.set rest sq v

/-- Lines 90-95: the `Map` `castleMap`, the same four entries at every
initialisation. -/
def castleMap : List (Str × Str) :=
  [("e8c8".toList, "a8d8".toList),
   ("e8g8".toList, "h8f8".toList),
   ("e1c1".toList, "a1d1".toList),
   ("e1g1".toList, "h1f1".toList)]

/-- The call `castleMap.get(move)`. -/
def castleGet : List (Str × Str) → Str → Option Str
  | [], _ => none
  | (k, v) :: rest, move => if k = move then some v else castleGet rest move

/-! ## The session -/

/-- The module-level variables of the script once `setInitialGameState` has
run.  `queenSideCastle` is declared on line 73 and `queenSideCaslte` is the
global that the assignment on line 116 creates. -/
structure Session where
  board : Board
  userColor : Color
  userPieceMap : PieceMap
  movesList : List Str
  kingSideCastle : Str
  queenSideCastle : Option Str
  queenSideCaslte : Str
  deriving DecidableEq, Repr

/-- The variables after a call, and the exception it threw. -/
structure Run where
  st : Session
  err : Option Err
  deriving DecidableEq, Repr

/-- Lines 87-141.  The function assigns `userColor`, `castleMap`,
`userPieceMap`, `kingSideCastle` and `queenSideCaslte`; `board` and
`movesList` are the ones it finds, and `queenSideCastle`, which no line of the
script assigns, stays `undefined`. -/
def setInitialGameState (color : Color) (board : Board) (movesList : List Str) : Session :=
  let pawnRow : Int := match color with
    | .w => 2
    | .b => 7
  let pieceRow : Int := match color with
    | .w => 1
    | .b => 8
  let userPawn := color.toStr ++ "p".toList
  let m1 : PieceMap :=
    (List.range' 1 8).foldl
      (fun m i => m.set (columns.getD i "undefined".toList ++ numStr pawnRow) userPawn) []
  let m2 := m1.set ("a".toList ++ numStr pieceRow) (color.toStr ++ "R".toList)
  let m3 := m2.set ("b".toList ++ numStr pieceRow) (color.toStr ++ "N".toList)
  let m4 := m3.set ("c".toList ++ numStr pieceRow) (color.toStr ++ "B".toList)
  let m5 := m4.set ("d".toList ++ numStr pieceRow) (color.toStr ++ "Q".toList)
  let m6 := m5.set ("e".toList ++ numStr pieceRow) (color.toStr ++ "K".toList)
  let m7 := m6.set ("f".toList ++ numStr pieceRow) (color.toStr ++ "B".toList)
  let m8 := m7.set ("g".toList ++ numStr pieceRow) (color.toStr ++ "N".toList)
  let m9 := m8.set ("h".toList ++ numStr pieceRow) (color.toStr ++ "R".toList)
  { board := board
    userColor := color
    userPieceMap := m9
    movesList := movesList
    kingSideCastle := "e".toList ++ numStr pieceRow ++ "g".toList ++ numStr pieceRow
    queenSideCastle := none
    queenSideCaslte := "e".toList ++ numStr pieceRow ++ "c".toList ++ numStr pieceRow }

/-- The script as loaded (lines 68 and 75-83) followed by
`setInitialGameState(color)`. -/
def freshSession (color : Color) : Session :=
  setInitialGameState color initialBoard []

/-- A later call `setInitialGameState(color)` on a session in progress. -/
def initializeAgain (color : Color) (st : Session) : Session :=
  setInitialGameState color st.board st.movesList

/-! ## Applying a move -/

/-- Lines 256-264. -/
def deleteUserPiece (m : PieceMap) (capturedPieceSquare : Str) : Except Err PieceMap :=
  if m.has capturedPieceSquare then .ok (m.delete capturedPieceSquare)
  else .error .deleteMissing

/-- Lines 266-276. -/
def promoteUserPawn (m : PieceMap) (startingSquare newPiece : Str) : Except Err PieceMap :=
  match m.get startingSquare with
  | none => .error .promoteMissing
  | some _ => .ok (m.set startingSquare newPiece)

/-- Lines 278-291. -/
def updateUserPiece (m : PieceMap) (previousSquare newSquare : Str) : Except Err PieceMap :=
  match m.get previousSquare with
  | none => .error .updateMissing
  | some piece => .ok ((m.delete previousSquare).set newSquare piece)

/-- Lines 183-192: the two reads of the board and the test of the moving
square.  The result is `movingPiece` and `destPiece`. -/
def readMove (b : Board) (move : Str) : Except Err (Str × Option Cell) :=
  let startingSquare := move.take 2
  let destinationSquare := (move.drop 2).take 2
  match b.columnOf (startingSquare.get? 0) with
  | none => .error .typeError
  | some sCol =>
    match cellAt sCol (startingSquare.get? 1) with
    | none => .error .typeError
    | some sCell =>
      match b.columnOf (destinationSquare.get? 0) with
      | none => .error .typeError
      | some dCol =>
        if sCell.toStr = "--".toList then .error .emptyOrigin
        else .ok (sCell.toStr, cellAt dCol (destinationSquare.get? 1))

/-- The expression `movingPiece[0] + move[4].toUpperCase()` of line 196. -/
def promotedPiece (movingPiece move : Str) : Str :=
  (match movingPiece.head? with
    | some c => [c]
    | none => "undefined".toList) ++ toUpperCase ((move.drop 4).take 1)

/-- Lines 195-203: the new `movingPiece` and `userPieceMap`. -/
def promotionStep (color : Color) (m : PieceMap) (move movingPiece : Str) :
    Except Err (Str × PieceMap) :=
  if move.length = 5 then
    let promoted := promotedPiece movingPiece move
    if includes promoted color.toStr then
      match promoteUserPawn m (move.take 2) promoted with
      | .error e => .error e
      | .ok m1 => .ok (promoted, m1)
    else .ok (promoted, m)
  else .ok (movingPiece, m)

/-- Lines 205-206. -/
def captureStep (color : Color) (m : PieceMap) (destinationSquare : Str)
    (destPiece : Option Cell) : Except Err PieceMap :=
  match destPiece with
  | some (.str d) =>
    if includes d color.toStr then deleteUserPiece m destinationSquare else .ok m
  | _ => .error .typeError

/-- Lines 209-210. -/
def relocateStep (color : Color) (m : PieceMap) (startingSquare destinationSquare : Str)
    (movingPiece : Str) : Except Err PieceMap :=
  if includes movingPiece color.toStr then updateUserPiece m startingSquare destinationSquare
  else .ok m

/-- Lines 212-213. -/
def writeMove (b : Board) (startingSquare destinationSquare movingPiece : Str) : Board :=
  (b.write destinationSquare (.str movingPiece)).write startingSquare (.str "--".toList)

/-- Lines 183-213: `movePiece` up to the castle test of line 216.  The second
component is the final value of `movingPiece`. -/
def moveOnce (st : Session) (move : Str) : Run × Str :=
  let startingSquare := move.take 2
  let destinationSquare := (move.drop 2).take 2
  match readMove st.board move with
  | .error e => (⟨st, some e⟩, [])
  | .ok (movingPiece0, destPiece) =>
    match promotionStep st.userColor st.userPieceMap move movingPiece0 with
    | .error e => (⟨st, some e⟩, movingPiece0)
    | .ok (movingPiece, m1) =>
      match captureStep st.userColor m1 destinationSquare destPiece with
      | .error e => (⟨{ st with userPieceMap := m1 }, some e⟩, movingPiece)
      | .ok m2 =>
        match relocateStep st.userColor m2 startingSquare destinationSquare movingPiece with
        | .error e => (⟨{ st with userPieceMap := m2 }, some e⟩, movingPiece)
        | .ok m3 =>
          (⟨{ st with
              userPieceMap := m3
              board := writeMove st.board startingSquare destinationSquare movingPiece },
            none⟩, movingPiece)

/-- Lines 181-220, with a bound on the nesting of the call on line 217. -/
def movePieceAux : Nat → Session → Str → Run
  | fuel, st, move =>
    match moveOnce st move with
    | (⟨st1, some e⟩, _) => ⟨st1, some e⟩
    | (⟨st1, none⟩, movingPiece) =>
      match castleGet castleMap move with
      | some rookMove =>
        if includes movingPiece "K".toList then
          match fuel with
          | 0 => ⟨st1, some .bound⟩
          | n + 1 => movePieceAux n st1 rookMove
        else ⟨st1, none⟩
      | none => ⟨st1, none⟩

/-- Lines 181-220.  One nested call is all a castle makes: no value of
`castleMap` is one of its keys. -/
def movePiece (st : Session) (move : Str) : Run := movePieceAux 1 st move

/-- Lines 246-254. -/
def isMovesListValid (movesList updatedMoveList : List Str) : Bool :=
  (List.range movesList.length).all (fun i => updatedMoveList.get? i == movesList.get? i)

/-- Lines 155-156: the moves are applied in order until one throws. -/
def applyAll : Session → List Str → Run
  | st, [] => ⟨st, none⟩
  | st, move :: rest =>
    match movePiece st move with
    | ⟨st1, none⟩ => applyAll st1 rest
    | ⟨st1, some e⟩ => ⟨st1, some e⟩

/-- Lines 146-179. -/
def updateGameState (st : Session) (updatedMoveList : List Str) : Run :=
  if st.movesList.length = 0 then
    match applyAll st updatedMoveList with
    | ⟨st1, none⟩ => ⟨{ st1 with movesList := updatedMoveList }, none⟩
    | ⟨st1, some e⟩ => ⟨st1, some e⟩
  else if (updatedMoveList.length : Int) - (st.movesList.length : Int) = 1 then
    if isMovesListValid st.movesList updatedMoveList = false then
      ⟨st, some .inconsistentPrefix⟩
    else
      match updatedMoveList.get? (updatedMoveList.length - 1) with
      | none => ⟨st, some .typeError⟩
      | some newMove =>
        match movePiece st newMove with
        | ⟨st1, none⟩ => ⟨{ st1 with movesList := updatedMoveList }, none⟩
        | ⟨st1, some e⟩ => ⟨st1, some e⟩
  else ⟨st, some .wrongDelta⟩

/-! ## Geometry -/

/-- The object built by `getNumericCoordinates`; a row that is `none` is
`NaN`. -/
structure Coordinates where
  startCol : Int
  startRow : Option Int
  destCol : Int
  destRow : Option Int
  deriving DecidableEq, Repr

/-- The call `columns.indexOf(x)` from position `i` on. -/
def indexOfFrom (x : Str) : List Str → Nat → Int
  | [], _ => -1
  | y :: ys, i => if y = x then (i : Int) else indexOfFrom x ys (i + 1)

/-- The call `columns.indexOf(s[0])`; `undefined` is found nowhere. -/
def columnsIndexOf (k : Option Char) : Int :=
  match k with
  | some c => indexOfFrom [c] columns 0
  | none => -1

/-- Lines 518-525. -/
def getNumericCoordinates (start dest : Str) : Coordinates :=
  { startCol := columnsIndexOf (start.get? 0)
    startRow := parseInt (start.get? 1)
    destCol := columnsIndexOf (dest.get? 0)
    destRow := parseInt (dest.get? 1) }

/-- The difference `a - b` of two rows. -/
def numSub (a b : Option Int) : Option Int :=
  match a, b with
  | some x, some y => some (x - y)
  | _, _ => none

/-- The number `Math.abs(a - b)` of two rows. -/
def absDiff (a b : Option Int) : Option Int :=
  match a, b with
  | some x, some y => some ((x - y).natAbs : Int)
  | _, _ => none

/-- The comparison `a == b` of two numbers: `NaN` equals nothing. -/
def numEq (a b : Option Int) : Bool :=
  match a, b with
  | some x, some y => decide (x = y)
  | _, _ => false

/-- The comparison `a > b` of two numbers: false on `NaN`. -/
def numGt (a b : Option Int) : Bool :=
  match a, b with
  | some x, some y => decide (x > y)
  | _, _ => false

/-- The sum `a + d` of a row and a direction. -/
def numAdd (a : Option Int) (d : Int) : Option Int := a.map (fun x => x + d)

/-- Lines 493-504. -/
def inKnightRange (c : Coordinates) : Bool :=
  let diffCol : Option Int := some ((c.startCol - c.destCol).natAbs : Int)
  let diffRow := absDiff c.startRow c.destRow
  numEq (absDiff diffCol diffRow) (some 1)

/-- Lines 506-508. -/
def sharesColumn (c : Coordinates) : Bool := decide (c.startCol = c.destCol)

/-- Lines 510-512. -/
def sharesRow (c : Coordinates) : Bool := numEq c.startRow c.destRow

/-- Lines 514-516. -/
def sharesDiagonal (c : Coordinates) : Bool :=
  numEq (some ((c.startCol - c.destCol).natAbs : Int)) (absDiff c.startRow c.destRow)

/-- The element `columns[i]` for a number. -/
def columnName (i : Int) : Option Str :=
  match i with
  | Int.ofNat n => columns.get? n
  | _ => none

/-- Lines 568-579: the loop of `isBlocked`, at most `fuel` passes. -/
def isBlockedLoop (b : Board) (c : Coordinates) (rowDir colDir : Int) :
    Nat → Option Int → Int → Except Err Bool
  | 0, _, _ => .error .bound
  | fuel + 1, checkRow, checkCol =>
    if numEq c.destRow checkRow && decide (c.destCol = checkCol) then .ok false
    else
      match b.columnNamed (columnName checkCol) with
      | none => .error .typeError
      | some col =>
        if cellAtNum col checkRow ≠ some (.str "--".toList) then .ok true
        else isBlockedLoop b c rowDir colDir fuel (numAdd checkRow rowDir) (checkCol + colDir)

/-- The number of passes allowed to the loop of `isBlocked`: more than any walk
that stays on cells of the board can make. -/
def walkBound (b : Board) : Nat :=
  10 + (b.map (fun e => e.2.length)).sum

/-- Lines 527-583. -/
def isBlocked (b : Board) (c : Coordinates) : Except Err Bool :=
  let dirs : Option (Int × Int) :=
    if c.startCol - c.destCol = 0 then
      some (if numGt c.startRow c.destRow then -1 else 1, 0)
    else if numEq (numSub c.startRow c.destRow) (some 0) then
      some (0, if c.startCol > c.destCol then -1 else 1)
    else if sharesDiagonal c then
      some (if numGt c.startRow c.destRow then -1 else 1,
            if c.startCol > c.destCol then -1 else 1)
    else none
  match dirs with
  | none => .error .notOnLine
  | some (rowDir, colDir) =>
    isBlockedLoop b c rowDir colDir (walkBound b) (numAdd c.startRow rowDir)
      (c.startCol + colDir)

/-- Lines 473-491.  `piece` is the first character of the input. -/
def pieceHasAccess (b : Board) (start dest piece : Str) : Except Err Bool :=
  let coordinates := getNumericCoordinates start dest
  if includes piece "N".toList then .ok (inKnightRange coordinates)
  else
    let rookLike : Except Err Bool :=
      if (sharesColumn coordinates || sharesRow coordinates)
          && (includes piece "Q".toList || includes piece "R".toList) then
        match isBlocked b coordinates with
        | .error e => .error e
        | .ok blocked => .ok (!blocked)
      else .ok false
    match rookLike with
    | .error e => .error e
    | .ok true => .ok true
    | .ok false =>
      if sharesDiagonal coordinates
          && (includes piece "Q".toList || includes piece "B".toList) then
        match isBlocked b coordinates with
        | .error e => .error e
        | .ok blocked => .ok (!blocked)
      else .ok false

/-! ## Translation -/

/-- The class `[a-h]`. -/
def isFile (c : Char) : Bool := decide ('a' ≤ c) && decide (c ≤ 'h')

/-- The class `[1-8]`. -/
def isRank (c : Char) : Bool := decide ('1' ≤ c) && decide (c ≤ '8')

/-- The class `[QRBN]`. -/
def isQRBN (c : Char) : Bool := c = 'Q' || c = 'R' || c = 'B' || c = 'N'

/-- The class `[QRBNK]`. -/
def isQRBNK (c : Char) : Bool := isQRBN c || c = 'K'

/-- A sequence of character classes matched at the head of a string. -/
def matchAt : List (Char → Bool) → Str → Option Str
  | [], _ => some []
  | _ :: _, [] => none
  | p :: ps, c :: cs =>
    if p c then
      match matchAt ps cs with
      | some m => some (c :: m)
      | none => none
    else none

/-- The first match of a sequence of character classes in a string, as
`s.match(re)` finds it; `re.test(s)` asks whether there is one. -/
def regexMatch (pat : List (Char → Bool)) : Str → Option Str
  | [] => matchAt pat []
  | c :: cs =>
    match matchAt pat (c :: cs) with
    | some m => some m
    | none => regexMatch pat cs

/-- Lines 585-587. -/
def removeCaptureNotation (sanMove : Str) : Str := removeFirst 'x' sanMove

/-- Lines 383-388. -/
def getCastleMove (st : Session) (sanMove : Str) : JSVal :=
  if sanMove = "0-0".toList then .str st.kingSideCastle
  else if sanMove = "0-0-0".toList then
    match st.queenSideCastle with
    | some s => .str s
    | none => .undefined
  else .num (-1)

/-- Lines 390-405; `none` is the `-1` of an empty list. -/
def getPieceList (st : Session) (piece : Str) : Option (List Str) :=
  let userPiece := st.userColor.toStr ++ toUpperCase piece
  let pieceList := (st.userPieceMap.filter (fun e => decide (e.2 = userPiece))).map (fun e => e.1)
  if pieceList.length = 0 then none else some pieceList

/-- The object built by `getPieceMoveComponents`. -/
structure MoveComponents where
  piece : Str
  squareInfo : Str
  destination : Str
  deriving DecidableEq, Repr

/-- Lines 407-417. -/
def getPieceMoveComponents (sanMove : Str) : MoveComponents :=
  let moveLength : Int := sanMove.length
  { piece := sanMove.take 1
    squareInfo := substr sanMove 1 (moveLength - 3)
    destination := substr sanMove (moveLength - 2) 2 }

/-- Lines 453-458: the squares with access, in order; the first exception
ends the loop. -/
def accessFilter (b : Board) (dest piece : Str) : List Str → Except Err (List Str)
  | [] => .ok []
  | square :: rest =>
    match pieceHasAccess b square dest piece with
    | .error e => .error e
    | .ok access =>
      match accessFilter b dest piece rest with
      | .error e => .error e
      | .ok valid => .ok (if access then square :: valid else valid)

/-- Lines 421-470; `none` is the `-1` it returns when it selects nothing. -/
def findValidPiece (b : Board) (pieceList : List Str) (mc : MoveComponents) :
    Except Err (Option Str) :=
  if mc.squareInfo ≠ [] then
    let validPieces := pieceList.filter (fun square => includes square mc.squareInfo)
    if validPieces.length = 0 then .ok none
    else if validPieces.length = 1 then .ok (validPieces.get? 0)
    else .ok none
  else
    match accessFilter b mc.destination mc.piece pieceList with
    | .error e => .error e
    | .ok validPieces =>
      if validPieces.length = 0 then .ok none
      else if validPieces.length = 1 then .ok (validPieces.get? 0)
      else .ok none

/-- Lines 307-324.  The value of `findValidPiece` goes into the string
concatenation of line 321 whatever it is, so its `-1` becomes the text
`-1`. -/
def getPieceMove (st : Session) (sanMove : Str) : Except Err JSVal :=
  let piece := sanMove.take 1
  match getPieceList st piece with
  | none => .error .panik
  | some pieceList =>
    let moveComponents := getPieceMoveComponents sanMove
    if pieceList.length = 1 then
      .ok (.str (pieceList.headD [] ++ moveComponents.destination))
    else
      match findValidPiece st.board pieceList moveComponents with
      | .error e => .error e
      | .ok (some square) => .ok (.str (square ++ moveComponents.destination))
      | .ok none => .ok (.str (numStr (-1) ++ moveComponents.destination))

/-- Lines 326-381. -/
def getPawnMove (st : Session) (sanMove0 : Str) : Except Err JSVal :=
  let sanMove := removeFirst '=' sanMove0
  match regexMatch [isFile, isRank] sanMove with
  | none => .error .invalidMove
  | some destination =>
    let col := destination.take 1
    let destRow : Int :=
      match parseInt (destination.get? 1) with
      | some r => r
      | none => 0
    let direction : Int := match st.userColor with
      | .b => -1
      | .w => 1
    if sanMove.length = 2 then
      if (destRow = 5 && st.userColor = .b) || (destRow = 4 && st.userColor = .w) then
        match st.board.columnOf (col.get? 0) with
        | none => .error .typeError
        | some column =>
          if cellAtNum column (some (destRow - direction))
              ≠ some (.str (st.userColor.toStr ++ "p".toList)) then
            .ok (.str (col ++ numStr (destRow - direction * 2) ++ destination))
          else .ok (.str (col ++ numStr (destRow - direction) ++ destination))
      else .ok (.str (col ++ numStr (destRow - direction) ++ destination))
    else if sanMove.length = 3
        && (regexMatch [isFile, isFile, isRank] sanMove).isSome then
      .ok (.str (sanMove.take 1 ++ numStr (destRow - direction) ++ destination))
    else if sanMove.length = 3
        && (regexMatch [isFile, isRank, isQRBN] sanMove).isSome then
      .ok (.str (col ++ numStr (destRow - direction) ++ destination
        ++ (sanMove.drop (sanMove.length - 1)).take 1))
    else if sanMove.length = 4
        && (regexMatch [isFile, isFile, isRank, isQRBN] sanMove).isSome then
      .ok (.str (sanMove.take 1 ++ numStr (destRow - direction) ++ destination
        ++ (sanMove.drop (sanMove.length - 1)).take 1))
    else .ok (.num (-1))

/-- Lines 294-305. -/
def getUCIFromSAN (st : Session) (sanMove0 : Str) : Except Err JSVal :=
  let sanMove := removeCaptureNotation sanMove0
  if (regexMatch [isFile] (sanMove.take 1)).isSome then getPawnMove st sanMove
  else if (regexMatch [isQRBNK] (sanMove.take 1)).isSome then getPieceMove st sanMove
  else if sanMove = "0-0".toList || sanMove = "0-0-0".toList then
    .ok (getCastleMove st sanMove)
  else .ok .undefined

/-! ## The standard starting position, from the rules of chess -/

/-- The pieces of a back rank from file a to file h. -/
def standardBackRank : List Char := ['R', 'N', 'B', 'Q', 'K', 'B', 'N', 'R']

/-- The eight files. -/
def files : List Char := ['a', 'b', 'c', 'd', 'e', 'f', 'g', 'h']

/-- The eight ranks. -/
def ranks : List Char := ['1', '2', '3', '4', '5', '6', '7', '8']

/-- The rank on which a colour's pieces start. -/
def Color.backRank : Color → Char
  | .w => '1'
  | .b => '8'

/-- The rank on which a colour's pawns start. -/
def Color.pawnRank : Color → Char
  | .w => '2'
  | .b => '7'

/-- The piece code the standard starting position puts on a square: white on
ranks 1 and 2, black on ranks 7 and 8, nothing in between. -/
def standardCell (file : Nat) (rank : Char) : Str :=
  if rank = '1' then ['w', standardBackRank.getD file '?']
  else if rank = '2' then ['w', 'p']
  else if rank = '7' then ['b', 'p']
  else if rank = '8' then ['b', standardBackRank.getD file '?']
  else ['-', '-']

/-- The board is the standard starting position: every square of the eight
files and eight ranks holds the standard piece code. -/
def IsStandardStart (b : Board) : Prop :=
  ∀ i < 8, ∀ rank ∈ ranks,
    b.cell [files.getD i '?', rank] = some (.str (standardCell i rank))

/-- The sixteen pieces a colour starts with, each on its standard square. -/
def standardPieces (color : Color) : List (Str × Str) :=
  (List.range 8).map
      (fun i => ([files.getD i '?', color.pawnRank], color.toStr ++ ['p']))
    ++ (List.range 8).map
      (fun i => ([files.getD i '?', color.backRank],
        color.toStr ++ [standardBackRank.getD i '?']))

/-! ## The lockstep of board and index -/

/-- Part (1) of the lockstep: the board holds, on the square of every entry of
the index, the piece code of that entry. -/
def IndexOnBoard (st : Session) : Prop :=
  ∀ e ∈ st.userPieceMap, st.board.cell e.1 = some (.str e.2)

/-- Part (2) of the lockstep: every cell of ranks 1 to 8 whose piece code
includes the user's colour, the test the script itself applies, has an entry
in the index. -/
def UserCellsIndexed (st : Session) : Prop :=
  ∀ file ∈ files, ∀ rank ∈ ranks, ∀ piece,
    st.board.cell [file, rank] = some (.str piece) →
    includes piece st.userColor.toStr = true →
    st.userPieceMap.has [file, rank] = true

/-- The lockstep of board and index. -/
def Lockstep (st : Session) : Prop := IndexOnBoard st ∧ UserCellsIndexed st

/-- The board has its sixty-four squares and each holds a string. -/
def FullBoard (b : Board) : Prop :=
  ∀ file ∈ files, ∀ rank ∈ ranks, ∃ s, b.cell [file, rank] = some (.str s)

/-- The data model of a session: a full board in lockstep with the index. -/
def WellFormed (st : Session) : Prop := FullBoard st.board ∧ Lockstep st

/-- The sessions reached from the freshly loaded script and
`setInitialGameState(color)` by calls of `movePiece` that all return
normally. -/
inductive Reachable (color : Color) : Session → Prop
  | init : Reachable color (freshSession color)
  | move {st : Session} (m : Str) :
      Reachable color st → (movePiece st m).err = none →
      Reachable color (movePiece st m).st

/-- What the induction on the moves carries: the lockstep, the colour of every
indexed piece, the two characters of every indexed square, and the place of
the colour in a piece code. -/
structure Inv (st : Session) : Prop where
  onBoard : IndexOnBoard st
  indexed : UserCellsIndexed st
  colored : ∀ e ∈ st.userPieceMap, includes e.2 st.userColor.toStr = true
  twoChars : ∀ e ∈ st.userPieceMap, e.1.length = 2
  colorFirst : ∀ sq piece, st.board.cell sq = some (.str piece) →
    includes piece st.userColor.toStr = true → piece.head? = st.userColor.toStr.head?

/-! ## What no move touches -/

/-- The exceptions a single pass through lines 183-213 can throw. -/
def moveErrors : List Err :=
  [.typeError, .emptyOrigin, .promoteMissing, .deleteMissing, .updateMissing]

/-- The part of a session that only `setInitialGameState` assigns. -/
def Session.fixedPart (st : Session) : Color × Str × Option Str × Str :=
  (st.userColor, st.kingSideCastle, st.queenSideCastle, st.queenSideCaslte)

/-! ## The shorthand of a piece move, in the words of the specification -/

/-- The disambiguation fragment of a piece input whose capture mark is
stripped: the characters between the piece letter and the final
two-character destination. -/
def fragmentOf (san : Str) : Str := (san.drop 1).take (san.length - 3)

/-- The destination of a piece input whose capture mark is stripped: its last
two characters. -/
def destinationOf (san : Str) : Str := san.drop (san.length - 2)

/-- The user-owned squares that hold the piece type named by a letter: the
squares of the index entries whose piece code is the user's colour followed
by the letter, in the order of the index. -/
def candidates (st : Session) (letter : Char) : List Str :=
  (st.userPieceMap.filter
    (fun e => decide (e.2 = st.userColor.toStr ++ [letter]))).map (fun e => e.1)

/-! ## The pawn grammar, in the words of the specification -/

/-- The number of a rank: 1 for `'1'` up to 8 for `'8'`. -/
def rankNumber (r : Char) : Int := (r.toNat : Int) - 48

/-- The number of a file: 1 for `'a'` up to 8 for `'h'`. -/
def fileNumber (f : Char) : Int := (f.toNat : Int) - 96

/-- The character of a rank number. -/
def rankChar (n : Int) : Char := Char.ofNat (48 + n.toNat)

/-- The character of a file number. -/
def fileChar (n : Int) : Char := Char.ofNat (96 + n.toNat)

/-- The forward direction of the user's pawns: +1 for `'w'`, -1 for `'b'`. -/
def Color.direction : Color → Int
  | .w => 1
  | .b => -1

/-- The rank on which a double step of the user's pawn lands: 4 for `'w'`,
5 for `'b'`. -/
def Color.landingRank : Color → Char
  | .w => '4'
  | .b => '5'

/-- The four promotion letters. -/
def promotionLetters : List Char := ['Q', 'R', 'B', 'N']

/-! ## Lines of the board, in the words of the specification -/

/-- The cell that the loop of `isBlocked` reads for a row number and a column
number (line 571). -/
def Board.cellNum (b : Board) (row col : Int) : Option Cell :=
  match b.columnNamed (columnName col) with
  | some cells => cellAtNum cells (some row)
  | none => none

/-- The two squares are on one diagonal: their absolute column and row deltas
are equal. -/
def SameDiagonal (f1 r1 f2 r2 : Char) : Prop :=
  (fileNumber f2 - fileNumber f1).natAbs = (rankNumber r2 - rankNumber r1).natAbs

/-- Square `f r` lies strictly between the squares `f1 r1` and `f2 r2` of a
common line: it is `k` steps from the first towards the second, for some `k`
above 0 and below their distance. -/
def StrictlyBetween (f1 r1 f2 r2 f r : Char) : Prop :=
  ∃ k : Int, 0 < k ∧
    k < max ((fileNumber f2 - fileNumber f1).natAbs : Int)
      ((rankNumber r2 - rankNumber r1).natAbs : Int) ∧
    fileNumber f = fileNumber f1 + k * (fileNumber f2 - fileNumber f1).sign ∧
    rankNumber r = rankNumber r1 + k * (rankNumber r2 - rankNumber r1).sign

/-- Some cell strictly between the two squares is not empty. -/
def BlockedBetween (b : Board) (f1 r1 f2 r2 : Char) : Prop :=
  ∃ f ∈ files, ∃ r ∈ ranks, StrictlyBetween f1 r1 f2 r2 f r ∧
    b.cell [f, r] ≠ some (.str "--".toList)

/-- Every cell strictly between the two squares is empty. -/
def ClearBetween (b : Board) (f1 r1 f2 r2 : Char) : Prop :=
  ∀ f ∈ files, ∀ r ∈ ranks, StrictlyBetween f1 r1 f2 r2 f r →
    b.cell [f, r] = some (.str "--".toList)

/-! ## The squares of the index, for the access test -/

/-- The board has no column but the eight files. -/
def FilesOnly (b : Board) : Prop :=
  ∀ c cells, b.column c = some cells → c ∈ files

/-- Every square of the index begins with one of the eight files. -/
def IndexOnFiles (st : Session) : Prop :=
  ∀ e ∈ st.userPieceMap, ∃ f ∈ files, e.1.get? 0 = some f

/-! # Theorems -/

/-! ## Characters and strings -/

theorem digitIndex_inj {r r' : Char} {i : Nat} (h : digitIndex r = some i)
    (h' : digitIndex r' = some i) : r = r' := by
  unfold digitIndex at h h'
  split at h <;> try contradiction
  split at h' <;> try contradiction
  rename_i hr hr'
  simp only [Option.some.injEq] at h h'
  have e1 : 48 ≤ r.toNat := by
    simp only [Char.isDigit, Bool.and_eq_true, decide_eq_true_eq] at hr
    exact hr.1
  have e2 : 48 ≤ r'.toNat := by
    simp only [Char.isDigit, Bool.and_eq_true, decide_eq_true_eq] at hr'
    exact hr'.1
  have e3 : ('0' : Char).toNat = 48 := by decide
  rw [e3] at h h'
  have : r.toNat = r'.toNat := by omega
  rw [← Char.ofNat_toNat r, ← Char.ofNat_toNat r', this]

theorem toUpper_ne_color (c : Char) (color : Color) :
    [Char.toUpper c] ≠ color.toStr := by
  have key : Char.toUpper c ≠ 'w' ∧ Char.toUpper c ≠ 'b' := by
    unfold Char.toUpper
    simp only
    split
    · rename_i h
      obtain ⟨h1, h2⟩ := h
      generalize c.toNat = n at h1 h2
      interval_cases n <;> decide
    · rename_i h
      constructor
      · rintro rfl
        exact h (by decide)
      · rintro rfl
        exact h (by decide)
  cases color
  · intro h
    exact key.1 (by simpa [Color.toStr] using h)
  · intro h
    exact key.2 (by simpa [Color.toStr] using h)

theorem includes_singleton (s : Str) (c : Char) : includes s [c] = true ↔ c ∈ s := by
  induction s with
  | nil => simp [includes]
  | cons d s ih =>
    simp only [includes, Bool.or_eq_true, ih, List.mem_cons]
    constructor
    · rintro (h | h)
      · left
        simp [List.isPrefixOf] at h
        exact h
      · right; exact h
    · rintro (h | h)
      · left
        subst h
        simp [List.isPrefixOf]
      · right; exact h

theorem Color.toStr_eq (color : Color) : ∃ c, color.toStr = [c] ∧ (c = 'w' ∨ c = 'b') := by
  cases color
  · exact ⟨'w', rfl, Or.inl rfl⟩
  · exact ⟨'b', rfl, Or.inr rfl⟩

/-! ## The index -/

theorem PieceMap.mem_delete {m : PieceMap} {k : Str} {e : Str × Str} :
    e ∈ m.delete k ↔ e ∈ m ∧ e.1 ≠ k := by
  simp [PieceMap.delete, List.mem_filter]

theorem PieceMap.mem_set {m : PieceMap} {k v : Str} {e : Str × Str}
    (h : e ∈ m.set k v) : e = (k, v) ∨ e ∈ m := by
  induction m with
  | nil => simpa [PieceMap.set] using h
  | cons x rest ih =>
    obtain ⟨k', x'⟩ := x
    simp only [PieceMap.set] at h
    split at h
    · rename_i hk
      subst hk
      rcases List.mem_cons.1 h with h | h
      · exact Or.inl h
      · exact Or.inr (List.mem_cons_of_mem _ h)
    · rcases List.mem_cons.1 h with h | h
      · exact Or.inr (h ▸ List.mem_cons_self _ _)
      · rcases ih h with h | h
        · exact Or.inl h
        · exact Or.inr (List.mem_cons_of_mem _ h)

theorem PieceMap.get_set_self (m : PieceMap) (k v : Str) : (m.set k v).get k = some v := by
  induction m with
  | nil => simp [PieceMap.set, PieceMap.get]
  | cons x rest ih =>
    obtain ⟨k', x'⟩ := x
    simp only [PieceMap.set]
    split
    · rename_i hk
      simp [PieceMap.get, hk]
    · rename_i hk
      simp [PieceMap.get, hk, ih]

theorem PieceMap.get_set_other (m : PieceMap) {k k' : Str} (v : Str) (h : k' ≠ k) :
    (m.set k v).get k' = m.get k' := by
  induction m with
  | nil => simp [PieceMap.set, PieceMap.get, Ne.symm h]
  | cons x rest ih =>
    obtain ⟨k0, x0⟩ := x
    simp only [PieceMap.set]
    split
    · rename_i hk
      subst hk
      simp [PieceMap.get, Ne.symm h]
    · simp [PieceMap.get, ih]

theorem PieceMap.get_delete (m : PieceMap) (k k' : Str) :
    (m.delete k).get k' = if k' = k then none else m.get k' := by
  induction m with
  | nil => simp [PieceMap.delete, PieceMap.get]
  | cons x rest ih =>
    obtain ⟨k0, x0⟩ := x
    simp only [PieceMap.delete] at ih ⊢
    by_cases h0 : k0 = k
    · subst h0
      simp only [List.filter, ne_eq, not_true_eq_false, decide_False]
      rw [ih]
      by_cases h1 : k' = k0
      · simp [h1]
      · simp [h1, PieceMap.get, Ne.symm h1]
    · simp only [List.filter, ne_eq, h0, not_false_eq_true, decide_True, PieceMap.get]
      rw [ih]
      by_cases h1 : k0 = k'
      · subst h1
        simp [h0]
      · simp [h1]

theorem PieceMap.mem_of_get {m : PieceMap} {k v : Str} (h : m.get k = some v) : (k, v) ∈ m := by
  induction m with
  | nil => simp [PieceMap.get] at h
  | cons x rest ih =>
    obtain ⟨k0, x0⟩ := x
    simp only [PieceMap.get] at h
    split at h
    · rename_i hk
      simp only [Option.some.injEq] at h
      subst hk; subst h
      exact List.mem_cons_self _ _
    · exact List.mem_cons_of_mem _ (ih h)

theorem PieceMap.get_of_mem {m : PieceMap} {k v : Str} (h : (k, v) ∈ m) : ∃ v', m.get k = some v' := by
  induction m with
  | nil => simp at h
  | cons x rest ih =>
    obtain ⟨k0, x0⟩ := x
    simp only [PieceMap.get]
    split
    · exact ⟨_, rfl⟩
    · rename_i hk
      rcases List.mem_cons.1 h with h | h
      · exact absurd (congrArg Prod.fst h).symm hk
      · exact ih h

theorem PieceMap.has_iff {m : PieceMap} {k : Str} : m.has k = true ↔ ∃ v, m.get k = some v := by
  simp [PieceMap.has, Option.isSome_iff_exists]

/-! ## The board -/

theorem Board.column_setCell (b : Board) (c c' : Char) (i : Nat) (v : Cell) :
    (b.setCell c i v).column c' =
      if c' = c then (b.column c).map (fun col => col.set i v) else b.column c' := by
  induction b with
  | nil => simp [Board.setCell, Board.column]
  | cons x rest ih =>
    obtain ⟨k, col⟩ := x
    simp only [Board.setCell]
    by_cases hk : k = c
    · subst hk
      by_cases hc : c' = k
      · subst hc
        simp [Board.column]
      · simp [Board.column, hc, Ne.symm hc]
    · simp only [hk, if_false, Board.column]
      by_cases hc : k = c'
      · subst hc
        simp [hk]
      · simp only [hc, if_false, ih]

theorem Board.cell_pair (b : Board) (c r : Char) :
    b.cell [c, r] = (b.column c).bind (fun col => (digitIndex r).bind (fun i => col.get? i)) := by
  simp only [Board.cell, Board.columnOf, List.get?, cellAt]
  cases b.column c with
  | none => rfl
  | some col =>
    simp only [Option.bind]
    cases digitIndex r <;> rfl

theorem Board.cell_write (b : Board) (c r c' r' : Char) (v : Cell) :
    (b.write [c, r] v).cell [c', r'] =
      if c' = c ∧ r' = r ∧ (b.cell [c, r]).isSome then some v else b.cell [c', r'] := by
  simp only [Board.write, List.get?, Option.bind]
  cases hi : digitIndex r with
  | none =>
    simp only
    have : b.cell [c, r] = none := by
      rw [Board.cell_pair, hi]
      cases b.column c <;> rfl
    simp [this]
  | some i =>
    simp only
    rw [Board.cell_pair, Board.column_setCell, Board.cell_pair, Board.cell_pair]
    by_cases hc : c' = c
    · subst hc
      simp only [if_true, true_and]
      cases hcol : b.column c' with
      | none => simp
      | some col =>
        simp only [Option.map, Option.bind, hi]
        by_cases hr : r' = r
        · subst hr
          simp only [hi, true_and]
          by_cases hlt : i < col.length
          · simp [List.getElem?_set, hlt, List.getElem?_eq_getElem]
          · have h1 : col.length ≤ i := Nat.le_of_not_lt hlt
            simp [List.getElem?_eq_none, h1]
        · simp only [hr, false_and, if_false]
          cases hj : digitIndex r' with
          | none => rfl
          | some j =>
            have hne : i ≠ j := by
              intro e
              subst e
              exact hr (digitIndex_inj hj hi)
            simp [List.getElem?_set, hne]
    · simp [hc]

/-! ## One application of a move -/

theorem readMove_ok {b : Board} {move mp0 d : Str}
    (h : readMove b move = .ok (mp0, some (.str d))) :
    ∃ c r c' r' rest sCell, move = c :: r :: c' :: r' :: rest ∧
      b.cell [c, r] = some sCell ∧ mp0 = sCell.toStr ∧ mp0 ≠ "--".toList ∧
      b.cell [c', r'] = some (.str d) := by
  rcases move with _ | ⟨c, _ | ⟨r, _ | ⟨c', _ | ⟨r', rest⟩⟩⟩⟩
  · simp [readMove, Board.columnOf] at h
  · simp only [readMove, Board.columnOf, List.take, List.get?, cellAt] at h
    split at h <;> simp at h
  · simp only [readMove, Board.columnOf, List.take, List.drop, List.get?] at h
    split at h
    · simp at h
    · split at h
      · simp at h
      · simp at h
  · simp only [readMove, Board.columnOf, List.take, List.drop, List.get?, cellAt] at h
    split at h
    · simp at h
    · split at h
      · simp at h
      · split at h
        · simp at h
        · split at h <;> simp at h
  · refine ⟨c, r, c', r', rest, ?_⟩
    simp only [readMove, Board.columnOf, List.take, List.drop, List.get?] at h
    split at h
    · simp at h
    · rename_i sCol hs
      split at h
      · simp at h
      · rename_i sCell hsc
        split at h
        · simp at h
        · rename_i dCol hd
          split at h
          · simp at h
          · rename_i hne
            simp only [Except.ok.injEq, Prod.mk.injEq] at h
            refine ⟨sCell, rfl, ?_, h.1.symm, ?_, ?_⟩
            · simp only [Board.cell, Board.columnOf, List.get?, hs, hsc]
            · rw [← h.1]; exact hne
            · simp only [Board.cell, Board.columnOf, List.get?, hd, h.2]

theorem captureStep_ok {color : Color} {m m2 : PieceMap} {sq : Str} {dp : Option Cell}
    (h : captureStep color m sq dp = .ok m2) :
    ∃ d, dp = some (.str d) ∧
      ((includes d color.toStr = true ∧ m.has sq = true ∧ m2 = m.delete sq) ∨
       (includes d color.toStr = false ∧ m2 = m)) := by
  unfold captureStep at h
  split at h
  · rename_i d
    refine ⟨d, rfl, ?_⟩
    split at h
    · rename_i hinc
      unfold deleteUserPiece at h
      split at h
      · rename_i hhas
        simp only [Except.ok.injEq] at h
        exact Or.inl ⟨hinc, hhas, h.symm⟩
      · simp at h
    · rename_i hinc
      simp only [Except.ok.injEq] at h
      exact Or.inr ⟨by simpa using hinc, h.symm⟩
  · simp at h

theorem relocateStep_ok {color : Color} {m m3 : PieceMap} {s d mp : Str}
    (h : relocateStep color m s d mp = .ok m3) :
    (includes mp color.toStr = true ∧ ∃ piece, m.get s = some piece ∧
        m3 = (m.delete s).set d piece) ∨
      (includes mp color.toStr = false ∧ m3 = m) := by
  unfold relocateStep at h
  split at h
  · rename_i hinc
    unfold updateUserPiece at h
    split at h
    · simp at h
    · rename_i piece hget
      simp only [Except.ok.injEq] at h
      exact Or.inl ⟨hinc, piece, hget, h.symm⟩
  · rename_i hinc
    simp only [Except.ok.injEq] at h
    exact Or.inr ⟨by simpa using hinc, h.symm⟩

theorem promotionStep_ok {color : Color} {m m1 : PieceMap} {move mp0 mp : Str}
    (h : promotionStep color m move mp0 = .ok (mp, m1)) :
    (move.length ≠ 5 ∧ mp = mp0 ∧ m1 = m) ∨
    (move.length = 5 ∧ mp = promotedPiece mp0 move ∧
      ((includes mp color.toStr = true ∧ m.has (move.take 2) = true ∧
          m1 = m.set (move.take 2) mp) ∨
       (includes mp color.toStr = false ∧ m1 = m))) := by
  unfold promotionStep at h
  split at h
  · rename_i hlen
    right
    simp only at h
    split at h
    · rename_i hinc
      unfold promoteUserPawn at h
      split at h
      · simp at h
      · rename_i hm
        split at hm
        · simp at hm
        · rename_i v hget
          simp only [Except.ok.injEq] at hm
          simp only [Except.ok.injEq, Prod.mk.injEq] at h
          refine ⟨hlen, h.1.symm, Or.inl ⟨?_, ?_, ?_⟩⟩
          · rw [← h.1]; exact hinc
          · exact PieceMap.has_iff.2 ⟨v, hget⟩
          · rw [← h.2, ← hm, h.1]
    · rename_i hinc
      simp only [Except.ok.injEq, Prod.mk.injEq] at h
      refine ⟨hlen, h.1.symm, Or.inr ⟨?_, h.2.symm⟩⟩
      rw [← h.1]; simpa using hinc
  · rename_i hlen
    simp only [Except.ok.injEq, Prod.mk.injEq] at h
    exact Or.inl ⟨hlen, h.1.symm, h.2.symm⟩

/-- What a call of `moveOnce` that returns normally has done. -/
theorem moveOnce_ok {st st1 : Session} {move mp : Str}
    (h : moveOnce st move = (⟨st1, none⟩, mp)) :
    ∃ c r c' r' rest sCell d m1 m2 m3, move = c :: r :: c' :: r' :: rest ∧
      st.board.cell [c, r] = some sCell ∧ sCell.toStr ≠ "--".toList ∧
      st.board.cell [c', r'] = some (.str d) ∧
      promotionStep st.userColor st.userPieceMap move sCell.toStr = .ok (mp, m1) ∧
      captureStep st.userColor m1 [c', r'] (some (.str d)) = .ok m2 ∧
      relocateStep st.userColor m2 [c, r] [c', r'] mp = .ok m3 ∧
      st1 = { st with
        userPieceMap := m3
        board := writeMove st.board [c, r] [c', r'] mp } := by
  unfold moveOnce at h
  simp only at h
  split at h
  · simp at h
  · rename_i mp0 dp hread
    split at h
    · simp at h
    · rename_i mp' m1 hprom
      split at h
      · simp at h
      · rename_i m2 hcap
        split at h
        · simp at h
        · rename_i m3 hrel
          simp only [Prod.mk.injEq, Run.mk.injEq, and_true] at h
          obtain ⟨hst, hmp⟩ := h
          subst hmp
          obtain ⟨d, hd, -⟩ := captureStep_ok hcap
          subst hd
          obtain ⟨c, r, c', r', rest, sCell, hmove, hs, hmp0, hne, hdc⟩ := readMove_ok hread
          subst hmove
          subst hmp0
          refine ⟨c, r, c', r', rest, sCell, d, m1, m2, m3, rfl, hs, hne, hdc, hprom, ?_, ?_, ?_⟩
          · simpa using hcap
          · simpa using hrel
          · rw [← hst]; rfl

theorem not_mem_toUpperCase (color : Color) (u : Char) (hu : color.toStr = [u]) (t : Str) :
    u ∉ toUpperCase t := by
  intro h
  simp only [toUpperCase, List.mem_map] at h
  obtain ⟨x, -, hx⟩ := h
  exact toUpper_ne_color x color (by rw [hu, hx])

theorem promoted_head {color : Color} {mp0 move : Str}
    (h : includes (promotedPiece mp0 move) color.toStr = true) :
    (promotedPiece mp0 move).head? = color.toStr.head? ∧ mp0.head? = color.toStr.head? := by
  obtain ⟨u, hu, hwb⟩ := color.toStr_eq
  rw [hu, includes_singleton] at h
  rw [hu]
  unfold promotedPiece at h ⊢
  cases mp0 with
  | nil =>
    exfalso
    simp only [List.head?, List.mem_append] at h
    rcases h with h | h
    · rcases hwb with rfl | rfl <;> revert h <;> decide
    · exact not_mem_toUpperCase color u hu _ h
  | cons x t =>
    simp only [List.head?, List.singleton_append, List.mem_cons] at h ⊢
    rcases h with h | h
    · subst h; exact ⟨rfl, rfl⟩
    · exact absurd h (not_mem_toUpperCase color u hu _)

theorem not_includes_empty (color : Color) : includes "--".toList color.toStr = false := by
  cases color <;> decide

theorem not_includes_zero (color : Color) : includes Cell.zero.toStr color.toStr = false := by
  cases color <;> decide

theorem Board.cell_writeMove {b : Board} {c r c' r' : Char} {sCell dCell : Cell} (mp : Str)
    (hs : b.cell [c, r] = some sCell) (hd : b.cell [c', r'] = some dCell) (x y : Char) :
    (writeMove b [c, r] [c', r'] mp).cell [x, y] =
      if x = c ∧ y = r then some (.str "--".toList)
      else if x = c' ∧ y = r' then some (.str mp)
      else b.cell [x, y] := by
  unfold writeMove
  rw [Board.cell_write, Board.cell_write, Board.cell_write]
  simp only [hs, hd, Option.isSome_some, and_true]
  by_cases h1 : x = c ∧ y = r
  · obtain ⟨rfl, rfl⟩ := h1
    by_cases h2 : x = c' ∧ y = r'
    · simp [h2]
    · simp [h2, hs]
  · simp only [h1, if_false]
    have : ¬ (x = c ∧ y = r ∧ (if c = c' ∧ r = r' then some (Cell.str mp) else some sCell).isSome = true) := by
      intro h
      exact h1 ⟨h.1, h.2.1⟩
    simp only [this, if_false]

/-- What a successful `moveOnce` does to the index, seen from a session that
satisfies the invariant: the entries that remain are old ones away from the
two squares of the move, the moved piece is indexed on its destination when
it is the user's, and no other square changes its entry. -/
theorem moveOnce_index {st : Session} (hinv : Inv st) {c r c' r' : Char} {rest : Str}
    {sCell : Cell} {d mp : Str} {m1 m2 m3 : PieceMap}
    (hs : st.board.cell [c, r] = some sCell)
    (hd : st.board.cell [c', r'] = some (.str d))
    (hprom : promotionStep st.userColor st.userPieceMap (c :: r :: c' :: r' :: rest)
      sCell.toStr = .ok (mp, m1))
    (hcap : captureStep st.userColor m1 [c', r'] (some (.str d)) = .ok m2)
    (hrel : relocateStep st.userColor m2 [c, r] [c', r'] mp = .ok m3) :
    (∀ e ∈ m3, (e = ([c', r'], mp) ∧ includes mp st.userColor.toStr = true
          ∧ ([c, r] : Str) ≠ [c', r'])
        ∨ (e ∈ st.userPieceMap ∧ e.1 ≠ [c, r] ∧ e.1 ≠ [c', r'])) ∧
    (∀ k : Str, k ≠ [c, r] → k ≠ [c', r'] → m3.get k = st.userPieceMap.get k) ∧
    (includes mp st.userColor.toStr = true → m3.get [c', r'] = some mp) ∧
    (includes mp st.userColor.toStr = true → mp.head? = st.userColor.toStr.head?) := by
  obtain ⟨u, hu, hwb⟩ := st.userColor.toStr_eq
  have htake : (c :: r :: c' :: r' :: rest).take 2 = [c, r] := rfl
  -- the colour of the moving piece before and after a promotion
  have hSrc : includes mp st.userColor.toStr = true ↔
      includes sCell.toStr st.userColor.toStr = true := by
    rcases promotionStep_ok hprom with ⟨-, hmp, -⟩ | ⟨-, hmp, -⟩
    · rw [hmp]
    · constructor
      · intro h
        rw [hmp] at h
        have h2 := (promoted_head h).2
        rw [hu, includes_singleton]
        rw [hu] at h2
        cases hst : sCell.toStr with
        | nil => rw [hst] at h2; simp at h2
        | cons x t =>
          rw [hst] at h2
          simp only [List.head?, Option.some.injEq] at h2
          subst h2
          exact List.mem_cons_self _ _
      · intro h
        cases sCell with
        | zero => rw [not_includes_zero] at h; exact absurd h (by simp)
        | str v =>
          have h3 := hinv.colorFirst [c, r] v hs h
          rw [hmp, hu, includes_singleton]
          rw [hu] at h3
          simp only [Cell.toStr]
          cases v with
          | nil => simp at h3
          | cons x t =>
            simp only [List.head?, Option.some.injEq] at h3
            subst h3
            simp [promotedPiece]
  have hHead : includes mp st.userColor.toStr = true → mp.head? = st.userColor.toStr.head? := by
    intro h
    rcases promotionStep_ok hprom with ⟨-, hmp, -⟩ | ⟨-, hmp, -⟩
    · cases sCell with
      | zero => rw [hmp, not_includes_zero] at h; exact absurd h (by simp)
      | str v =>
        rw [hmp] at h ⊢
        exact hinv.colorFirst [c, r] v hs h
    · rw [hmp] at h ⊢
      exact (promoted_head h).1
  -- an old entry on the moving square carries the cell of that square
  have hOld : ∀ p, ([c, r], p) ∈ st.userPieceMap → sCell = .str p ∧
      includes mp st.userColor.toStr = true := by
    intro p hp
    have h1 := hinv.onBoard _ hp
    simp only at h1
    rw [hs] at h1
    simp only [Option.some.injEq] at h1
    refine ⟨h1, ?_⟩
    rw [hSrc, h1]
    exact hinv.colored _ hp
  have hM1mem : ∀ e ∈ m1, e.1 ≠ [c, r] → e ∈ st.userPieceMap := by
    intro e he hne
    rcases promotionStep_ok hprom with ⟨-, -, hm1⟩ | ⟨-, -, ⟨-, -, hm1⟩ | ⟨-, hm1⟩⟩
    · rw [hm1] at he; exact he
    · rw [hm1, htake] at he
      rcases PieceMap.mem_set he with h | h
      · exact absurd (congrArg Prod.fst h) hne
      · exact h
    · rw [hm1] at he; exact he
  have hM1get : ∀ k : Str, k ≠ [c, r] → m1.get k = st.userPieceMap.get k := by
    intro k hk
    rcases promotionStep_ok hprom with ⟨-, -, hm1⟩ | ⟨-, -, ⟨-, -, hm1⟩ | ⟨-, hm1⟩⟩
    · rw [hm1]
    · rw [hm1, htake]
      exact PieceMap.get_set_other _ _ hk
    · rw [hm1]
  have hM1eq : includes mp st.userColor.toStr = false → m1 = st.userPieceMap := by
    intro h
    rcases promotionStep_ok hprom with ⟨-, -, hm1⟩ | ⟨-, -, ⟨hinc, -, -⟩ | ⟨-, hm1⟩⟩
    · exact hm1
    · rw [h] at hinc; exact absurd hinc (by simp)
    · exact hm1
  have hGetS : ∀ piece, m1.get [c, r] = some piece → piece = mp := by
    intro piece hget
    rcases promotionStep_ok hprom with ⟨-, hmp, hm1⟩ | ⟨-, hmp, ⟨-, -, hm1⟩ | ⟨hinc, hm1⟩⟩
    · rw [hm1] at hget
      have := (hOld piece (PieceMap.mem_of_get hget)).1
      rw [hmp, this]; rfl
    · rw [hm1, htake, PieceMap.get_set_self] at hget
      simp only [Option.some.injEq] at hget
      exact hget.symm
    · rw [hm1] at hget
      have := (hOld piece (PieceMap.mem_of_get hget)).2
      rw [hinc] at this
      exact absurd this (by simp)
  -- the capture
  obtain ⟨d0, hd0, hcase⟩ := captureStep_ok hcap
  simp only [Option.some.injEq, Cell.str.injEq] at hd0
  subst hd0
  have hM2mem : ∀ e ∈ m2, e ∈ m1 := by
    intro e he
    rcases hcase with ⟨-, -, hm2⟩ | ⟨-, hm2⟩
    · rw [hm2] at he; exact (PieceMap.mem_delete.1 he).1
    · rw [hm2] at he; exact he
  have hNoD : ∀ e ∈ m2, e.1 ≠ [c, r] → e.1 ≠ [c', r'] := by
    intro e he hne
    rcases hcase with ⟨-, -, hm2⟩ | ⟨hdinc, hm2⟩
    · rw [hm2] at he; exact (PieceMap.mem_delete.1 he).2
    · rw [hm2] at he
      have hem := hM1mem e he hne
      intro heq
      have h1 := hinv.onBoard e hem
      rw [heq, hd] at h1
      simp only [Option.some.injEq, Cell.str.injEq] at h1
      have h2 := hinv.colored e hem
      rw [← h1, hdinc] at h2
      exact absurd h2 (by simp)
  have hM2get : ∀ k : Str, k ≠ [c', r'] → m2.get k = m1.get k := by
    intro k hk
    rcases hcase with ⟨-, -, hm2⟩ | ⟨-, hm2⟩
    · rw [hm2, PieceMap.get_delete, if_neg hk]
    · rw [hm2]
  -- the relocation
  rcases relocateStep_ok hrel with ⟨hinc, piece, hget, hm3⟩ | ⟨hinc, hm3⟩
  · have hsd : ([c, r] : Str) ≠ [c', r'] := by
      intro heq
      rcases hcase with ⟨-, -, hm2⟩ | ⟨hdinc, -⟩
      · rw [hm2, PieceMap.get_delete, if_pos heq] at hget
        exact absurd hget (by simp)
      · rw [heq, hd] at hs
        simp only [Option.some.injEq] at hs
        have := hSrc.1 hinc
        rw [← hs] at this
        simp only [Cell.toStr] at this
        rw [hdinc] at this
        exact absurd this (by simp)
    have hpiece : piece = mp := by
      apply hGetS
      rw [← hM2get _ hsd]
      exact hget
    subst hpiece
    refine ⟨?_, ?_, ?_, hHead⟩
    · intro e he
      rw [hm3] at he
      rcases PieceMap.mem_set he with h | h
      · exact Or.inl ⟨h, hinc, hsd⟩
      · obtain ⟨h1, h2⟩ := PieceMap.mem_delete.1 h
        exact Or.inr ⟨hM1mem e (hM2mem e h1) h2, h2, hNoD e h1 h2⟩
    · intro k hk1 hk2
      rw [hm3, PieceMap.get_set_other _ _ hk2, PieceMap.get_delete, if_neg hk1,
        hM2get k hk2, hM1get k hk1]
    · intro _
      rw [hm3, PieceMap.get_set_self]
  · have hm1 := hM1eq hinc
    refine ⟨?_, ?_, ?_, hHead⟩
    · intro e he
      rw [hm3] at he
      have hem : e ∈ st.userPieceMap := by
        have := hM2mem e he
        rw [hm1] at this
        exact this
      have hne : e.1 ≠ [c, r] := by
        intro heq
        have := (hOld e.2 (by rw [← heq]; exact hem)).2
        rw [hinc] at this
        exact absurd this (by simp)
      exact Or.inr ⟨hem, hne, hNoD e he hne⟩
    · intro k hk1 hk2
      rw [hm3, hM2get k hk2, hM1get k hk1]
    · intro h
      rw [hinc] at h
      exact absurd h (by simp)

theorem moveOnce_userColor {st st1 : Session} {move mp : Str}
    (h : moveOnce st move = (⟨st1, none⟩, mp)) : st1.userColor = st.userColor := by
  obtain ⟨c, r, c', r', rest, sCell, d, m1, m2, m3, -, -, -, -, -, -, -, hst⟩ := moveOnce_ok h
  rw [hst]

/-- A successful `moveOnce` keeps the invariant. -/
theorem inv_moveOnce {st st1 : Session} {move mp : Str} (hinv : Inv st)
    (h : moveOnce st move = (⟨st1, none⟩, mp)) : Inv st1 := by
  obtain ⟨c, r, c', r', rest, sCell, d, m1, m2, m3, hmove, hs, -, hd, hprom, hcap, hrel, hst⟩ :=
    moveOnce_ok h
  subst hmove
  obtain ⟨hmem, hget, hdest, hhead⟩ := moveOnce_index hinv hs hd hprom hcap hrel
  have hboard : ∀ x y, st1.board.cell [x, y] =
      if x = c ∧ y = r then some (.str "--".toList)
      else if x = c' ∧ y = r' then some (.str mp)
      else st.board.cell [x, y] := by
    intro x y
    rw [hst]
    exact Board.cell_writeMove mp hs hd x y
  have hmap : st1.userPieceMap = m3 := by rw [hst]
  have hcol : st1.userColor = st.userColor := by rw [hst]
  refine ⟨?_, ?_, ?_, ?_, ?_⟩
  · intro e he
    rw [hmap] at he
    rcases hmem e he with ⟨h1, -, h3⟩ | ⟨h1, h2, h3⟩
    · rw [h1]
      simp only
      rw [hboard]
      have : ¬ (c' = c ∧ r' = r) := by
        rintro ⟨rfl, rfl⟩
        exact h3 rfl
      simp [this]
    · obtain ⟨x, y, hxy⟩ := List.length_eq_two.1 (hinv.twoChars e h1)
      have hold := hinv.onBoard e h1
      rw [hxy] at h2 h3 hold ⊢
      rw [hboard]
      have n1 : ¬ (x = c ∧ y = r) := by
        rintro ⟨rfl, rfl⟩
        exact h2 rfl
      have n2 : ¬ (x = c' ∧ y = r') := by
        rintro ⟨rfl, rfl⟩
        exact h3 rfl
      simp only [n1, n2, if_false]
      exact hold
  · intro file hf rank hr piece hcell hinc
    rw [hcol] at hinc
    rw [hboard] at hcell
    rw [hmap]
    by_cases n1 : file = c ∧ rank = r
    · simp only [n1, and_self, if_true, Option.some.injEq, Cell.str.injEq] at hcell
      rw [← hcell, not_includes_empty] at hinc
      exact absurd hinc (by simp)
    · simp only [n1, if_false] at hcell
      by_cases n2 : file = c' ∧ rank = r'
      · simp only [n2, and_self, if_true, Option.some.injEq, Cell.str.injEq] at hcell
        rw [← hcell] at hinc
        rw [n2.1, n2.2]
        exact PieceMap.has_iff.2 ⟨mp, hdest hinc⟩
      · simp only [n2, if_false] at hcell
        have hold := hinv.indexed file hf rank hr piece hcell hinc
        have e1 : ([file, rank] : Str) ≠ [c, r] := by
          intro h
          simp only [List.cons.injEq, and_true] at h
          exact n1 h
        have e2 : ([file, rank] : Str) ≠ [c', r'] := by
          intro h
          simp only [List.cons.injEq, and_true] at h
          exact n2 h
        simp only [PieceMap.has] at hold ⊢
        rw [hget _ e1 e2]
        exact hold
  · intro e he
    rw [hmap] at he
    rw [hcol]
    rcases hmem e he with ⟨h1, h2, -⟩ | ⟨h1, -, -⟩
    · rw [h1]; exact h2
    · exact hinv.colored e h1
  · intro e he
    rw [hmap] at he
    rcases hmem e he with ⟨h1, -, -⟩ | ⟨h1, -, -⟩
    · rw [h1]; rfl
    · exact hinv.twoChars e h1
  · intro sq piece hcell hinc
    rw [hcol] at hinc ⊢
    rcases sq with _ | ⟨x, _ | ⟨y, tl⟩⟩
    · simp [Board.cell, Board.columnOf] at hcell
    · simp only [Board.cell, Board.columnOf, List.get?, cellAt] at hcell
      split at hcell <;> simp at hcell
    · have hsame : st1.board.cell (x :: y :: tl) = st1.board.cell [x, y] := by
        simp only [Board.cell, List.get?]
      have hsame0 : st.board.cell (x :: y :: tl) = st.board.cell [x, y] := by
        simp only [Board.cell, List.get?]
      rw [hsame, hboard] at hcell
      by_cases n1 : x = c ∧ y = r
      · simp only [n1, and_self, if_true, Option.some.injEq, Cell.str.injEq] at hcell
        rw [← hcell, not_includes_empty] at hinc
        exact absurd hinc (by simp)
      · simp only [n1, if_false] at hcell
        by_cases n2 : x = c' ∧ y = r'
        · simp only [n2, and_self, if_true, Option.some.injEq, Cell.str.injEq] at hcell
          rw [← hcell] at hinc ⊢
          exact hhead hinc
        · simp only [n2, if_false] at hcell
          exact hinv.colorFirst (x :: y :: tl) piece (by rw [hsame0]; exact hcell) hinc

/-- No value of `castleMap` is one of its keys: the nested call of line 217
makes no further call. -/
theorem castleGet_value {move rookMove : Str} (h : castleGet castleMap move = some rookMove) :
    castleGet castleMap rookMove = none := by
  simp only [castleGet, castleMap] at h
  split at h
  · simp only [Option.some.injEq] at h; subst h; decide
  · split at h
    · simp only [Option.some.injEq] at h; subst h; decide
    · split at h
      · simp only [Option.some.injEq] at h; subst h; decide
      · split at h
        · simp only [Option.some.injEq] at h; subst h; decide
        · simp at h

/-- A successful `movePiece` is one successful `moveOnce`, or two for a
castle. -/
theorem movePiece_ok {st : Session} {move : Str} (h : (movePiece st move).err = none) :
    (∃ mp, moveOnce st move = (⟨(movePiece st move).st, none⟩, mp) ∧
        (castleGet castleMap move = none ∨ includes mp "K".toList = false)) ∨
    (∃ st1 mp rookMove mp2, moveOnce st move = (⟨st1, none⟩, mp) ∧
        castleGet castleMap move = some rookMove ∧ includes mp "K".toList = true ∧
        moveOnce st1 rookMove = (⟨(movePiece st move).st, none⟩, mp2)) := by
  unfold movePiece at h ⊢
  unfold movePieceAux at h ⊢
  split at h
  · simp at h
  · rename_i st1 mp hone
    rw [hone]
    simp only
    split at h
    · rename_i rookMove hc
      split at h
      · rename_i hK
        right
        unfold movePieceAux at h ⊢
        split at h
        · simp at h
        · rename_i st2 mp2 htwo
          refine ⟨st1, mp, rookMove, mp2, rfl, hc, hK, ?_⟩
          rw [htwo]
          simp only [hc, hK, if_true, htwo, castleGet_value hc]
      · rename_i hK
        left
        refine ⟨mp, ?_, Or.inr (by simpa using hK)⟩
        simp only [hc, hK]
        rfl
    · rename_i hc
      left
      refine ⟨mp, ?_, Or.inl hc⟩
      simp only [hc]

/-- A successful `movePiece` keeps the invariant. -/
theorem inv_movePiece {st : Session} {move : Str} (hinv : Inv st)
    (h : (movePiece st move).err = none) : Inv (movePiece st move).st := by
  rcases movePiece_ok h with ⟨mp, h1, -⟩ | ⟨st1, mp, rookMove, mp2, h1, -, -, h2⟩
  · exact inv_moveOnce hinv h1
  · exact inv_moveOnce (inv_moveOnce hinv h1) h2

theorem Board.column_mem {b : Board} {c : Char} {col : List Cell} (h : b.column c = some col) :
    col ∈ b.map Prod.snd := by
  induction b with
  | nil => simp [Board.column] at h
  | cons x rest ih =>
    obtain ⟨k, col0⟩ := x
    simp only [Board.column] at h
    split at h
    · simp only [Option.some.injEq] at h
      subst h
      simp
    · simp only [List.map_cons, List.mem_cons]
      exact Or.inr (ih h)

theorem Board.cell_mem {b : Board} {sq : Str} {x : Cell} (h : b.cell sq = some x) :
    x ∈ (b.map Prod.snd).flatten := by
  unfold Board.cell at h
  split at h
  · rename_i col hcol
    unfold Board.columnOf at hcol
    split at hcol
    · rename_i c
      have hm := Board.column_mem hcol
      unfold cellAt at h
      split at h
      · split at h
        · rename_i i _
          exact List.mem_flatten.2 ⟨col, hm, List.get?_mem h⟩
        · simp at h
      · simp at h
    · simp at hcol
  · simp at h

/-- The freshly initialised session satisfies the invariant. -/
theorem inv_freshSession (color : Color) : Inv (freshSession color) := by
  refine ⟨?_, ?_, ?_, ?_, ?_⟩
  · unfold IndexOnBoard
    cases color <;> decide
  · intro file hf rank hr piece hcell hinc
    have key : ∀ file ∈ files, ∀ rank ∈ ranks,
        (match (BoardState.freshSession color).board.cell [file, rank] with
          | some (.str p) => !(includes p (BoardState.freshSession color).userColor.toStr)
              || (BoardState.freshSession color).userPieceMap.has [file, rank]
          | _ => true) = true := by
      cases color <;> decide
    have := key file hf rank hr
    rw [hcell] at this
    simp only [hinc, Bool.not_true, Bool.false_or] at this
    exact this
  · cases color <;> decide
  · cases color <;> decide
  · intro sq piece hcell hinc
    have key : ∀ x ∈ ((BoardState.freshSession color).board.map Prod.snd).flatten,
        (match x with
          | .str p => !(includes p (BoardState.freshSession color).userColor.toStr)
              || decide (p.head? = (BoardState.freshSession color).userColor.toStr.head?)
          | _ => true) = true := by
      cases color <;> decide
    have := key _ (Board.cell_mem hcell)
    simp only [hinc, Bool.not_true, Bool.false_or, decide_eq_true_eq] at this
    exact this

/-- Every reachable session satisfies the invariant. -/
theorem inv_of_reachable {color : Color} {st : Session} (h : Reachable color st) : Inv st := by
  induction h with
  | init => exact inv_freshSession color
  | move m _ hok ih => exact inv_movePiece ih hok

/-! ## Exceptions of `movePiece` and the history check -/

theorem moveOnce_err_mem {st st1 : Session} {move mp : Str} {e : Err}
    (h : moveOnce st move = (⟨st1, some e⟩, mp)) : e ∈ moveErrors := by
  unfold moveOnce at h
  simp only at h
  split at h
  · rename_i e0 hread
    simp only [Prod.mk.injEq, Run.mk.injEq, Option.some.injEq] at h
    obtain ⟨⟨-, he⟩, -⟩ := h
    subst he
    unfold readMove at hread
    simp only at hread
    split at hread
    · simp only [Except.error.injEq] at hread; subst hread; decide
    · split at hread
      · simp only [Except.error.injEq] at hread; subst hread; decide
      · split at hread
        · simp only [Except.error.injEq] at hread; subst hread; decide
        · split at hread
          · simp only [Except.error.injEq] at hread; subst hread; decide
          · simp at hread
  · split at h
    · rename_i e0 hprom
      simp only [Prod.mk.injEq, Run.mk.injEq, Option.some.injEq] at h
      obtain ⟨⟨-, he⟩, -⟩ := h
      subst he
      unfold promotionStep at hprom
      split at hprom
      · simp only at hprom
        split at hprom
        · unfold promoteUserPawn at hprom
          split at hprom
          · rename_i e1 hp
            split at hp
            · simp only [Except.error.injEq] at hp hprom; subst hprom; subst hp; decide
            · simp at hp
          · simp at hprom
        · simp at hprom
      · simp at hprom
    · split at h
      · rename_i e0 hcap
        simp only [Prod.mk.injEq, Run.mk.injEq, Option.some.injEq] at h
        obtain ⟨⟨-, he⟩, -⟩ := h
        subst he
        unfold captureStep at hcap
        split at hcap
        · split at hcap
          · unfold deleteUserPiece at hcap
            split at hcap
            · simp at hcap
            · simp only [Except.error.injEq] at hcap; subst hcap; decide
          · simp at hcap
        · simp only [Except.error.injEq] at hcap; subst hcap; decide
      · split at h
        · rename_i e0 hrel
          simp only [Prod.mk.injEq, Run.mk.injEq, Option.some.injEq] at h
          obtain ⟨⟨-, he⟩, -⟩ := h
          subst he
          unfold relocateStep at hrel
          split at hrel
          · unfold updateUserPiece at hrel
            split at hrel
            · simp only [Except.error.injEq] at hrel; subst hrel; decide
            · simp at hrel
          · simp at hrel
        · simp at h

theorem moveErrors_spec : ∀ e ∈ moveErrors, e.isInconsistentHistory = false ∧ e ≠ .bound := by
  decide

theorem moveOnce_err {st st1 : Session} {move mp : Str} {e : Err}
    (h : moveOnce st move = (⟨st1, some e⟩, mp)) : e.isInconsistentHistory = false :=
  (moveErrors_spec e (moveOnce_err_mem h)).1

theorem movePieceAux_err (n : Nat) {st : Session} {move : Str} {e : Err}
    (h : (movePieceAux n st move).err = some e) : e.isInconsistentHistory = false := by
  induction n generalizing st move with
  | zero =>
    unfold movePieceAux at h
    split at h
    · rename_i st1 e0 _ hone
      simp only [Option.some.injEq] at h
      subst h
      exact moveOnce_err hone
    · split at h
      · split at h
        · simp only [Option.some.injEq] at h; subst h; rfl
        · simp at h
      · simp at h
  | succ k ih =>
    unfold movePieceAux at h
    split at h
    · rename_i st1 e0 _ hone
      simp only [Option.some.injEq] at h
      subst h
      exact moveOnce_err hone
    · split at h
      · split at h
        · exact ih h
        · simp at h
      · simp at h

theorem applyAll_err {st : Session} {moves : List Str} {e : Err}
    (h : (applyAll st moves).err = some e) : e.isInconsistentHistory = false := by
  induction moves generalizing st with
  | nil => simp [applyAll] at h
  | cons m rest ih =>
    unfold applyAll at h
    split at h
    · exact ih h
    · rename_i st1 e0 hm
      simp only [Option.some.injEq] at h
      subst h
      have : (movePiece st m).err = some e0 := by rw [hm]
      exact movePieceAux_err 1 this

theorem isMovesListValid_iff (movesList updated : List Str) :
    isMovesListValid movesList updated = true ↔ movesList <+: updated := by
  unfold isMovesListValid
  rw [List.all_eq_true, List.prefix_iff_eq_take]
  constructor
  · intro h
    apply List.ext_getElem?
    intro i
    by_cases hi : i < movesList.length
    · have := h i (List.mem_range.2 hi)
      simp only [List.get?_eq_getElem?, beq_iff_eq] at this
      rw [List.getElem?_take_of_lt hi, this]
    · have h1 : movesList.length ≤ i := Nat.le_of_not_lt hi
      rw [List.getElem?_eq_none h1, List.getElem?_eq_none]
      rw [List.length_take]
      omega
  · intro h i hi
    have hi := List.mem_range.1 hi
    simp only [List.get?_eq_getElem?, beq_iff_eq]
    conv_rhs => rw [h]
    rw [List.getElem?_take_of_lt hi]

/-! ## What no move touches -/

theorem moveOnce_fixedPart (st : Session) (move : Str) :
    (moveOnce st move).1.st.fixedPart = st.fixedPart := by
  unfold moveOnce
  simp only
  split
  · rfl
  · split
    · rfl
    · split
      · rfl
      · split <;> rfl

theorem movePieceAux_fixedPart (n : Nat) (st : Session) (move : Str) :
    (movePieceAux n st move).st.fixedPart = st.fixedPart := by
  induction n generalizing st move with
  | zero =>
    unfold movePieceAux
    have h1 := moveOnce_fixedPart st move
    split
    · rename_i hone; rw [hone] at h1; exact h1
    · rename_i hone
      rw [hone] at h1
      split
      · split <;> exact h1
      · exact h1
  | succ k ih =>
    unfold movePieceAux
    have h1 := moveOnce_fixedPart st move
    split
    · rename_i hone; rw [hone] at h1; exact h1
    · rename_i hone
      rw [hone] at h1
      split
      · split
        · rw [ih]; exact h1
        · exact h1
      · exact h1

theorem applyAll_fixedPart (st : Session) (moves : List Str) :
    (applyAll st moves).st.fixedPart = st.fixedPart := by
  induction moves generalizing st with
  | nil => rfl
  | cons m rest ih =>
    unfold applyAll
    have h1 := movePieceAux_fixedPart 1 st m
    split
    · rename_i hm
      unfold movePiece at hm
      rw [hm] at h1
      rw [ih]; exact h1
    · rename_i hm
      unfold movePiece at hm
      rw [hm] at h1
      exact h1

/-- Neither `movePiece` nor `updateGameState` assigns the user's colour or a
castle target. -/
theorem updateGameState_fixedPart (st : Session) (reported : List Str) :
    (updateGameState st reported).st.fixedPart = st.fixedPart := by
  unfold updateGameState
  split
  · have h1 := applyAll_fixedPart st reported
    split
    · rename_i hall; rw [hall] at h1; exact h1
    · rename_i hall; rw [hall] at h1; exact h1
  · split
    · split
      · rfl
      · split
        · rfl
        · rename_i newMove _
          have h1 := movePieceAux_fixedPart 1 st newMove
          split
          · rename_i hm
            unfold movePiece at hm
            rw [hm] at h1; exact h1
          · rename_i hm
            unfold movePiece at hm
            rw [hm] at h1; exact h1
    · rfl

/-! ## The bounds of the embedding are never reached -/

/-- The nesting bound of `movePiece` is never reached: the call returns or
throws as the script does. -/
theorem movePiece_ne_bound (st : Session) (move : Str) :
    (movePiece st move).err ≠ some .bound := by
  intro h
  unfold movePiece movePieceAux at h
  split at h
  · rename_i st1 e _ hone
    simp only [Option.some.injEq] at h
    subst h
    exact (moveErrors_spec _ (moveOnce_err_mem hone)).2 rfl
  · split at h
    · rename_i rookMove hc
      split at h
      · unfold movePieceAux at h
        split at h
        · rename_i st2 e _ htwo
          simp only [Option.some.injEq] at h
          subst h
          exact (moveErrors_spec _ (moveOnce_err_mem htwo)).2 rfl
        · simp [castleGet_value hc] at h
      · simp at h
    · simp at h

theorem length_le_sum {b : Board} {col : List Cell} (h : col ∈ b.map Prod.snd) :
    col.length ≤ (b.map (fun e => e.2.length)).sum := by
  induction b with
  | nil => simp at h
  | cons x rest ih =>
    simp only [List.map_cons, List.mem_cons, List.sum_cons] at h ⊢
    rcases h with h | h
    · subst h; omega
    · have := ih h
      omega

theorem columnNamed_some {b : Board} {i : Int} {col : List Cell}
    (h : b.columnNamed (columnName i) = some col) :
    1 ≤ i ∧ i ≤ 8 ∧ col ∈ b.map Prod.snd := by
  unfold columnName at h
  split at h
  · rename_i n
    have hn : n < 9 ∨ 9 ≤ n := Nat.lt_or_ge n 9
    rcases hn with hn | hn
    · interval_cases n
      · simp [columns, Board.columnNamed] at h
      all_goals
        simp only [columns, List.get?, Board.columnNamed, String.toList] at h
        exact ⟨by decide, by decide, Board.column_mem h⟩
    · have : columns.get? n = none := by
        rw [List.get?_eq_none]
        simpa [columns] using hn
      rw [this] at h
      simp [Board.columnNamed] at h
  · simp [Board.columnNamed] at h

theorem cellAtNum_some {col : List Cell} {row : Option Int} {x : Cell}
    (h : cellAtNum col row = some x) : ∃ n : Nat, row = some (n : Int) ∧ n < col.length := by
  unfold cellAtNum at h
  split at h
  · rename_i n
    refine ⟨n, rfl, ?_⟩
    by_contra hlt
    rw [List.get?_eq_none.2 (Nat.le_of_not_lt hlt)] at h
    simp at h
  · simp at h

/-- The loop of `isBlocked` ends before its bound when some measure of the
position goes down at every pass that goes on. -/
theorem isBlockedLoop_ne_bound (b : Board) (c : Coordinates) (rowDir colDir : Int)
    (m : Option Int → Int → Nat)
    (hm : ∀ row col cells, b.columnNamed (columnName col) = some cells →
      cellAtNum cells row = some (.str "--".toList) →
      m (numAdd row rowDir) (col + colDir) < m row col) :
    ∀ fuel row col, m row col < fuel →
      isBlockedLoop b c rowDir colDir fuel row col ≠ .error .bound := by
  intro fuel
  induction fuel with
  | zero => intro row col h; omega
  | succ k ih =>
    intro row col h
    unfold isBlockedLoop
    split
    · simp
    · split
      · simp
      · rename_i cells hcells
        split
        · simp
        · rename_i hcell
          have hcell2 : cellAtNum cells row = some (.str "--".toList) := by
            simpa using hcell
          have := hm row col cells hcells hcell2
          exact ih _ _ (by omega)

/-- The loop of `isBlocked` always ends: the model never reaches its bound on
the number of passes. -/
theorem isBlocked_ne_bound (b : Board) (c : Coordinates) : isBlocked b c ≠ .error .bound := by
  unfold isBlocked
  simp only
  have hdir : ∀ (rowDir colDir : Int), (rowDir = 1 ∨ rowDir = -1 ∨ rowDir = 0) →
      (colDir = 1 ∨ colDir = -1 ∨ (colDir = 0 ∧ (rowDir = 1 ∨ rowDir = -1))) →
      ∀ row col, isBlockedLoop b c rowDir colDir (walkBound b) row col ≠ .error .bound := by
    intro rowDir colDir hr hc row col
    rcases hc with hc | hc | ⟨hc, hr2⟩
    · -- towards column h
      subst hc
      apply isBlockedLoop_ne_bound b c rowDir 1
        (fun _ col => if 1 ≤ col ∧ col ≤ 8 then (9 - col).toNat else 0)
      · intro row col cells hcells _
        obtain ⟨h1, h2, -⟩ := columnNamed_some hcells
        simp only [h1, h2, and_self, if_true]
        split <;> omega
      · simp only [walkBound]
        split <;> omega
    · -- towards column a
      subst hc
      apply isBlockedLoop_ne_bound b c rowDir (-1)
        (fun _ col => if 1 ≤ col ∧ col ≤ 8 then col.toNat else 0)
      · intro row col cells hcells _
        obtain ⟨h1, h2, -⟩ := columnNamed_some hcells
        simp only [h1, h2, and_self, if_true]
        split <;> omega
      · simp only [walkBound]
        split <;> omega
    · -- along a column
      subst hc
      have hL : ∀ col cells, b.columnNamed (columnName col) = some cells →
          cells.length ≤ (b.map (fun e => e.2.length)).sum := fun col cells h =>
        length_le_sum (columnNamed_some h).2.2
      rcases hr2 with hr2 | hr2
      · subst hr2
        apply isBlockedLoop_ne_bound b c 1 0
          (fun row _ => match row with
            | some (Int.ofNat n) => (b.map (fun e => e.2.length)).sum - n
            | _ => 0)
        · intro row col cells hcells hcell
          obtain ⟨n, hn, hlt⟩ := cellAtNum_some hcell
          have := hL col cells hcells
          subst hn
          simp only [numAdd, Option.map]
          have e : ((n : Int) + 1) = Int.ofNat (n + 1) := by simp
          rw [e]
          simp only
          show _ - (n + 1) < _ - n
          omega
        · simp only [walkBound]
          split <;> omega
      · subst hr2
        apply isBlockedLoop_ne_bound b c (-1) 0
          (fun row _ => match row with
            | some (Int.ofNat n) =>
              if n < (b.map (fun e => e.2.length)).sum then n + 1 else 0
            | _ => 0)
        · intro row col cells hcells hcell
          obtain ⟨n, hn, hlt⟩ := cellAtNum_some hcell
          have := hL col cells hcells
          subst hn
          simp only [numAdd, Option.map]
          cases n with
          | zero =>
            have e : ((0 : Nat) : Int) + -1 = Int.negSucc 0 := by decide
            rw [e]
            show 0 < if 0 < _ then 0 + 1 else 0
            rw [if_pos (by omega)]
            omega
          | succ k =>
            have e : (((k + 1 : Nat)) : Int) + -1 = Int.ofNat k := by
              simp
            rw [e]
            show (if k < _ then k + 1 else 0) < if k + 1 < _ then k + 1 + 1 else 0
            rw [if_pos (by omega), if_pos (by omega)]
            omega
        · simp only [walkBound]
          split
          · split <;> omega
          · omega
  split
  · exact fun h => by simp at h
  · rename_i rowDir colDir hdirs
    apply hdir
    · split at hdirs
      · simp only [Option.some.injEq, Prod.mk.injEq] at hdirs
        rw [← hdirs.1]
        split <;> simp
      · split at hdirs
        · simp only [Option.some.injEq, Prod.mk.injEq] at hdirs
          rw [← hdirs.1]
          simp
        · split at hdirs
          · simp only [Option.some.injEq, Prod.mk.injEq] at hdirs
            rw [← hdirs.1]
            split <;> simp
          · simp at hdirs
    · split at hdirs
      · simp only [Option.some.injEq, Prod.mk.injEq] at hdirs
        rw [← hdirs.1, ← hdirs.2]
        right; right
        refine ⟨rfl, ?_⟩
        split <;> simp
      · split at hdirs
        · simp only [Option.some.injEq, Prod.mk.injEq] at hdirs
          rw [← hdirs.2]
          split <;> simp
        · split at hdirs
          · simp only [Option.some.injEq, Prod.mk.injEq] at hdirs
            rw [← hdirs.2]
            split <;> simp
          · simp at hdirs


theorem pieceHasAccess_ne_bound (b : Board) (start dest piece : Str) :
    pieceHasAccess b start dest piece ≠ .error .bound := by
  have hb := isBlocked_ne_bound b (getNumericCoordinates start dest)
  unfold pieceHasAccess
  simp only
  split
  · simp
  · split
    · rename_i e hrook
      split at hrook
      · split at hrook
        · rename_i e1 hblk
          simp only [Except.error.injEq] at hrook
          subst hrook
          intro h
          simp only [Except.error.injEq] at h
          subst h
          exact hb hblk
        · simp at hrook
      · simp at hrook
    · simp
    · split
      · split
        · rename_i e1 hblk
          intro h
          simp only [Except.error.injEq] at h
          subst h
          exact hb hblk
        · simp
      · simp

theorem accessFilter_ne_bound (b : Board) (dest piece : Str) (pieceList : List Str) :
    accessFilter b dest piece pieceList ≠ .error .bound := by
  induction pieceList with
  | nil => simp [accessFilter]
  | cons sq rest ih =>
    unfold accessFilter
    split
    · rename_i e he
      intro h
      simp only [Except.error.injEq] at h
      subst h
      exact pieceHasAccess_ne_bound b sq dest piece he
    · split
      · rename_i e he
        intro h
        simp only [Except.error.injEq] at h
        subst h
        exact ih he
      · simp

/-- The translation never reaches a bound of the embedding: it returns or
throws as the script does. -/
theorem getUCIFromSAN_ne_bound (st : Session) (sanMove : Str) :
    getUCIFromSAN st sanMove ≠ .error .bound := by
  unfold getUCIFromSAN
  simp only
  split
  · unfold getPawnMove
    simp only
    split
    · simp
    · split
      · split
        · split
          · simp
          · split <;> simp
        · simp
      · split
        · simp
        · split
          · simp
          · split <;> simp
  · split
    · unfold getPieceMove
      simp only
      split
      · simp
      · split
        · simp
        · split
          · rename_i e he
            unfold findValidPiece at he
            split at he
            · simp only at he
              split at he
              · simp at he
              · split at he <;> simp at he
            · split at he
              · rename_i e1 hf
                simp only [Except.error.injEq] at he
                subst he
                intro h
                simp only [Except.error.injEq] at h
                subst h
                exact accessFilter_ne_bound _ _ _ _ hf
              · split at he
                · simp at he
                · split at he <;> simp at he
          · simp
          · simp
    · split <;> simp

/-! ## The lockstep invariant -/

/-- C1. From the freshly loaded script and `setInitialGameState(color)`, after
any sequence of `movePiece` calls that all return normally, (1) the board
holds on the square of every entry of `userPieceMap` the piece code of that
entry, and (2) every cell of ranks 1 to 8 whose piece code includes the user's
colour has an entry in `userPieceMap`. -/
theorem lockstep_of_reachable (color : Color) (st : Session) (h : Reachable color st) :
    Lockstep st :=
  ⟨(inv_of_reachable h).onBoard, (inv_of_reachable h).indexed⟩

/-- C1 at the session reached by `e2e4`, `d7d5`, the capture `e4d5` and the
recapture `d8d5` of the user's pawn. -/
theorem lockstep_of_reachable_witness :
    Reachable .w
        (movePiece (movePiece (movePiece (movePiece (freshSession .w) "e2e4".toList).st
          "d7d5".toList).st "e4d5".toList).st "d8d5".toList).st ∧
      Lockstep
        (movePiece (movePiece (movePiece (movePiece (freshSession .w) "e2e4".toList).st
          "d7d5".toList).st "e4d5".toList).st "d8d5".toList).st :=
  have hr : Reachable .w
      (movePiece (movePiece (movePiece (movePiece (freshSession .w) "e2e4".toList).st
        "d7d5".toList).st "e4d5".toList).st "d8d5".toList).st :=
    Reachable.move _ (Reachable.move _ (Reachable.move _ (Reachable.move _ Reachable.init
      (by decide)) (by decide)) (by decide)) (by decide)
  ⟨hr, lockstep_of_reachable _ _ hr⟩

/-! ## Reconciling the reported history -/

/-- C2, as stated, fails: with an empty local history the reported list
`e2e4, e5e6` is applied move by move; the second move starts on an empty
square and throws, and the first one stays applied on the board and in the
index. -/
theorem updateGameState_failure_keeps_writes :
    (updateGameState (freshSession .w) ["e2e4".toList, "e5e6".toList]).err
        = some .emptyOrigin ∧
      (updateGameState (freshSession .w) ["e2e4".toList, "e5e6".toList]).st.board
        ≠ (freshSession .w).board ∧
      (updateGameState (freshSession .w) ["e2e4".toList, "e5e6".toList]).st.userPieceMap
        ≠ (freshSession .w).userPieceMap := by
  decide

/-- C2, amended.  When `updateGameState` throws one of its own two messages
(the reported list is not one move longer, or does not extend the local one),
the board, the index and the local history are what they were before the
call. -/
theorem updateGameState_inconsistent_unchanged (st : Session) (reported : List Str) (e : Err)
    (h : (updateGameState st reported).err = some e)
    (he : e.isInconsistentHistory = true) :
    (updateGameState st reported).st = st := by
  unfold updateGameState at h ⊢
  by_cases h0 : st.movesList.length = 0
  · rw [if_pos h0] at h ⊢
    cases hall : applyAll st reported with
    | mk st1 err =>
      rw [hall] at h
      cases err with
      | none => simp at h
      | some e0 =>
        simp only [Option.some.injEq] at h
        subst h
        have : (applyAll st reported).err = some e0 := by rw [hall]
        rw [applyAll_err this] at he
        exact absurd he (by simp)
  · rw [if_neg h0] at h ⊢
    by_cases h1 : (reported.length : Int) - (st.movesList.length : Int) = 1
    · rw [if_pos h1] at h ⊢
      by_cases h2 : isMovesListValid st.movesList reported = false
      · rw [if_pos h2]
      · rw [if_neg h2] at h ⊢
        cases hnew : reported.get? (reported.length - 1) with
        | none => rfl
        | some newMove =>
          rw [hnew] at h
          simp only at h ⊢
          cases hm : movePiece st newMove with
          | mk st1 err =>
            rw [hm] at h
            cases err with
            | none => simp at h
            | some e0 =>
              simp only [Option.some.injEq] at h
              subst h
              have : (movePiece st newMove).err = some e0 := by rw [hm]
              rw [movePieceAux_err 1 this] at he
              exact absurd he (by simp)
    · rw [if_neg h1]

/-- C2, amended, at a session whose history holds one move and a reported list
that is empty. -/
theorem updateGameState_inconsistent_unchanged_witness :
    (updateGameState (updateGameState (freshSession .w) ["e2e4".toList]).st []).err
        = some .wrongDelta ∧
      (updateGameState (updateGameState (freshSession .w) ["e2e4".toList]).st []).st
        = (updateGameState (freshSession .w) ["e2e4".toList]).st :=
  ⟨by decide,
    updateGameState_inconsistent_unchanged _ _ .wrongDelta (by decide) (by decide)⟩

theorem moveOnce_movesList (st : Session) (move : Str) :
    (moveOnce st move).1.st.movesList = st.movesList := by
  unfold moveOnce
  simp only
  split
  · rfl
  · split
    · rfl
    · split
      · rfl
      · split <;> rfl

theorem movePieceAux_movesList (n : Nat) (st : Session) (move : Str) :
    (movePieceAux n st move).st.movesList = st.movesList := by
  induction n generalizing st move with
  | zero =>
    unfold movePieceAux
    have h1 := moveOnce_movesList st move
    split
    · rename_i hone; rw [hone] at h1; exact h1
    · rename_i hone
      rw [hone] at h1
      split
      · split <;> exact h1
      · exact h1
  | succ k ih =>
    unfold movePieceAux
    have h1 := moveOnce_movesList st move
    split
    · rename_i hone; rw [hone] at h1; exact h1
    · rename_i hone
      rw [hone] at h1
      split
      · split
        · rw [ih]; exact h1
        · exact h1
      · exact h1

theorem applyAll_movesList (st : Session) (moves : List Str) :
    (applyAll st moves).st.movesList = st.movesList := by
  induction moves generalizing st with
  | nil => rfl
  | cons m rest ih =>
    unfold applyAll
    have h1 := movePieceAux_movesList 1 st m
    split
    · rename_i hm
      unfold movePiece at hm
      rw [hm] at h1
      rw [ih]; exact h1
    · rename_i hm
      unfold movePiece at hm
      rw [hm] at h1
      exact h1

/-- C3, as stated, fails: with an empty local history a reported list of two
moves is not rejected; both moves are applied and the list becomes the local
history. -/
theorem updateGameState_catches_up :
    (freshSession .w).movesList = [] ∧
      (updateGameState (freshSession .w) ["e2e4".toList, "e7e5".toList]).err = none ∧
      (updateGameState (freshSession .w) ["e2e4".toList, "e7e5".toList]).st.board.cell
          "e5".toList = some (.str "bp".toList) ∧
      (updateGameState (freshSession .w) ["e2e4".toList, "e7e5".toList]).st.movesList
        = ["e2e4".toList, "e7e5".toList] := by
  decide

/-- C3, amended.  When the local history is not empty, a reported list whose
length is neither that of the local history nor one more, or which the local
history is not a prefix of, makes `updateGameState` throw one of its two
inconsistent-history messages with every variable unchanged.  When the local
history is empty no such list is rejected as inconsistent: the reported moves
are applied in order by `movePiece`; when every one of them returns, the call
returns and the reported list becomes the local history; when one throws, the
call throws that exception, never an inconsistent-history message, with the
writes made up to there kept and the local history still empty. -/
theorem updateGameState_rejects (st : Session) (reported : List Str)
    (h : (reported.length ≠ st.movesList.length ∧ reported.length ≠ st.movesList.length + 1)
      ∨ ¬ st.movesList <+: reported) :
    (st.movesList ≠ [] →
        ∃ e, updateGameState st reported = ⟨st, some e⟩ ∧ e.isInconsistentHistory = true) ∧
      (st.movesList = [] →
        ((applyAll st reported).err = none →
          updateGameState st reported
            = ⟨{ (applyAll st reported).st with movesList := reported }, none⟩) ∧
        (∀ e, (applyAll st reported).err = some e →
          updateGameState st reported = applyAll st reported ∧
          e.isInconsistentHistory = false ∧
          (updateGameState st reported).st.movesList = [])) := by
  constructor
  · intro hne
    have h0 : ¬ st.movesList.length = 0 := by
      intro h0
      exact hne (List.length_eq_zero.1 h0)
    unfold updateGameState
    simp only [h0, if_false]
    split
    · rename_i h1
      have hv : isMovesListValid st.movesList reported = false := by
        rcases h with ⟨-, h2⟩ | h
        · omega
        · cases hb : isMovesListValid st.movesList reported with
          | false => rfl
          | true => exact absurd ((isMovesListValid_iff _ _).1 hb) h
      simp only [hv, if_true]
      exact ⟨_, rfl, rfl⟩
    · exact ⟨_, rfl, rfl⟩
  · intro he
    have hml := applyAll_movesList st reported
    constructor
    · intro hok
      unfold updateGameState
      simp only [he, List.length_nil, if_true]
      split
      · rename_i hall
        rw [hall]
      · rename_i hall
        rw [hall] at hok
        simp at hok
    · intro e herr
      have hrun : updateGameState st reported = applyAll st reported := by
        unfold updateGameState
        simp only [he, List.length_nil, if_true]
        split
        · rename_i hall
          rw [hall] at herr
          simp at herr
        · rename_i hall
          rw [hall]
      refine ⟨hrun, applyAll_err herr, ?_⟩
      rw [hrun, hml, he]

/-- C3, amended, at a session whose history holds `e2e4` and a reported list of
two moves that starts with another move, and at the fresh session, whose
history is empty: the two moves `e2e4`, `e7e5` are applied and become the
history, and of `e2e4`, `e5e6` the first is applied and the second throws the
exception of line 191. -/
theorem updateGameState_rejects_witness :
    (¬ (updateGameState (freshSession .w) ["e2e4".toList]).st.movesList
        <+: ["d2d4".toList, "e7e5".toList] ∧
      ∃ e, updateGameState (updateGameState (freshSession .w) ["e2e4".toList]).st
            ["d2d4".toList, "e7e5".toList]
          = ⟨(updateGameState (freshSession .w) ["e2e4".toList]).st, some e⟩
        ∧ e.isInconsistentHistory = true) ∧
      updateGameState (freshSession .w) ["e2e4".toList, "e7e5".toList]
        = ⟨{ (applyAll (freshSession .w) ["e2e4".toList, "e7e5".toList]).st with
              movesList := ["e2e4".toList, "e7e5".toList] }, none⟩ ∧
      (updateGameState (freshSession .w) ["e2e4".toList, "e5e6".toList]
          = applyAll (freshSession .w) ["e2e4".toList, "e5e6".toList] ∧
        Err.isInconsistentHistory .emptyOrigin = false ∧
        (updateGameState (freshSession .w) ["e2e4".toList, "e5e6".toList]).st.movesList = []) :=
  ⟨⟨by decide,
    (updateGameState_rejects (updateGameState (freshSession .w) ["e2e4".toList]).st
      ["d2d4".toList, "e7e5".toList] (Or.inr (by decide))).1 (by decide)⟩,
    ((updateGameState_rejects (freshSession .w) ["e2e4".toList, "e7e5".toList]
      (Or.inl (by decide))).2 (by decide)).1 (by decide),
    ((updateGameState_rejects (freshSession .w) ["e2e4".toList, "e5e6".toList]
      (Or.inl (by decide))).2 (by decide)).2 .emptyOrigin (by decide)⟩

/-- C4, as stated, fails: once the local history holds `e2e4`, the same list
reported again has as many moves as the local one and is rejected with the
message of line 173. -/
theorem updateGameState_same_list_throws :
    (updateGameState (freshSession .w) ["e2e4".toList]).st.movesList = ["e2e4".toList] ∧
      (updateGameState (updateGameState (freshSession .w) ["e2e4".toList]).st
        ["e2e4".toList]).err = some .wrongDelta := by
  decide

/-- C4, amended.  For a reported list as long as the local history: when both
are empty `updateGameState` returns normally and changes nothing; when they
are not empty it throws the message of line 173 and changes nothing. -/
theorem updateGameState_same_length (st : Session) (reported : List Str)
    (h : reported.length = st.movesList.length) :
    (st.movesList = [] → updateGameState st reported = ⟨st, none⟩) ∧
      (st.movesList ≠ [] → updateGameState st reported = ⟨st, some .wrongDelta⟩) := by
  constructor
  · intro he
    rw [he, List.length_nil] at h
    have hr : reported = [] := List.length_eq_zero.1 h
    subst hr
    cases st
    simp only at he
    subst he
    rfl
  · intro hne
    have h0 : ¬ st.movesList.length = 0 := by
      intro h0
      exact hne (List.length_eq_zero.1 h0)
    unfold updateGameState
    have h1 : ¬ ((reported.length : Int) - (st.movesList.length : Int) = 1) := by
      rw [h]; omega
    simp only [h0, h1, if_false]

/-- C4, amended, at a session whose history holds `e2e4` and that list reported
again. -/
theorem updateGameState_same_length_witness :
    updateGameState (updateGameState (freshSession .w) ["e2e4".toList]).st ["e2e4".toList]
      = ⟨(updateGameState (freshSession .w) ["e2e4".toList]).st, some .wrongDelta⟩ :=
  (updateGameState_same_length (updateGameState (freshSession .w) ["e2e4".toList]).st
    ["e2e4".toList] (by decide)).2 (by decide)

/-- C5. When `movePiece(m)` returns normally on a session with local history
`h`, `updateGameState(h ++ [m])` returns normally too; its board and index are
those of that single `movePiece(m)` and the local history becomes
`h ++ [m]`. -/
theorem updateGameState_one_new_move (st : Session) (m : Str)
    (h : (movePiece st m).err = none) :
    updateGameState st (st.movesList ++ [m])
      = ⟨{ (movePiece st m).st with movesList := st.movesList ++ [m] }, none⟩ := by
  unfold updateGameState
  cases hm : movePiece st m with
  | mk st1 err =>
    rw [hm] at h
    simp only at h
    subst h
    split
    · rename_i h0
      have he : st.movesList = [] := List.length_eq_zero.1 h0
      rw [he]
      simp only [List.nil_append, applyAll, hm]
    · rename_i h0
      have h1 : ((st.movesList ++ [m]).length : Int) - (st.movesList.length : Int) = 1 := by
        rw [List.length_append]
        simp
      have hv : isMovesListValid st.movesList (st.movesList ++ [m]) = true :=
        (isMovesListValid_iff _ _).2 (List.prefix_append _ _)
      have hl : (st.movesList ++ [m]).get? ((st.movesList ++ [m]).length - 1) = some m := by
        simp
      simp only [h1, if_true, hv, hl, hm]
      simp

/-- C5 at a session whose history holds `e2e4` and the new move `e7e5`. -/
theorem updateGameState_one_new_move_witness :
    (movePiece (updateGameState (freshSession .w) ["e2e4".toList]).st "e7e5".toList).err = none
      ∧ updateGameState (updateGameState (freshSession .w) ["e2e4".toList]).st
          ((updateGameState (freshSession .w) ["e2e4".toList]).st.movesList
            ++ ["e7e5".toList])
        = ⟨{ (movePiece (updateGameState (freshSession .w) ["e2e4".toList]).st
                "e7e5".toList).st with
              movesList := (updateGameState (freshSession .w) ["e2e4".toList]).st.movesList
                ++ ["e7e5".toList] }, none⟩ :=
  ⟨by decide, updateGameState_one_new_move _ _ (by decide)⟩

/-! ## Castling -/

theorem readMove_plain {b : Board} {c r c' r' : Char} (rest : Str) {sCell dCell : Cell}
    (hs : b.cell [c, r] = some sCell) (hd : b.cell [c', r'] = some dCell)
    (hne : sCell.toStr ≠ "--".toList) :
    readMove b (c :: r :: c' :: r' :: rest) = .ok (sCell.toStr, some dCell) := by
  simp only [Board.cell, Board.columnOf, List.get?] at hs hd
  simp only [readMove, Board.columnOf, List.take, List.drop, List.get?]
  split at hs
  · rename_i sCol hsc
    split at hd
    · rename_i dCol hdc
      simp only [hsc, hs, hdc, hd, hne, if_false]
    · simp at hd
  · simp at hs

/-- A move of four characters between two different squares that hold strings
returns normally as soon as the index has the entries the script looks up; it
changes no entry away from the two squares and carries the entry of a user's
piece from the origin to the destination. -/
theorem moveOnce_plain (st : Session) {c r c' r' : Char} {p d : Str}
    (hs : st.board.cell [c, r] = some (.str p)) (hne : p ≠ "--".toList)
    (hd : st.board.cell [c', r'] = some (.str d))
    (hsd : ([c, r] : Str) ≠ [c', r'])
    (hcap : includes d st.userColor.toStr = true → st.userPieceMap.has [c', r'] = true)
    (hrel : includes p st.userColor.toStr = true →
      ∃ v, st.userPieceMap.get [c, r] = some v) :
    ∃ m3, moveOnce st [c, r, c', r']
        = (⟨{ st with
              userPieceMap := m3
              board := writeMove st.board [c, r] [c', r'] p }, none⟩, p) ∧
      (∀ k : Str, k ≠ [c, r] → k ≠ [c', r'] → m3.get k = st.userPieceMap.get k) ∧
      (includes p st.userColor.toStr = true →
        m3.get [c', r'] = st.userPieceMap.get [c, r] ∧ m3.get [c, r] = none) := by
  have hread := readMove_plain [] hs hd (by simpa [Cell.toStr] using hne)
  simp only [Cell.toStr] at hread
  have hprom : promotionStep st.userColor st.userPieceMap [c, r, c', r'] p
      = .ok (p, st.userPieceMap) := by
    simp [promotionStep]
  -- the capture
  obtain ⟨m2, hcapEq, hm2get, hm2s⟩ : ∃ m2,
      captureStep st.userColor st.userPieceMap [c', r'] (some (.str d)) = .ok m2 ∧
      (∀ k : Str, k ≠ [c', r'] → m2.get k = st.userPieceMap.get k) ∧
      (m2 = st.userPieceMap ∨ m2 = st.userPieceMap.delete [c', r']) := by
    by_cases hinc : includes d st.userColor.toStr = true
    · refine ⟨st.userPieceMap.delete [c', r'], ?_, ?_, Or.inr rfl⟩
      · simp [captureStep, hinc, deleteUserPiece, hcap hinc]
      · intro k hk
        rw [PieceMap.get_delete, if_neg hk]
    · refine ⟨st.userPieceMap, ?_, fun _ _ => rfl, Or.inl rfl⟩
      simp [captureStep, hinc]
  -- the relocation
  by_cases hinc : includes p st.userColor.toStr = true
  · obtain ⟨v, hv⟩ := hrel hinc
    have hv2 : m2.get [c, r] = some v := by rw [hm2get _ hsd, hv]
    refine ⟨(m2.delete [c, r]).set [c', r'] v, ?_, ?_, ?_⟩
    · simp only [moveOnce, hread, hprom, List.take, List.drop, hcapEq, relocateStep, hinc,
        if_true, updateUserPiece, hv2]
    · intro k hk1 hk2
      rw [PieceMap.get_set_other _ _ hk2, PieceMap.get_delete, if_neg hk1, hm2get k hk2]
    · intro _
      refine ⟨?_, ?_⟩
      · rw [PieceMap.get_set_self, hv]
      · rw [PieceMap.get_set_other _ _ hsd, PieceMap.get_delete, if_pos rfl]
  · refine ⟨m2, ?_, ?_, ?_⟩
    · simp [moveOnce, hread, hprom, hcapEq, relocateStep, hinc]
    · intro k _ hk2
      exact hm2get k hk2
    · intro h
      exact absurd h hinc

theorem king_code (color : Color) :
    color.toStr ++ "K".toList ≠ "--".toList ∧
      includes (color.toStr ++ "K".toList) "K".toList = true := by
  cases color <;> decide

theorem rook_code (color : Color) : color.toStr ++ "R".toList ≠ "--".toList := by
  cases color <;> decide

theorem includes_code (color user : Color) (t : Char) (ht : t = 'K' ∨ t = 'R') :
    includes (color.toStr ++ [t]) user.toStr = true ↔ color = user := by
  rcases ht with rfl | rfl <;> cases color <;> cases user <;> decide

/-- A castle on a well-formed session: the king move and the paired rook move
both go through, between four different squares. -/
theorem castle_apply {st : Session} (hwf : WellFormed st) (color : Color)
    (c r c' r' x y x' y' : Char)
    (hpair : castleGet castleMap [c, r, c', r'] = some [x, y, x', y'])
    (hc : c ∈ files) (hc' : c' ∈ files) (hx : x ∈ files) (hx' : x' ∈ files)
    (hr : r ∈ ranks) (hr' : r' ∈ ranks) (hy : y ∈ ranks) (hy' : y' ∈ ranks)
    (d1 : ¬ (c' = c ∧ r' = r)) (d2 : ¬ (x = c ∧ y = r)) (d3 : ¬ (x' = c ∧ y' = r))
    (d4 : ¬ (x = c' ∧ y = r')) (d5 : ¬ (x' = c' ∧ y' = r')) (d6 : ¬ (x' = x ∧ y' = y))
    (hking : st.board.cell [c, r] = some (.str (color.toStr ++ "K".toList)))
    (hrook : st.board.cell [x, y] = some (.str (color.toStr ++ "R".toList))) :
    (movePiece st [c, r, c', r']).err = none ∧
      (movePiece st [c, r, c', r']).st.board.cell [c', r']
        = some (.str (color.toStr ++ "K".toList)) ∧
      (movePiece st [c, r, c', r']).st.board.cell [x', y']
        = some (.str (color.toStr ++ "R".toList)) ∧
      (movePiece st [c, r, c', r']).st.board.cell [c, r] = some (.str "--".toList) ∧
      (movePiece st [c, r, c', r']).st.board.cell [x, y] = some (.str "--".toList) ∧
      (color = st.userColor →
        (movePiece st [c, r, c', r']).st.userPieceMap.get [c', r']
          = some (color.toStr ++ "K".toList) ∧
        (movePiece st [c, r, c', r']).st.userPieceMap.get [x', y']
          = some (color.toStr ++ "R".toList) ∧
        (movePiece st [c, r, c', r']).st.userPieceMap.has [c, r] = false ∧
        (movePiece st [c, r, c', r']).st.userPieceMap.has [x, y] = false) := by
  obtain ⟨hfull, hon, hidx⟩ := hwf
  have ne {a b a' b' : Char} (h : ¬ (a = a' ∧ b = b')) : ([a, b] : Str) ≠ [a', b'] := by
    intro e
    simp only [List.cons.injEq, and_true] at e
    exact h e
  -- the king
  obtain ⟨dK, hdK⟩ := hfull c' hc' r' hr'
  obtain ⟨m3, hone, hget1, hmv1⟩ := moveOnce_plain st hking (king_code color).1 hdK
    (Ne.symm (ne d1))
    (fun h => hidx c' hc' r' hr' dK hdK h)
    (fun h => PieceMap.has_iff.1 (hidx c hc r hr _ hking h))
  have hb1 : ∀ a b, (writeMove st.board [c, r] [c', r'] (color.toStr ++ "K".toList)).cell [a, b]
      = if a = c ∧ b = r then some (.str "--".toList)
        else if a = c' ∧ b = r' then some (.str (color.toStr ++ "K".toList))
        else st.board.cell [a, b] :=
    fun a b => Board.cell_writeMove _ hking hdK a b
  -- the rook, on the session the king move leaves
  obtain ⟨dR, hdR⟩ := hfull x' hx' y' hy'
  have hrook1 : (writeMove st.board [c, r] [c', r'] (color.toStr ++ "K".toList)).cell [x, y]
      = some (.str (color.toStr ++ "R".toList)) := by
    rw [hb1, if_neg d2, if_neg d4, hrook]
  have hdR1 : (writeMove st.board [c, r] [c', r'] (color.toStr ++ "K".toList)).cell [x', y']
      = some (.str dR) := by
    rw [hb1, if_neg d3, if_neg d5, hdR]
  obtain ⟨m5, htwo, hget2, hmv2⟩ := moveOnce_plain
    { st with
      userPieceMap := m3
      board := writeMove st.board [c, r] [c', r'] (color.toStr ++ "K".toList) }
    hrook1 (rook_code color) hdR1 (Ne.symm (ne d6))
    (fun h => by
      have := hidx x' hx' y' hy' dR hdR h
      simp only [PieceMap.has] at this ⊢
      rw [hget1 _ (ne d3) (ne d5)]
      exact this)
    (fun h => by
      have := PieceMap.has_iff.1 (hidx x hx y hy _ hrook h)
      simp only
      rw [hget1 _ (ne d2) (ne d4)]
      exact this)
  have hrun : movePiece st [c, r, c', r'] =
      ⟨{ st with
          userPieceMap := m5
          board := writeMove (writeMove st.board [c, r] [c', r'] (color.toStr ++ "K".toList))
            [x, y] [x', y'] (color.toStr ++ "R".toList) }, none⟩ := by
    unfold movePiece movePieceAux
    rw [hone]
    simp only [hpair, (king_code color).2, if_true]
    unfold movePieceAux
    rw [htwo]
    simp only [castleGet_value hpair]
  have hb2 : ∀ a b, (writeMove (writeMove st.board [c, r] [c', r'] (color.toStr ++ "K".toList))
        [x, y] [x', y'] (color.toStr ++ "R".toList)).cell [a, b]
      = if a = x ∧ b = y then some (.str "--".toList)
        else if a = x' ∧ b = y' then some (.str (color.toStr ++ "R".toList))
        else (writeMove st.board [c, r] [c', r'] (color.toStr ++ "K".toList)).cell [a, b] :=
    fun a b => Board.cell_writeMove _ hrook1 hdR1 a b
  have s1 : ¬ (c' = x ∧ r' = y) := fun h => d4 ⟨h.1.symm, h.2.symm⟩
  have s2 : ¬ (c' = x' ∧ r' = y') := fun h => d5 ⟨h.1.symm, h.2.symm⟩
  have s3 : ¬ (c = x ∧ r = y) := fun h => d2 ⟨h.1.symm, h.2.symm⟩
  have s4 : ¬ (c = x' ∧ r = y') := fun h => d3 ⟨h.1.symm, h.2.symm⟩
  rw [hrun]
  refine ⟨rfl, ?_, ?_, ?_, ?_, ?_⟩
  · simp only
    rw [hb2, if_neg s1, if_neg s2, hb1, if_neg d1, if_pos ⟨rfl, rfl⟩]
  · simp only
    rw [hb2, if_neg d6, if_pos ⟨rfl, rfl⟩]
  · simp only
    rw [hb2, if_neg s3, if_neg s4, hb1, if_pos ⟨rfl, rfl⟩]
  · simp only
    rw [hb2, if_pos ⟨rfl, rfl⟩]
  · intro hcol
    have hK : includes (color.toStr ++ "K".toList) st.userColor.toStr = true :=
      (includes_code color st.userColor 'K' (Or.inl rfl)).2 hcol
    have hR : includes (color.toStr ++ "R".toList) st.userColor.toStr = true :=
      (includes_code color st.userColor 'R' (Or.inr rfl)).2 hcol
    obtain ⟨hk1, hk2⟩ := hmv1 hK
    obtain ⟨hr1, hr2⟩ := hmv2 hR
    simp only at hr1 hr2 hget2
    -- the entries the index held on the two origin squares
    obtain ⟨vK, hvK⟩ := PieceMap.has_iff.1 (hidx c hc r hr _ hking hK)
    have hvK2 : vK = color.toStr ++ "K".toList := by
      have := hon _ (PieceMap.mem_of_get hvK)
      simp only at this
      rw [hking] at this
      simp only [Option.some.injEq, Cell.str.injEq] at this
      exact this.symm
    obtain ⟨vR, hvR⟩ := PieceMap.has_iff.1 (hidx x hx y hy _ hrook hR)
    have hvR2 : vR = color.toStr ++ "R".toList := by
      have := hon _ (PieceMap.mem_of_get hvR)
      simp only at this
      rw [hrook] at this
      simp only [Option.some.injEq, Cell.str.injEq] at this
      exact this.symm
    refine ⟨?_, ?_, ?_, ?_⟩
    · simp only
      rw [hget2 _ (ne s1) (ne s2), hk1, hvK, hvK2]
    · simp only
      rw [hr1, hget1 _ (ne d2) (ne d4), hvR, hvR2]
    · simp only [PieceMap.has]
      rw [hget2 _ (ne s3) (ne s4), hk2]
      rfl
    · simp only [PieceMap.has]
      rw [hr2]
      rfl

theorem fullBoard_moveOnce {st st1 : Session} {move mp : Str} (hfull : FullBoard st.board)
    (h : moveOnce st move = (⟨st1, none⟩, mp)) : FullBoard st1.board := by
  obtain ⟨c, r, c', r', rest, sCell, d, m1, m2, m3, -, hs, -, hd, -, -, -, hst⟩ := moveOnce_ok h
  intro file hf rank hr
  rw [hst]
  simp only
  rw [Board.cell_writeMove mp hs hd]
  split
  · exact ⟨_, rfl⟩
  · split
    · exact ⟨_, rfl⟩
    · exact hfull file hf rank hr

theorem fullBoard_initialBoard : FullBoard initialBoard := by
  intro file hf rank hr
  have key : ∀ file ∈ files, ∀ rank ∈ ranks,
      (match BoardState.initialBoard.cell [file, rank] with
        | some (.str _) => true
        | _ => false) = true := by
    decide
  have := key file hf rank hr
  split at this
  · rename_i s hs
    exact ⟨s, hs⟩
  · simp at this

/-- Every reachable session is well formed. -/
theorem wellFormed_of_reachable {color : Color} {st : Session} (h : Reachable color st) :
    WellFormed st := by
  refine ⟨?_, (inv_of_reachable h).onBoard, (inv_of_reachable h).indexed⟩
  induction h with
  | init => exact fullBoard_initialBoard
  | move m _ hok ih =>
    rcases movePiece_ok hok with ⟨mp, h1, -⟩ | ⟨st1, mp, rookMove, mp2, h1, -, -, h2⟩
    · exact fullBoard_moveOnce ih h1
    · exact fullBoard_moveOnce (fullBoard_moveOnce ih h1) h2

/-- C9, as stated, fails: `movePiece('a1a1')` on the fresh session of the white
player throws after it has deleted the rook of a1 from the index and before any
write to the board; the king then stands on e1 and a white rook on a1, yet
`movePiece('e1c1')` moves the king to c1 and throws in the nested rook move,
with the rook still on a1 and d1 not holding it. -/
theorem castle_after_failed_move_throws :
    (movePiece (freshSession .w) "a1a1".toList).err = some .updateMissing ∧
      (movePiece (freshSession .w) "a1a1".toList).st.board.cell "e1".toList
        = some (.str "wK".toList) ∧
      (movePiece (freshSession .w) "a1a1".toList).st.board.cell "a1".toList
        = some (.str "wR".toList) ∧
      (movePiece (freshSession .w) "a1a1".toList).st.userPieceMap.get "a1".toList = none ∧
      (movePiece (movePiece (freshSession .w) "a1a1".toList).st "e1c1".toList).err
        = some .updateMissing ∧
      (movePiece (movePiece (freshSession .w) "a1a1".toList).st "e1c1".toList).st.board.cell
          "c1".toList = some (.str "wK".toList) ∧
      (movePiece (movePiece (freshSession .w) "a1a1".toList).st "e1c1".toList).st.board.cell
          "a1".toList = some (.str "wR".toList) ∧
      (movePiece (movePiece (freshSession .w) "a1a1".toList).st "e1c1".toList).st.board.cell
          "d1".toList = some (.str "wQ".toList) := by
  decide

/-- C9, amended. For each entry of `castleMap` (e1g1/h1f1, e1c1/a1d1, e8g8/h8f8,
e8c8/a8d8) and every well-formed session (a full board in lockstep with the
index, as every reachable session is) in which a king stands on the king's
origin square and a rook of the same colour on the rook's origin square, one
call `movePiece(kingMove)` returns normally; afterwards the board has the
king on the king's destination, the rook on the rook's destination and both
origin squares empty, and when the king is the user's the index holds the king
on the king's destination, the rook on the rook's destination and no entry on
either origin square. -/
theorem castle_moves_king_and_rook (st : Session) (color : Color) (kingMove rookMove : Str)
    (hwf : WellFormed st) (hpair : (kingMove, rookMove) ∈ castleMap)
    (hking : st.board.cell (kingMove.take 2) = some (.str (color.toStr ++ "K".toList)))
    (hrook : st.board.cell (rookMove.take 2) = some (.str (color.toStr ++ "R".toList))) :
    (movePiece st kingMove).err = none ∧
      (movePiece st kingMove).st.board.cell (kingMove.drop 2)
        = some (.str (color.toStr ++ "K".toList)) ∧
      (movePiece st kingMove).st.board.cell (rookMove.drop 2)
        = some (.str (color.toStr ++ "R".toList)) ∧
      (movePiece st kingMove).st.board.cell (kingMove.take 2) = some (.str "--".toList) ∧
      (movePiece st kingMove).st.board.cell (rookMove.take 2) = some (.str "--".toList) ∧
      (color = st.userColor →
        (movePiece st kingMove).st.userPieceMap.get (kingMove.drop 2)
          = some (color.toStr ++ "K".toList) ∧
        (movePiece st kingMove).st.userPieceMap.get (rookMove.drop 2)
          = some (color.toStr ++ "R".toList) ∧
        (movePiece st kingMove).st.userPieceMap.has (kingMove.take 2) = false ∧
        (movePiece st kingMove).st.userPieceMap.has (rookMove.take 2) = false) := by
  simp only [castleMap, List.mem_cons, Prod.mk.injEq, List.mem_singleton, List.not_mem_nil,
    or_false] at hpair
  rcases hpair with ⟨rfl, rfl⟩ | ⟨rfl, rfl⟩ | ⟨rfl, rfl⟩ | ⟨rfl, rfl⟩
  · exact castle_apply hwf color 'e' '8' 'c' '8' 'a' '8' 'd' '8' (by decide)
      (by decide) (by decide) (by decide) (by decide) (by decide) (by decide) (by decide)
      (by decide) (by decide) (by decide) (by decide) (by decide) (by decide) (by decide)
      hking hrook
  · exact castle_apply hwf color 'e' '8' 'g' '8' 'h' '8' 'f' '8' (by decide)
      (by decide) (by decide) (by decide) (by decide) (by decide) (by decide) (by decide)
      (by decide) (by decide) (by decide) (by decide) (by decide) (by decide) (by decide)
      hking hrook
  · exact castle_apply hwf color 'e' '1' 'c' '1' 'a' '1' 'd' '1' (by decide)
      (by decide) (by decide) (by decide) (by decide) (by decide) (by decide) (by decide)
      (by decide) (by decide) (by decide) (by decide) (by decide) (by decide) (by decide)
      hking hrook
  · exact castle_apply hwf color 'e' '1' 'g' '1' 'h' '1' 'f' '1' (by decide)
      (by decide) (by decide) (by decide) (by decide) (by decide) (by decide) (by decide)
      (by decide) (by decide) (by decide) (by decide) (by decide) (by decide) (by decide)
      hking hrook

/-- C9, amended, at the session reached by `g1f3` and `f1c4`, castled by
`e1g1`. -/
theorem castle_moves_king_and_rook_witness :
    WellFormed (movePiece (movePiece (freshSession .w) "g1f3".toList).st "f1c4".toList).st ∧
      ("e1g1".toList, "h1f1".toList) ∈ castleMap ∧
      (movePiece (movePiece (movePiece (freshSession .w) "g1f3".toList).st
        "f1c4".toList).st "e1g1".toList).err = none ∧
      (movePiece (movePiece (movePiece (freshSession .w) "g1f3".toList).st
        "f1c4".toList).st "e1g1".toList).st.userPieceMap.get "g1".toList
        = some "wK".toList ∧
      (movePiece (movePiece (movePiece (freshSession .w) "g1f3".toList).st
        "f1c4".toList).st "e1g1".toList).st.userPieceMap.get "f1".toList
        = some "wR".toList :=
  have hr : Reachable .w
      (movePiece (movePiece (freshSession .w) "g1f3".toList).st "f1c4".toList).st :=
    Reachable.move _ (Reachable.move _ Reachable.init (by decide)) (by decide)
  have hc := castle_moves_king_and_rook
    (movePiece (movePiece (freshSession .w) "g1f3".toList).st "f1c4".toList).st .w
    "e1g1".toList "h1f1".toList (wellFormed_of_reachable hr) (by decide) (by decide)
    (by decide)
  ⟨wellFormed_of_reachable hr, by decide, hc.1, (hc.2.2.2.2.2 rfl).1, (hc.2.2.2.2.2 rfl).2.1⟩

/-! ## Initialisation and the castle tokens -/

/-- C6, as stated, fails: after `e2e4` has been applied, a second
`setInitialGameState('w')` leaves the pawn on e4 and the history in place, and
indexes a pawn on the square e2 that the board shows empty. -/
theorem second_call_keeps_board_and_history :
    ¬ IsStandardStart
        (initializeAgain .w (updateGameState (freshSession .w) ["e2e4".toList]).st).board ∧
      (initializeAgain .w (updateGameState (freshSession .w) ["e2e4".toList]).st).movesList
        = ["e2e4".toList] ∧
      (initializeAgain .w (updateGameState (freshSession .w) ["e2e4".toList]).st).board.cell
        "e2".toList = some (.str "--".toList) ∧
      (initializeAgain .w (updateGameState (freshSession .w) ["e2e4".toList]).st).userPieceMap.get
        "e2".toList = some "wp".toList := by
  unfold IsStandardStart
  decide

/-- C6, amended.  Whatever board and history it finds, `setInitialGameState`
makes `userPieceMap` the sixteen standard pieces of the colour on their
standard squares and leaves `board` and `movesList` as they are; on the
freshly loaded script these are the standard starting position and the empty
history. -/
theorem setInitialGameState_index (color : Color) (board : Board) (movesList : List Str) :
    (setInitialGameState color board movesList).userPieceMap = standardPieces color ∧
      (setInitialGameState color board movesList).board = board ∧
      (setInitialGameState color board movesList).movesList = movesList ∧
      IsStandardStart (freshSession color).board ∧
      (freshSession color).movesList = [] := by
  refine ⟨?_, rfl, rfl, ?_, rfl⟩
  · cases color <;> rfl
  · show IsStandardStart initialBoard
    unfold IsStandardStart
    decide

/-- C7: the code does not do what the claim says.  After
`setInitialGameState(color)`, `getUCIFromSAN("0-0-0")` returns `undefined`
for either colour and whatever the board, index and history: line 116 stores
the queenside move in the misspelt `queenSideCaslte`, and `getCastleMove`
reads `queenSideCastle`, which is never assigned. -/
theorem queenside_castle_undefined (color : Color) (b0 board : Board)
    (ml0 movesList : List Str) (index : PieceMap) :
    getUCIFromSAN
        { setInitialGameState color b0 ml0 with
          board := board, userPieceMap := index, movesList := movesList }
        "0-0-0".toList = .ok .undefined ∧
      (setInitialGameState color b0 ml0).queenSideCaslte
        = (match color with
          | .w => "e1c1".toList
          | .b => "e8c8".toList) := by
  cases color <;> exact ⟨rfl, rfl⟩

/-- C8. After `setInitialGameState(color)`, `getUCIFromSAN("0-0")` returns
`e1g1` for `'w'` and `e8g8` for `'b'`, whatever the board, the index and the
history hold. -/
theorem kingside_castle (color : Color) (b0 board : Board) (ml0 movesList : List Str)
    (index : PieceMap) :
    getUCIFromSAN
        { setInitialGameState color b0 ml0 with
          board := board, userPieceMap := index, movesList := movesList }
        "0-0".toList
      = .ok (.str (match color with
          | .w => "e1g1".toList
          | .b => "e8g8".toList)) := by
  cases color <;> rfl

/-- C10: the code does not do what the claim says.  With the two white rooks
on a1 and h1, `R1a4` has a fragment that both squares contain and `Ra4` a
destination neither rook has access to; `findValidPiece` returns `-1` in
both cases and `getUCIFromSAN`, instead of failing, returns the string
`-1a4`. -/
theorem ambiguous_move_returns_text :
    getUCIFromSAN (freshSession .w) "R1a4".toList = .ok (.str "-1a4".toList) ∧
      getUCIFromSAN (freshSession .w) "Ra4".toList = .ok (.str "-1a4".toList) ∧
      getPieceList (freshSession .w) "R".toList = some ["a1".toList, "h1".toList] ∧
      findValidPiece (freshSession .w).board ["a1".toList, "h1".toList]
        (getPieceMoveComponents "R1a4".toList) = .ok none ∧
      findValidPiece (freshSession .w).board ["a1".toList, "h1".toList]
        (getPieceMoveComponents "Ra4".toList) = .ok none := by
  decide

/-! ## The piece grammar -/

theorem isQRBNK_cases {L : Char} (h : isQRBNK L = true) :
    L = 'Q' ∨ L = 'R' ∨ L = 'B' ∨ L = 'N' ∨ L = 'K' := by
  simp only [isQRBNK, isQRBN, Bool.or_eq_true, decide_eq_true_eq] at h
  tauto

theorem toUpperCase_letter {L : Char} (h : isQRBNK L = true) : toUpperCase [L] = [L] := by
  rcases isQRBNK_cases h with rfl | rfl | rfl | rfl | rfl <;> decide

theorem not_isFile_letter {L : Char} (h : isQRBNK L = true) : isFile L = false := by
  rcases isQRBNK_cases h with rfl | rfl | rfl | rfl | rfl <;> decide

theorem substr_fragment (san : Str) :
    substr san 1 ((san.length : Int) - 3) = fragmentOf san := by
  unfold substr fragmentOf
  simp only
  have h1 : ((if (1 : Int) < 0 then max ((san.length : Int) + 1) 0
      else min 1 (san.length : Int))).toNat = min 1 san.length := by
    rw [if_neg (by omega)]
    omega
  have h2 : (max ((san.length : Int) - 3) 0).toNat = san.length - 3 := by omega
  rw [h1, h2]
  cases san with
  | nil => rfl
  | cons c t =>
    have : min 1 (c :: t).length = 1 := by simp
    rw [this]

theorem substr_destination (san : Str) :
    substr san ((san.length : Int) - 2) 2 = destinationOf san := by
  unfold substr destinationOf
  simp only
  have h2 : (max (2 : Int) 0).toNat = 2 := by decide
  rw [h2]
  have h1 : ((if (san.length : Int) - 2 < 0
      then max ((san.length : Int) + ((san.length : Int) - 2)) 0
      else min ((san.length : Int) - 2) (san.length : Int))).toNat = san.length - 2 := by
    split <;> omega
  rw [h1]
  apply List.take_of_length_le
  rw [List.length_drop]
  omega

/-- The components of a piece input are its letter, its fragment and its last
two characters. -/
theorem getPieceMoveComponents_eq (san : Str) :
    getPieceMoveComponents san
      = { piece := san.take 1, squareInfo := fragmentOf san, destination := destinationOf san } := by
  unfold getPieceMoveComponents
  simp only [substr_fragment, substr_destination]

theorem getPieceList_eq (st : Session) {L : Char} (h : isQRBNK L = true) :
    getPieceList st [L]
      = if (candidates st L).length = 0 then none else some (candidates st L) := by
  unfold getPieceList candidates
  simp only [toUpperCase_letter h]

/-- An input whose first character, once the capture mark is stripped, is a
piece letter goes to `getPieceMove`. -/
theorem getUCIFromSAN_piece (st : Session) {input rest : Str} {L : Char}
    (hstrip : removeCaptureNotation input = L :: rest) (hL : isQRBNK L = true) :
    getUCIFromSAN st input = getPieceMove st (L :: rest) := by
  unfold getUCIFromSAN
  simp only [hstrip, List.take, regexMatch, matchAt, not_isFile_letter hL, hL]
  simp

/-- C11. For a piece input with a non-empty fragment, when the user has two or
more pieces of the named type and exactly one of their squares contains the
fragment, `getUCIFromSAN` returns that square followed by the last two
characters of the input (capture mark stripped), whatever the board holds. -/
theorem fragment_selects_square (st : Session) (input rest : Str) (L : Char) (sq : Str)
    (hstrip : removeCaptureNotation input = L :: rest) (hL : isQRBNK L = true)
    (hfrag : fragmentOf (L :: rest) ≠ [])
    (hmany : 2 ≤ (candidates st L).length)
    (hone : (candidates st L).filter (fun s => includes s (fragmentOf (L :: rest))) = [sq]) :
    ∀ board : Board,
      getUCIFromSAN { st with board := board } input
        = .ok (.str (sq ++ destinationOf (L :: rest))) := by
  intro board
  rw [getUCIFromSAN_piece _ hstrip hL]
  unfold getPieceMove
  simp only [List.take, getPieceList_eq _ hL, getPieceMoveComponents_eq]
  have hc : candidates { st with board := board } L = candidates st L := rfl
  rw [hc]
  have h0 : ¬ (candidates st L).length = 0 := by omega
  have h1 : ¬ (candidates st L).length = 1 := by omega
  simp only [h0, h1, if_false]
  unfold findValidPiece
  simp only [hfrag, ne_eq, not_false_eq_true, if_true, hone, List.length_singleton,
    List.get?]
  simp

/-- C11 at the session of the black player after `g8f6`: with knights on b8 and
f6, `Nbd7` gives `b8d7`. -/
theorem fragment_selects_square_witness :
    candidates (movePiece (freshSession .b) "g8f6".toList).st 'N'
        = ["b8".toList, "f6".toList] ∧
      getUCIFromSAN (movePiece (freshSession .b) "g8f6".toList).st "Nbd7".toList
        = .ok (.str "b8d7".toList) :=
  ⟨by decide,
    fragment_selects_square (movePiece (freshSession .b) "g8f6".toList).st "Nbd7".toList
      "bd7".toList 'N' "b8".toList (by decide) (by decide) (by decide) (by decide) (by decide)
      (movePiece (freshSession .b) "g8f6".toList).st.board⟩

/-- C12. When the user has exactly one piece of the named type, on square
`sq`, `getUCIFromSAN` returns `sq` followed by the last two characters of the
input (capture mark stripped), whatever the board holds and whatever fragment
the input carries. -/
theorem single_candidate_selected (st : Session) (input rest : Str) (L : Char) (sq : Str)
    (hstrip : removeCaptureNotation input = L :: rest) (hL : isQRBNK L = true)
    (hone : candidates st L = [sq]) :
    ∀ board : Board,
      getUCIFromSAN { st with board := board } input
        = .ok (.str (sq ++ destinationOf (L :: rest))) := by
  intro board
  rw [getUCIFromSAN_piece _ hstrip hL]
  unfold getPieceMove
  simp only [List.take, getPieceList_eq _ hL, getPieceMoveComponents_eq]
  have hc : candidates { st with board := board } L = candidates st L := rfl
  rw [hc, hone]
  simp

/-- C12 at the session of the white player after `a1a3` and the capture
`b8a3` of that rook: the one rook left, on h1, is taken for `Re1` although the
king and two pieces stand between h1 and e1, and for `Raxe1` although it is
not on file a. -/
theorem single_candidate_selected_witness :
    candidates (movePiece (movePiece (freshSession .w) "a1a3".toList).st "b8a3".toList).st 'R'
        = ["h1".toList] ∧
      getUCIFromSAN (movePiece (movePiece (freshSession .w) "a1a3".toList).st
          "b8a3".toList).st "Re1".toList = .ok (.str "h1e1".toList) ∧
      getUCIFromSAN (movePiece (movePiece (freshSession .w) "a1a3".toList).st
          "b8a3".toList).st "Raxe1".toList = .ok (.str "h1e1".toList) :=
  ⟨by decide,
    single_candidate_selected
      (movePiece (movePiece (freshSession .w) "a1a3".toList).st "b8a3".toList).st
      "Re1".toList "e1".toList 'R' "h1".toList (by decide) (by decide) (by decide)
      (movePiece (movePiece (freshSession .w) "a1a3".toList).st "b8a3".toList).st.board,
    single_candidate_selected
      (movePiece (movePiece (freshSession .w) "a1a3".toList).st "b8a3".toList).st
      "Raxe1".toList "ae1".toList 'R' "h1".toList (by decide) (by decide) (by decide)
      (movePiece (movePiece (freshSession .w) "a1a3".toList).st "b8a3".toList).st.board⟩

/-- C14. For a piece input, when no entry of the index has the piece code made
of the user's colour and the letter of the input, `getUCIFromSAN` throws
(`'panik'`, the piece was not found) and returns nothing. -/
theorem missing_piece_throws (st : Session) (input rest : Str) (L : Char)
    (hstrip : removeCaptureNotation input = L :: rest) (hL : isQRBNK L = true)
    (hnone : ∀ e ∈ st.userPieceMap, e.2 ≠ st.userColor.toStr ++ [L]) :
    getUCIFromSAN st input = .error .panik := by
  rw [getUCIFromSAN_piece _ hstrip hL]
  unfold getPieceMove
  simp only [List.take, getPieceList_eq _ hL]
  have : candidates st L = [] := by
    unfold candidates
    rw [List.map_eq_nil_iff, List.filter_eq_nil_iff]
    intro e he
    simpa using hnone e he
  simp [this]

/-- C14 at the session of the white player after the queen went to d3 and was
taken there: `Qd4` finds no queen. -/
theorem missing_piece_throws_witness :
    getUCIFromSAN (movePiece (movePiece (freshSession .w) "d1d3".toList).st
        "c8d3".toList).st "Qd4".toList = .error .panik :=
  missing_piece_throws _ "Qd4".toList "d4".toList 'Q' (by decide) (by decide) (by decide)

/-! ## Knight range -/

/-- C15: the code does not do what the claim says.  `inKnightRange` asks that
the two absolute deltas differ by one, which holds for the knight's moves
(1,2) and (2,1) but also for (0,1), (1,0), (2,3), (3,4) and so on: a "knight"
on b1 has access to d4 (deltas 2 and 3) and one on a1 to a2 (deltas 0 and 1),
so with the knights on b1 and g1 `Nd4` is translated to `b1d4`.  The board
plays no part in the answer. -/
theorem knight_range_too_wide :
    (∀ b : Board, pieceHasAccess b "b1".toList "d4".toList "N".toList = .ok true) ∧
      (∀ b : Board, pieceHasAccess b "a1".toList "a2".toList "N".toList = .ok true) ∧
      (∀ b : Board, pieceHasAccess b "b1".toList "c3".toList "N".toList = .ok true) ∧
      (∀ b : Board, pieceHasAccess b "b1".toList "d3".toList "N".toList = .ok false) ∧
      getUCIFromSAN (freshSession .w) "Nd4".toList = .ok (.str "b1d4".toList) := by
  refine ⟨fun _ => rfl, fun _ => rfl, fun _ => rfl, fun _ => rfl, by decide⟩

/-! ## Promotion -/

theorem castleGet_length {move rookMove : Str} (h : castleGet castleMap move = some rookMove) :
    move.length = 4 := by
  simp only [castleGet, castleMap] at h
  split at h
  · rename_i hk; rw [← hk]; decide
  · split at h
    · rename_i hk; rw [← hk]; decide
    · split at h
      · rename_i hk; rw [← hk]; decide
      · split at h
        · rename_i hk; rw [← hk]; decide
        · simp at h

theorem includes_promoted (color user : Color) (x : Char) :
    includes (color.toStr ++ toUpperCase [x]) user.toStr = true ↔ color = user := by
  obtain ⟨u, hu, -⟩ := user.toStr_eq
  rw [hu, includes_singleton, List.mem_append]
  constructor
  · rintro (h | h)
    · cases color <;> cases user <;> simp_all [Color.toStr]
    · exact absurd h (not_mem_toUpperCase user u hu _)
  · rintro rfl
    left
    rw [hu]
    exact List.mem_singleton_self u

/-- C20. For a move of five characters from a square that holds a piece of
colour `color` to another square, once `movePiece` has returned normally the
destination cell holds the colour followed by the upper-cased fifth character
and the origin cell is empty; when the colour is the user's the index holds
that code on the destination and has no entry on the origin; when it is the
opponent's every entry of the index was there before. -/
theorem promotion_applied (st : Session) (c r c' r' x : Char) (color : Color) (p : Str)
    (hok : (movePiece st [c, r, c', r', x]).err = none)
    (horigin : st.board.cell [c, r] = some (.str p))
    (hcolor : p.head? = color.toStr.head?)
    (hne : ([c, r] : Str) ≠ [c', r']) :
    (movePiece st [c, r, c', r', x]).st.board.cell [c', r']
        = some (.str (color.toStr ++ toUpperCase [x])) ∧
      (movePiece st [c, r, c', r', x]).st.board.cell [c, r] = some (.str "--".toList) ∧
      (color = st.userColor →
        (movePiece st [c, r, c', r', x]).st.userPieceMap.get [c', r']
          = some (color.toStr ++ toUpperCase [x]) ∧
        (movePiece st [c, r, c', r', x]).st.userPieceMap.has [c, r] = false) ∧
      (color ≠ st.userColor →
        ∀ e ∈ (movePiece st [c, r, c', r', x]).st.userPieceMap, e ∈ st.userPieceMap) := by
  have hone : ∃ mp, moveOnce st [c, r, c', r', x]
      = (⟨(movePiece st [c, r, c', r', x]).st, none⟩, mp) := by
    rcases movePiece_ok hok with ⟨mp, h1, -⟩ | ⟨st1, mp, rookMove, mp2, -, hc, -, -⟩
    · exact ⟨mp, h1⟩
    · exact absurd (castleGet_length hc) (by simp)
  obtain ⟨mp, hone⟩ := hone
  obtain ⟨c0, r0, c0', r0', rest, sCell, d, m1, m2, m3, hmove, hs, -, hd, hprom, hcap, hrel, hst⟩ :=
    moveOnce_ok hone
  simp only [List.cons.injEq] at hmove
  obtain ⟨rfl, rfl, rfl, rfl, hrest⟩ := hmove
  subst hrest
  rw [horigin] at hs
  simp only [Option.some.injEq] at hs
  subst hs
  -- the promoted code
  have hmp : mp = color.toStr ++ toUpperCase [x] := by
    rcases promotionStep_ok hprom with ⟨hlen, -, -⟩ | ⟨-, hmp, -⟩
    · exact absurd rfl hlen
    · rw [hmp]
      obtain ⟨u, hu, -⟩ := color.toStr_eq
      rw [hu] at hcolor ⊢
      simp only [Cell.toStr]
      cases p with
      | nil => simp at hcolor
      | cons y t =>
        simp only [List.head?, Option.some.injEq] at hcolor
        subst hcolor
        rfl
  subst hmp
  have hs' : ¬ (c' = c ∧ r' = r) := by
    rintro ⟨rfl, rfl⟩
    exact hne rfl
  rw [hst]
  refine ⟨?_, ?_, ?_, ?_⟩
  · simp only
    rw [Board.cell_writeMove _ horigin hd, if_neg hs', if_pos ⟨rfl, rfl⟩]
  · simp only
    rw [Board.cell_writeMove _ horigin hd, if_pos ⟨rfl, rfl⟩]
  · intro hcol
    have hinc : includes (color.toStr ++ toUpperCase [x]) st.userColor.toStr = true :=
      (includes_promoted color st.userColor x).2 hcol
    simp only
    have hm1 : m1.get [c, r] = some (color.toStr ++ toUpperCase [x]) := by
      rcases promotionStep_ok hprom with ⟨hlen, -, -⟩ | ⟨-, -, ⟨-, -, hm1⟩ | ⟨hno, -⟩⟩
      · exact absurd rfl hlen
      · rw [hm1]
        exact PieceMap.get_set_self _ _ _
      · rw [hinc] at hno
        exact absurd hno (by simp)
    have hm2 : m2.get [c, r] = some (color.toStr ++ toUpperCase [x]) := by
      obtain ⟨d0, -, hcase⟩ := captureStep_ok hcap
      rcases hcase with ⟨-, -, hm2⟩ | ⟨-, hm2⟩
      · rw [hm2, PieceMap.get_delete, if_neg hne, hm1]
      · rw [hm2, hm1]
    rcases relocateStep_ok hrel with ⟨-, piece, hget, hm3⟩ | ⟨hno, -⟩
    · rw [hm2] at hget
      simp only [Option.some.injEq] at hget
      subst hget
      rw [hm3]
      refine ⟨PieceMap.get_set_self _ _ _, ?_⟩
      simp only [PieceMap.has]
      rw [PieceMap.get_set_other _ _ hne, PieceMap.get_delete, if_pos rfl]
      rfl
    · rw [hinc] at hno
      exact absurd hno (by simp)
  · intro hcol e he
    have hinc : includes (color.toStr ++ toUpperCase [x]) st.userColor.toStr = false := by
      cases h : includes (color.toStr ++ toUpperCase [x]) st.userColor.toStr with
      | false => rfl
      | true => exact absurd ((includes_promoted color st.userColor x).1 h) hcol
    simp only at he
    have hm1 : m1 = st.userPieceMap := by
      rcases promotionStep_ok hprom with ⟨hlen, -, -⟩ | ⟨-, -, ⟨hyes, -, -⟩ | ⟨-, hm1⟩⟩
      · exact absurd rfl hlen
      · rw [hinc] at hyes
        exact absurd hyes (by simp)
      · exact hm1
    have hm3 : m3 = m2 := by
      rcases relocateStep_ok hrel with ⟨hyes, -⟩ | ⟨-, hm3⟩
      · rw [hinc] at hyes
        exact absurd hyes (by simp)
      · exact hm3
    rw [hm3] at he
    obtain ⟨d0, -, hcase⟩ := captureStep_ok hcap
    rcases hcase with ⟨-, -, hm2⟩ | ⟨-, hm2⟩
    · rw [hm2, hm1] at he
      exact (PieceMap.mem_delete.1 he).1
    · rw [hm2, hm1] at he
      exact he

/-- C20 at the session of the white player once the pawn of file a has been
put on a7 and the rook of a8 taken away: `a7a8q` leaves a white queen on a8,
indexed there. -/
theorem promotion_applied_witness :
    (movePiece (movePiece (movePiece (freshSession .w) "a2a7".toList).st "a8a3".toList).st
        "a7a8q".toList).err = none ∧
      (movePiece (movePiece (movePiece (freshSession .w) "a2a7".toList).st "a8a3".toList).st
        "a7a8q".toList).st.board.cell "a8".toList = some (.str "wQ".toList) ∧
      (movePiece (movePiece (movePiece (freshSession .w) "a2a7".toList).st "a8a3".toList).st
        "a7a8q".toList).st.userPieceMap.get "a8".toList = some "wQ".toList ∧
      (movePiece (movePiece (movePiece (freshSession .w) "a2a7".toList).st "a8a3".toList).st
        "a7a8q".toList).st.userPieceMap.has "a7".toList = false :=
  have h := promotion_applied
    (movePiece (movePiece (freshSession .w) "a2a7".toList).st "a8a3".toList).st
    'a' '7' 'a' '8' 'q' .w "wp".toList (by decide) (by decide) (by decide) (by decide)
  ⟨by decide, h.1, (h.2.2.1 rfl).1, (h.2.2.1 rfl).2⟩

/-! ## The pawn grammar -/

theorem pawn_input_facts : ∀ c ∈ files, ∀ r ∈ ranks,
    removeCaptureNotation [c, r] = [c, r] ∧ removeFirst '=' [c, r] = [c, r] ∧
      (regexMatch [isFile] [c]).isSome = true ∧
      regexMatch [isFile, isRank] [c, r] = some [c, r] ∧
      parseInt (some r) = some (rankNumber r) := by
  decide

theorem landing_facts : ∀ color : Color, ∀ r ∈ ranks,
    (rankNumber r = 4 ↔ r = '4') ∧ (rankNumber r = 5 ↔ r = '5') ∧
      rankChar (rankNumber color.landingRank - color.direction)
        = (match color with
          | .w => '3'
          | .b => '6') := by
  intro color
  cases color <;> decide

theorem column_of_full {b : Board} (hfull : FullBoard b) {c : Char} (hc : c ∈ files) :
    ∃ column, b.column c = some column ∧
      ∀ r : Char, b.cell [c, r] = cellAt column (some r) := by
  obtain ⟨s, hs⟩ := hfull c hc '1' (by decide)
  simp only [Board.cell, Board.columnOf, List.get?] at hs
  split at hs
  · rename_i column hcol
    refine ⟨column, hcol, ?_⟩
    intro r
    simp only [Board.cell, Board.columnOf, List.get?, hcol]
  · simp at hs

/-- C18. For the two-character pawn input naming file `c` and rank `r`, on a
full board, `getUCIFromSAN` returns `c`, the rank `r - 2d` and the destination
when `r` is the landing rank of a double step (4 for `'w'`, 5 for `'b'`) and
the cell of `c` on rank `r - d` is not the user's pawn, and `c`, the rank
`r - d` and the destination in every other case; `d` is +1 for `'w'` and -1
for `'b'`. -/
theorem pawn_advance (st : Session) (hfull : FullBoard st.board) (c r : Char)
    (hc : c ∈ files) (hr : r ∈ ranks) :
    getUCIFromSAN st [c, r] = .ok (.str (
      if r = st.userColor.landingRank ∧
          st.board.cell [c, rankChar (rankNumber r - st.userColor.direction)]
            ≠ some (.str (st.userColor.toStr ++ "p".toList))
      then [c] ++ numStr (rankNumber r - 2 * st.userColor.direction) ++ [c, r]
      else [c] ++ numStr (rankNumber r - st.userColor.direction) ++ [c, r])) := by
  obtain ⟨h1, h2, h3, h4, h5⟩ := pawn_input_facts c hc r hr
  obtain ⟨column, hcol, hcell⟩ := column_of_full hfull hc
  unfold getUCIFromSAN
  simp only [h1, List.take, h3, if_true]
  unfold getPawnMove
  simp only [h2, h4, List.get?, h5, List.take, List.length_cons, List.length_nil,
    Board.columnOf, hcol]
  have e4 : rankNumber '4' = 4 := by decide
  have e5 : rankNumber '5' = 5 := by decide
  have r3 : rankChar 3 = '3' := by decide
  have r6 : rankChar 6 = '6' := by decide
  have c3 : cellAt column (some '3') = cellAtNum column (some 3) := rfl
  have c6 : cellAt column (some '6') = cellAtNum column (some 6) := rfl
  cases hcolor : st.userColor with
  | w =>
    obtain ⟨f4, f5, f6⟩ := landing_facts .w r hr
    simp only [Color.landingRank, Color.direction, Color.toStr] at f6 ⊢
    by_cases h : r = '4'
    · subst h
      simp only [hcell, f6, e4, c3]
      simp
      rw [r3, c3]
      split <;> rfl
    · have n4 : ¬ rankNumber r = 4 := fun e => h (f4.1 e)
      simp [h, n4]
  | b =>
    obtain ⟨f4, f5, f6⟩ := landing_facts .b r hr
    simp only [Color.landingRank, Color.direction, Color.toStr] at f6 ⊢
    by_cases h : r = '5'
    · subst h
      simp only [hcell, f6, e5, c6]
      simp
      rw [r6, c6]
      split <;> rfl
    · have n5 : ¬ rankNumber r = 5 := fun e => h (f5.1 e)
      simp [h, n5]

/-- C18 at the fresh session of the white player, where d3 is empty, and once a
white pawn stands on d3: `d4` gives `d2d4`, then `d3d4`. -/
theorem pawn_advance_witness :
    FullBoard (freshSession .w).board ∧
      getUCIFromSAN (freshSession .w) "d4".toList = .ok (.str "d2d4".toList) ∧
      getUCIFromSAN (movePiece (freshSession .w) "d2d3".toList).st "d4".toList
        = .ok (.str "d3d4".toList) :=
  ⟨fullBoard_initialBoard,
    (pawn_advance (freshSession .w) fullBoard_initialBoard 'd' '4' (by decide)
      (by decide)).trans (by decide),
    by decide⟩

/-! ## Pawn captures and promotions -/

theorem file_facts : ∀ f ∈ files,
    isFile f = true ∧ isRank f = false ∧ f ≠ 'x' ∧ f ≠ '=' := by
  decide

theorem rank_facts : ∀ r ∈ ranks,
    isRank r = true ∧ isFile r = false ∧ r ≠ 'x' ∧ r ≠ '=' ∧
      parseInt (some r) = some (rankNumber r) := by
  decide

theorem letter_facts : ∀ L ∈ promotionLetters,
    isQRBN L = true ∧ isFile L = false ∧ isRank L = false ∧ L ≠ 'x' ∧ L ≠ '=' := by
  decide

/-- A pawn capture, its mark stripped. -/
theorem getPawnMove_capture (st : Session) {f g r : Char} (hf : f ∈ files) (hg : g ∈ files)
    (hr : r ∈ ranks) {s0 : Str} (he : removeFirst '=' s0 = [f, g, r]) :
    getPawnMove st s0
      = .ok (.str ([f] ++ numStr (rankNumber r - st.userColor.direction) ++ [g, r])) := by
  obtain ⟨f1, f2, f3, f4⟩ := file_facts f hf
  obtain ⟨g1, g2, g3, g4⟩ := file_facts g hg
  obtain ⟨r1, r2, r3, r4, r5⟩ := rank_facts r hr
  have hm : regexMatch [isFile, isRank] [f, g, r] = some [g, r] := by
    simp [regexMatch, matchAt, f1, g1, g2, r1]
  have ht : (regexMatch [isFile, isFile, isRank] [f, g, r]).isSome = true := by
    simp [regexMatch, matchAt, f1, g1, r1]
  unfold getPawnMove
  simp only [he, hm, ht, List.get?, r5]
  cases st.userColor <;> simp [Color.direction]

/-- A promotion without capture, its sign stripped. -/
theorem getPawnMove_promotion (st : Session) {g r L : Char} (hg : g ∈ files)
    (hr : r ∈ ranks) (hL : L ∈ promotionLetters) {s0 : Str}
    (he : removeFirst '=' s0 = [g, r, L]) :
    getPawnMove st s0
      = .ok (.str ([g] ++ numStr (rankNumber r - st.userColor.direction) ++ [g, r] ++ [L])) := by
  obtain ⟨g1, g2, g3, g4⟩ := file_facts g hg
  obtain ⟨r1, r2, r3, r4, r5⟩ := rank_facts r hr
  obtain ⟨l1, l2, l3, l4, l5⟩ := letter_facts L hL
  have hm : regexMatch [isFile, isRank] [g, r, L] = some [g, r] := by
    simp [regexMatch, matchAt, g1, r1]
  have ht1 : (regexMatch [isFile, isFile, isRank] [g, r, L]).isSome = false := by
    simp [regexMatch, matchAt, g1, r2, l2]
  have ht2 : (regexMatch [isFile, isRank, isQRBN] [g, r, L]).isSome = true := by
    simp [regexMatch, matchAt, g1, r1, l1]
  unfold getPawnMove
  simp only [he, hm, ht1, ht2, List.get?, r5]
  cases st.userColor <;> simp [Color.direction]

/-- A capturing promotion, mark and sign stripped. -/
theorem getPawnMove_capture_promotion (st : Session) {f g r L : Char} (hf : f ∈ files)
    (hg : g ∈ files) (hr : r ∈ ranks) (hL : L ∈ promotionLetters) {s0 : Str}
    (he : removeFirst '=' s0 = [f, g, r, L]) :
    getPawnMove st s0
      = .ok (.str ([f] ++ numStr (rankNumber r - st.userColor.direction) ++ [g, r] ++ [L])) := by
  obtain ⟨f1, f2, f3, f4⟩ := file_facts f hf
  obtain ⟨g1, g2, g3, g4⟩ := file_facts g hg
  obtain ⟨r1, r2, r3, r4, r5⟩ := rank_facts r hr
  obtain ⟨l1, l2, l3, l4, l5⟩ := letter_facts L hL
  have hm : regexMatch [isFile, isRank] [f, g, r, L] = some [g, r] := by
    simp [regexMatch, matchAt, f1, g1, g2, r1]
  have ht : (regexMatch [isFile, isFile, isRank, isQRBN] [f, g, r, L]).isSome = true := by
    simp [regexMatch, matchAt, f1, g1, r1, l1]
  unfold getPawnMove
  simp only [he, hm, ht, List.get?, r5]
  cases st.userColor <;> simp [Color.direction]

/-- An input whose first character, once the capture mark is stripped, is a
file goes to `getPawnMove`. -/
theorem getUCIFromSAN_pawn (st : Session) (rest : Str) {input : Str} {f : Char}
    (hstrip : removeCaptureNotation input = f :: rest) (hf : f ∈ files) :
    getUCIFromSAN st input = getPawnMove st (f :: rest) := by
  unfold getUCIFromSAN
  simp [hstrip, regexMatch, matchAt, (file_facts f hf).1]

/-- C19. With `d` +1 for `'w'` and -1 for `'b'`, files `f` and `g`, a rank `r`
and a promotion letter `L`: a capture `f g r` is translated to `f`, the rank
`r - d` and `g r`; a promotion `g r L` to `g`, the rank `r - d`, `g r` and `L`;
a capturing promotion `f g r L` to `f`, the rank `r - d`, `g r` and `L`;
and the same with the capture mark `x` after the first file or the sign `=`
before the letter. -/
theorem pawn_capture_and_promotion (st : Session) (f g r L : Char) (hf : f ∈ files)
    (hg : g ∈ files) (hr : r ∈ ranks) (hL : L ∈ promotionLetters) :
    (∀ input ∈ [[f, g, r], [f, 'x', g, r]],
        getUCIFromSAN st input
          = .ok (.str ([f] ++ numStr (rankNumber r - st.userColor.direction) ++ [g, r]))) ∧
      (∀ input ∈ [[g, r, L], [g, r, '=', L]],
        getUCIFromSAN st input
          = .ok (.str ([g] ++ numStr (rankNumber r - st.userColor.direction)
              ++ [g, r] ++ [L]))) ∧
      (∀ input ∈ [[f, g, r, L], [f, 'x', g, r, L], [f, g, r, '=', L], [f, 'x', g, r, '=', L]],
        getUCIFromSAN st input
          = .ok (.str ([f] ++ numStr (rankNumber r - st.userColor.direction)
              ++ [g, r] ++ [L]))) := by
  obtain ⟨f1, f2, f3, f4⟩ := file_facts f hf
  obtain ⟨g1, g2, g3, g4⟩ := file_facts g hg
  obtain ⟨r1, r2, r3, r4, r5⟩ := rank_facts r hr
  obtain ⟨l1, l2, l3, l4, l5⟩ := letter_facts L hL
  refine ⟨?_, ?_, ?_⟩
  · intro input hin
    simp only [List.mem_cons, List.mem_singleton, List.not_mem_nil, or_false] at hin
    rcases hin with rfl | rfl
    · rw [getUCIFromSAN_pawn st [g, r] (by simp [removeCaptureNotation, removeFirst, f3, g3, r3]) hf]
      exact getPawnMove_capture st hf hg hr (by simp [removeFirst, f4, g4, r4])
    · rw [getUCIFromSAN_pawn st [g, r] (by simp [removeCaptureNotation, removeFirst, f3]) hf]
      exact getPawnMove_capture st hf hg hr (by simp [removeFirst, f4, g4, r4])
  · intro input hin
    simp only [List.mem_cons, List.mem_singleton, List.not_mem_nil, or_false] at hin
    rcases hin with rfl | rfl
    · rw [getUCIFromSAN_pawn st [r, L] (by simp [removeCaptureNotation, removeFirst, g3, r3, l4]) hg]
      exact getPawnMove_promotion st hg hr hL (by simp [removeFirst, g4, r4, l5])
    · rw [getUCIFromSAN_pawn st [r, '=', L] (by simp [removeCaptureNotation, removeFirst, g3, r3, l4]) hg]
      exact getPawnMove_promotion st hg hr hL (by simp [removeFirst, g4, r4])
  · intro input hin
    simp only [List.mem_cons, List.mem_singleton, List.not_mem_nil, or_false] at hin
    rcases hin with rfl | rfl | rfl | rfl
    · rw [getUCIFromSAN_pawn st [g, r, L] (by simp [removeCaptureNotation, removeFirst, f3, g3, r3, l4]) hf]
      exact getPawnMove_capture_promotion st hf hg hr hL (by simp [removeFirst, f4, g4, r4, l5])
    · rw [getUCIFromSAN_pawn st [g, r, L] (by simp [removeCaptureNotation, removeFirst, f3]) hf]
      exact getPawnMove_capture_promotion st hf hg hr hL (by simp [removeFirst, f4, g4, r4, l5])
    · rw [getUCIFromSAN_pawn st [g, r, '=', L] (by simp [removeCaptureNotation, removeFirst, f3, g3, r3, l4]) hf]
      exact getPawnMove_capture_promotion st hf hg hr hL (by simp [removeFirst, f4, g4, r4])
    · rw [getUCIFromSAN_pawn st [g, r, '=', L] (by simp [removeCaptureNotation, removeFirst, f3]) hf]
      exact getPawnMove_capture_promotion st hf hg hr hL (by simp [removeFirst, f4, g4, r4])

/-- C19 for the white player: `exd5` gives `e4d5`, `e8=Q` gives `e7e8Q` and
`exd8=Q` gives `e7d8Q`. -/
theorem pawn_capture_and_promotion_witness :
    getUCIFromSAN (freshSession .w) "exd5".toList = .ok (.str "e4d5".toList) ∧
      getUCIFromSAN (freshSession .w) "e8=Q".toList = .ok (.str "e7e8Q".toList) ∧
      getUCIFromSAN (freshSession .w) "exd8=Q".toList = .ok (.str "e7d8Q".toList) :=
  ⟨((pawn_capture_and_promotion (freshSession .w) 'e' 'd' '5' 'Q' (by decide) (by decide)
      (by decide) (by decide)).1 "exd5".toList (by decide)).trans (by decide),
    ((pawn_capture_and_promotion (freshSession .w) 'e' 'e' '8' 'Q' (by decide) (by decide)
      (by decide) (by decide)).2.1 "e8=Q".toList (by decide)).trans (by decide),
    ((pawn_capture_and_promotion (freshSession .w) 'e' 'd' '8' 'Q' (by decide) (by decide)
      (by decide) (by decide)).2.2 "exd8=Q".toList (by decide)).trans (by decide)⟩

/-! ## The walk of `isBlocked` -/

/-- The loop of `isBlocked`, started `j` steps before the destination on
columns that exist, ends with a Boolean: whether one of the `j` cells it
passes is not empty. -/
theorem isBlockedLoop_walk (b : Board) (c : Coordinates) (rowDir colDir dr : Int)
    (hdr : c.destRow = some dr) (hdir : rowDir ≠ 0 ∨ colDir ≠ 0) :
    ∀ (j fuel : Nat), j < fuel →
      (∀ i : Nat, 1 ≤ i → i ≤ j →
        ∃ cells, b.columnNamed (columnName (c.destCol - i * colDir)) = some cells) →
      ∃ res, isBlockedLoop b c rowDir colDir fuel (some (dr - j * rowDir))
            (c.destCol - j * colDir) = .ok res ∧
        (res = true ↔ ∃ i : Nat, 1 ≤ i ∧ i ≤ j ∧
          b.cellNum (dr - i * rowDir) (c.destCol - i * colDir)
            ≠ some (.str "--".toList)) := by
  intro j
  induction j with
  | zero =>
    intro fuel hf _
    cases fuel with
    | zero => omega
    | succ k =>
      refine ⟨false, ?_, ?_⟩
      · unfold isBlockedLoop
        simp [hdr, numEq]
      · constructor
        · intro h; exact absurd h (by simp)
        · rintro ⟨i, h1, h2, -⟩
          omega
  | succ j ih =>
    intro fuel hf hcols
    cases fuel with
    | zero => omega
    | succ k =>
      obtain ⟨cells, hcells⟩ := hcols (j + 1) (by omega) (by omega)
      have hexit : (numEq c.destRow (some (dr - ((j + 1 : Nat) : Int) * rowDir))
          && decide (c.destCol = c.destCol - ((j + 1 : Nat) : Int) * colDir)) = false := by
        rw [hdr]
        simp only [numEq, Bool.and_eq_false_iff, decide_eq_false_iff_not]
        rcases hdir with h | h
        · left
          intro e
          have : ((j + 1 : Nat) : Int) * rowDir = 0 := by omega
          rcases Int.mul_eq_zero.1 this with h0 | h0
          · omega
          · exact h h0
        · right
          intro e
          have : ((j + 1 : Nat) : Int) * colDir = 0 := by omega
          rcases Int.mul_eq_zero.1 this with h0 | h0
          · omega
          · exact h h0
      have hnum : b.cellNum (dr - ((j + 1 : Nat) : Int) * rowDir)
          (c.destCol - ((j + 1 : Nat) : Int) * colDir)
          = cellAtNum cells (some (dr - ((j + 1 : Nat) : Int) * rowDir)) := by
        simp only [Board.cellNum, hcells]
      by_cases hocc : cellAtNum cells (some (dr - ((j + 1 : Nat) : Int) * rowDir))
          = some (.str "--".toList)
      · -- the cell is empty: the walk goes on
        obtain ⟨res, hres, hiff⟩ := ih k (by omega)
          (fun i h1 h2 => hcols i h1 (by omega))
        refine ⟨res, ?_, ?_⟩
        · unfold isBlockedLoop
          rw [hexit]
          simp only [Bool.false_eq_true, if_false, hcells, hocc, ne_eq, not_true_eq_false]
          have e1 : numAdd (some (dr - ((j + 1 : Nat) : Int) * rowDir)) rowDir
              = some (dr - (j : Int) * rowDir) := by
            simp only [numAdd, Option.map]
            congr 1
            push_cast
            ring
          have e2 : c.destCol - ((j + 1 : Nat) : Int) * colDir + colDir
              = c.destCol - (j : Int) * colDir := by
            push_cast
            ring
          rw [e1, e2]
          exact hres
        · rw [hiff]
          constructor
          · rintro ⟨i, h1, h2, h3⟩
            exact ⟨i, h1, by omega, h3⟩
          · rintro ⟨i, h1, h2, h3⟩
            have hlt : i ≠ j + 1 := by
              rintro rfl
              rw [hnum, hocc] at h3
              exact h3 rfl
            exact ⟨i, h1, by omega, h3⟩
      · refine ⟨true, ?_, ?_⟩
        · unfold isBlockedLoop
          rw [hexit]
          simp only [Bool.false_eq_true, if_false, hcells, ne_eq, hocc, not_false_eq_true,
            if_true]
        · constructor
          · intro _
            exact ⟨j + 1, by omega, by omega, by rw [hnum]; exact hocc⟩
          · intro _; rfl
/-- The directions `isBlocked` takes for two squares `n` steps apart on a line
are the unit steps from the first to the second. -/
theorem isBlocked_line (b : Board) (c : Coordinates) (sr dr rd cd : Int) (n : Nat)
    (hsr : c.startRow = some sr) (hdr : c.destRow = some dr) (hn : 1 ≤ n)
    (hrd : rd = 1 ∨ rd = -1 ∨ rd = 0) (hcd : cd = 1 ∨ cd = -1 ∨ cd = 0)
    (hdir : rd ≠ 0 ∨ cd ≠ 0)
    (hrow : dr = sr + n * rd) (hcol : c.destCol = c.startCol + n * cd) :
    isBlocked b c = isBlockedLoop b c rd cd (walkBound b) (some (dr - ((n - 1 : Nat) : Int) * rd))
      (c.destCol - ((n - 1 : Nat) : Int) * cd) := by
  have hn1 : ((n - 1 : Nat) : Int) = (n : Int) - 1 := by omega
  have e1 : numAdd (some sr) rd = some (dr - ((n - 1 : Nat) : Int) * rd) := by
    simp only [numAdd, Option.map]
    congr 1
    rw [hrow, hn1]
    ring
  have e2 : c.startCol + cd = c.destCol - ((n - 1 : Nat) : Int) * cd := by
    rw [hcol, hn1]
    ring
  have hnpos : (0 : Int) < n := by omega
  unfold isBlocked
  simp only [hsr, hdr]
  rcases hcd with rfl | rfl | rfl
  · -- towards column h
    have c1 : ¬ (c.startCol - c.destCol = 0) := by rw [hcol]; omega
    have c2 : ¬ (c.startCol > c.destCol) := by rw [hcol]; omega
    rcases hrd with rfl | rfl | rfl
    · have g : numGt (some sr) (some dr) = false := by simp [numGt, hrow]
      have q : numEq (numSub (some sr) (some dr)) (some 0) = false := by
        simp [numEq, numSub, hrow]; omega
      have sd : sharesDiagonal c = true := by
        simp [sharesDiagonal, hsr, hdr, absDiff, numEq, hrow, hcol]
      simp only [c1, if_false, q, Bool.false_eq_true, sd, if_true, g, c2, e1, e2]
    · have g : numGt (some sr) (some dr) = true := by simp [numGt, hrow]; omega
      have q : numEq (numSub (some sr) (some dr)) (some 0) = false := by
        simp [numEq, numSub, hrow]; omega
      have sd : sharesDiagonal c = true := by
        simp [sharesDiagonal, hsr, hdr, absDiff, numEq, hrow, hcol]
      simp only [c1, if_false, q, Bool.false_eq_true, sd, if_true, g, c2, e1, e2]
    · have q : numEq (numSub (some sr) (some dr)) (some 0) = true := by
        simp [numEq, numSub, hrow]
      simp only [c1, if_false, q, if_true, c2, e1, e2]
  · -- towards column a
    have c1 : ¬ (c.startCol - c.destCol = 0) := by rw [hcol]; omega
    have c2 : c.startCol > c.destCol := by rw [hcol]; omega
    rcases hrd with rfl | rfl | rfl
    · have g : numGt (some sr) (some dr) = false := by simp [numGt, hrow]
      have q : numEq (numSub (some sr) (some dr)) (some 0) = false := by
        simp [numEq, numSub, hrow]; omega
      have sd : sharesDiagonal c = true := by
        simp [sharesDiagonal, hsr, hdr, absDiff, numEq, hrow, hcol]
      simp only [c1, if_false, q, Bool.false_eq_true, sd, if_true, g, c2, e1, e2]
    · have g : numGt (some sr) (some dr) = true := by simp [numGt, hrow]; omega
      have q : numEq (numSub (some sr) (some dr)) (some 0) = false := by
        simp [numEq, numSub, hrow]; omega
      have sd : sharesDiagonal c = true := by
        simp [sharesDiagonal, hsr, hdr, absDiff, numEq, hrow, hcol]
      simp only [c1, if_false, q, Bool.false_eq_true, sd, if_true, g, c2, e1, e2]
    · have q : numEq (numSub (some sr) (some dr)) (some 0) = true := by
        simp [numEq, numSub, hrow]
      simp only [c1, if_false, q, if_true, c2, e1, e2]
  · -- along a column
    have c1 : c.startCol - c.destCol = 0 := by rw [hcol]; omega
    rcases hrd with rfl | rfl | rfl
    · have g : numGt (some sr) (some dr) = false := by simp [numGt, hrow]
      simp only [c1, if_true, g, Bool.false_eq_true, if_false, e1, e2]
    · have g : numGt (some sr) (some dr) = true := by simp [numGt, hrow]; omega
      simp only [c1, if_true, g, e1, e2]
    · exact absurd rfl (hdir.elim id id)
/-! ## Squares and their numbers -/

theorem file_numbers : ∀ f ∈ files,
    columnsIndexOf (some f) = fileNumber f ∧ 1 ≤ fileNumber f ∧ fileNumber f ≤ 8 ∧
      fileChar (fileNumber f) = f := by
  decide

theorem rank_numbers : ∀ r ∈ ranks,
    parseInt (some r) = some (rankNumber r) ∧ 1 ≤ rankNumber r ∧ rankNumber r ≤ 8 ∧
      rankChar (rankNumber r) = r := by
  decide

theorem fileChar_spec (n : Int) (h1 : 1 ≤ n) (h8 : n ≤ 8) :
    fileChar n ∈ files ∧ fileNumber (fileChar n) = n ∧
      ∀ b : Board, b.columnNamed (columnName n) = b.column (fileChar n) := by
  interval_cases n <;> exact ⟨by decide, by decide, fun _ => rfl⟩

theorem rankChar_spec (n : Int) (h1 : 1 ≤ n) (h8 : n ≤ 8) :
    rankChar n ∈ ranks ∧ rankNumber (rankChar n) = n ∧
      ∀ cells : List Cell, cellAtNum cells (some n) = cellAt cells (some (rankChar n)) := by
  interval_cases n <;> exact ⟨by decide, by decide, fun _ => rfl⟩

/-- On the board, the cell the loop of `isBlocked` reads by numbers is the
cell of the square with that file and that rank. -/
theorem Board.cellNum_eq_cell (b : Board) (row col : Int) (hr1 : 1 ≤ row) (hr8 : row ≤ 8)
    (hc1 : 1 ≤ col) (hc8 : col ≤ 8) :
    b.cellNum row col = b.cell [fileChar col, rankChar row] := by
  simp only [Board.cellNum, (fileChar_spec col hc1 hc8).2.2, Board.cell, Board.columnOf,
    List.get?]
  cases b.column (fileChar col) with
  | none => rfl
  | some cells => exact (rankChar_spec row hr1 hr8).2.2 cells

theorem columnNamed_of_full {b : Board} (hfull : FullBoard b) (col : Int) (hc1 : 1 ≤ col)
    (hc8 : col ≤ 8) : ∃ cells, b.columnNamed (columnName col) = some cells := by
  obtain ⟨hf, -, hcol⟩ := fileChar_spec col hc1 hc8
  obtain ⟨cells, h, -⟩ := column_of_full hfull hf
  exact ⟨cells, by rw [hcol, h]⟩

theorem walkBound_ge (b : Board) : 10 ≤ walkBound b := by
  unfold walkBound
  omega

theorem sign_cases (x : Int) : x.sign = 1 ∨ x.sign = -1 ∨ x.sign = 0 := by
  rcases lt_trichotomy x 0 with h | h | h
  · right; left; exact Int.sign_eq_neg_one_of_neg h
  · right; right; rw [h]; rfl
  · left; exact Int.sign_eq_one_of_pos h

theorem eq_natAbs_mul_sign (x : Int) : x = (x.natAbs : Int) * x.sign := by
  rw [Int.mul_comm, Int.sign_mul_natAbs]

theorem getNumericCoordinates_on_board {f1 r1 f2 r2 : Char} (hf1 : f1 ∈ files)
    (hr1 : r1 ∈ ranks) (hf2 : f2 ∈ files) (hr2 : r2 ∈ ranks) :
    getNumericCoordinates [f1, r1] [f2, r2]
      = { startCol := fileNumber f1, startRow := some (rankNumber r1),
          destCol := fileNumber f2, destRow := some (rankNumber r2) } := by
  simp only [getNumericCoordinates, List.get?, (file_numbers f1 hf1).1, (file_numbers f2 hf2).1,
    (rank_numbers r1 hr1).1, (rank_numbers r2 hr2).1]
theorem fileNumber_inj {f1 f2 : Char} (hf1 : f1 ∈ files) (hf2 : f2 ∈ files)
    (h : fileNumber f1 = fileNumber f2) : f1 = f2 := by
  rw [← (file_numbers f1 hf1).2.2.2, ← (file_numbers f2 hf2).2.2.2, h]

theorem rankNumber_inj {r1 r2 : Char} (hr1 : r1 ∈ ranks) (hr2 : r2 ∈ ranks)
    (h : rankNumber r1 = rankNumber r2) : r1 = r2 := by
  rw [← (rank_numbers r1 hr1).2.2.2, ← (rank_numbers r2 hr2).2.2.2, h]

/-- Two different squares of the board on a common line are `n` unit steps
apart, `n` being their distance. -/
theorem line_steps {f1 r1 f2 r2 : Char} (hf1 : f1 ∈ files) (hr1 : r1 ∈ ranks)
    (hf2 : f2 ∈ files) (hr2 : r2 ∈ ranks) (hne : ¬ (f1 = f2 ∧ r1 = r2))
    (hline : f1 = f2 ∨ r1 = r2 ∨ SameDiagonal f1 r1 f2 r2) :
    ∃ n : Nat, 1 ≤ n ∧ n ≤ 7 ∧
      (n : Int) = max ((fileNumber f2 - fileNumber f1).natAbs : Int)
        ((rankNumber r2 - rankNumber r1).natAbs : Int) ∧
      ((rankNumber r2 - rankNumber r1).sign ≠ 0 ∨ (fileNumber f2 - fileNumber f1).sign ≠ 0) ∧
      rankNumber r2 = rankNumber r1 + n * (rankNumber r2 - rankNumber r1).sign ∧
      fileNumber f2 = fileNumber f1 + n * (fileNumber f2 - fileNumber f1).sign := by
  obtain ⟨-, a1, a2, -⟩ := file_numbers f1 hf1
  obtain ⟨-, b1, b2, -⟩ := file_numbers f2 hf2
  obtain ⟨-, c1, c2, -⟩ := rank_numbers r1 hr1
  obtain ⟨-, d1, d2, -⟩ := rank_numbers r2 hr2
  have hdiff : fileNumber f2 - fileNumber f1 ≠ 0 ∨ rankNumber r2 - rankNumber r1 ≠ 0 := by
    by_contra hcon
    push_neg at hcon
    exact hne ⟨fileNumber_inj hf1 hf2 (by omega), rankNumber_inj hr1 hr2 (by omega)⟩
  have hshape : fileNumber f2 - fileNumber f1 = 0 ∨ rankNumber r2 - rankNumber r1 = 0 ∨
      (fileNumber f2 - fileNumber f1).natAbs = (rankNumber r2 - rankNumber r1).natAbs := by
    rcases hline with h | h | h
    · left; rw [h]; omega
    · right; left; rw [h]; omega
    · right; right; exact h
  have sx : (0 < fileNumber f2 - fileNumber f1 ∧ (fileNumber f2 - fileNumber f1).sign = 1) ∨
      (fileNumber f2 - fileNumber f1 < 0 ∧ (fileNumber f2 - fileNumber f1).sign = -1) ∨
      (fileNumber f2 - fileNumber f1 = 0 ∧ (fileNumber f2 - fileNumber f1).sign = 0) := by
    rcases lt_trichotomy (fileNumber f2 - fileNumber f1) 0 with h | h | h
    · exact Or.inr (Or.inl ⟨h, Int.sign_eq_neg_one_of_neg h⟩)
    · exact Or.inr (Or.inr ⟨h, by rw [h]; rfl⟩)
    · exact Or.inl ⟨h, Int.sign_eq_one_of_pos h⟩
  have sy : (0 < rankNumber r2 - rankNumber r1 ∧ (rankNumber r2 - rankNumber r1).sign = 1) ∨
      (rankNumber r2 - rankNumber r1 < 0 ∧ (rankNumber r2 - rankNumber r1).sign = -1) ∨
      (rankNumber r2 - rankNumber r1 = 0 ∧ (rankNumber r2 - rankNumber r1).sign = 0) := by
    rcases lt_trichotomy (rankNumber r2 - rankNumber r1) 0 with h | h | h
    · exact Or.inr (Or.inl ⟨h, Int.sign_eq_neg_one_of_neg h⟩)
    · exact Or.inr (Or.inr ⟨h, by rw [h]; rfl⟩)
    · exact Or.inl ⟨h, Int.sign_eq_one_of_pos h⟩
  refine ⟨max (fileNumber f2 - fileNumber f1).natAbs (rankNumber r2 - rankNumber r1).natAbs,
    ?_, ?_, ?_, ?_, ?_, ?_⟩
  · omega
  · omega
  · omega
  · rcases sx with ⟨h, e⟩ | ⟨h, e⟩ | ⟨h, e⟩ <;> rcases sy with ⟨h', e'⟩ | ⟨h', e'⟩ | ⟨h', e'⟩ <;>
      rw [e, e'] <;> omega
  · rcases sx with ⟨h, e⟩ | ⟨h, e⟩ | ⟨h, e⟩ <;> rcases sy with ⟨h', e'⟩ | ⟨h', e'⟩ | ⟨h', e'⟩ <;>
      rw [e'] <;> omega
  · rcases sx with ⟨h, e⟩ | ⟨h, e⟩ | ⟨h, e⟩ <;> rcases sy with ⟨h', e'⟩ | ⟨h', e'⟩ | ⟨h', e'⟩ <;>
      rw [e] <;> omega
/-- For two different squares of a full board on a common line, `isBlocked`
returns a Boolean: whether some cell strictly between them is not empty. -/
theorem isBlocked_on_board {b : Board} (hfull : FullBoard b) {f1 r1 f2 r2 : Char}
    (hf1 : f1 ∈ files) (hr1 : r1 ∈ ranks) (hf2 : f2 ∈ files) (hr2 : r2 ∈ ranks)
    (hne : ¬ (f1 = f2 ∧ r1 = r2))
    (hline : f1 = f2 ∨ r1 = r2 ∨ SameDiagonal f1 r1 f2 r2) :
    ∃ res, isBlocked b (getNumericCoordinates [f1, r1] [f2, r2]) = .ok res ∧
      (res = true ↔ BlockedBetween b f1 r1 f2 r2) := by
  obtain ⟨n, hn1, hn7, hmax, hdir, hrow, hcol⟩ := line_steps hf1 hr1 hf2 hr2 hne hline
  obtain ⟨-, a1, a2, -⟩ := file_numbers f1 hf1
  obtain ⟨-, b1, b2, -⟩ := file_numbers f2 hf2
  obtain ⟨-, c1, c2, -⟩ := rank_numbers r1 hr1
  obtain ⟨-, d1, d2, -⟩ := rank_numbers r2 hr2
  have hrd := sign_cases (rankNumber r2 - rankNumber r1)
  have hcd := sign_cases (fileNumber f2 - fileNumber f1)
  unfold BlockedBetween StrictlyBetween
  rw [← hmax]
  generalize (rankNumber r2 - rankNumber r1).sign = rd at hrd hdir hrow ⊢
  generalize (fileNumber f2 - fileNumber f1).sign = cd at hcd hdir hcol ⊢
  rw [getNumericCoordinates_on_board hf1 hr1 hf2 hr2]
  rw [isBlocked_line b _ (rankNumber r1) (rankNumber r2) rd cd n rfl rfl hn1 hrd hcd hdir
    hrow hcol]
  have hbound : n - 1 < walkBound b := by
    have := walkBound_ge b
    omega
  -- the cells passed are on the board
  have hin : ∀ i : Nat, 1 ≤ i → i ≤ n - 1 →
      1 ≤ fileNumber f2 - i * cd ∧ fileNumber f2 - i * cd ≤ 8 ∧
      1 ≤ rankNumber r2 - i * rd ∧ rankNumber r2 - i * rd ≤ 8 := by
    intro i h1 h2
    rcases hrd with e | e | e <;> rcases hcd with e' | e' | e' <;> subst e <;> subst e' <;>
      omega
  obtain ⟨res, hres, hiff⟩ := isBlockedLoop_walk b
    { startCol := fileNumber f1, startRow := some (rankNumber r1),
      destCol := fileNumber f2, destRow := some (rankNumber r2) }
    rd cd (rankNumber r2) rfl hdir (n - 1) (walkBound b) hbound
    (fun i h1 h2 => columnNamed_of_full hfull _ (hin i h1 h2).1 (hin i h1 h2).2.1)
  refine ⟨res, hres, hiff.trans ?_⟩
  simp only
  constructor
  · rintro ⟨i, h1, h2, hocc⟩
    obtain ⟨p1, p2, p3, p4⟩ := hin i h1 h2
    rw [Board.cellNum_eq_cell b _ _ p3 p4 p1 p2] at hocc
    obtain ⟨q1, q2, -⟩ := fileChar_spec _ p1 p2
    obtain ⟨q3, q4, -⟩ := rankChar_spec _ p3 p4
    refine ⟨_, q1, _, q3, ⟨(n : Int) - i, by omega, by omega, ?_, ?_⟩, hocc⟩
    · rw [q2, hcol]; ring
    · rw [q4, hrow]; ring
  · rintro ⟨f, hf, r, hr, ⟨k, k1, k2, k3, k4⟩, hocc⟩
    obtain ⟨-, u1, u2, u3⟩ := file_numbers f hf
    obtain ⟨-, v1, v2, v3⟩ := rank_numbers r hr
    refine ⟨(n - k).toNat, by omega, by omega, ?_⟩
    have e0 : (((n : Int) - k).toNat : Int) = n - k := by omega
    have e1 : fileNumber f2 - (((n : Int) - k).toNat : Int) * cd = fileNumber f := by
      rw [e0, k3, hcol]; ring
    have e2 : rankNumber r2 - (((n : Int) - k).toNat : Int) * rd = rankNumber r := by
      rw [e0, k4, hrow]; ring
    rw [e1, e2, Board.cellNum_eq_cell b _ _ v1 v2 u1 u2, u3, v3]
    exact hocc
theorem isBlocked_off_line (b : Board) {f1 r1 f2 r2 : Char}
    (hf1 : f1 ∈ files) (hr1 : r1 ∈ ranks) (hf2 : f2 ∈ files) (hr2 : r2 ∈ ranks)
    (hline : ¬ (f1 = f2 ∨ r1 = r2 ∨ SameDiagonal f1 r1 f2 r2)) :
    isBlocked b (getNumericCoordinates [f1, r1] [f2, r2]) = .error .notOnLine := by
  push_neg at hline
  obtain ⟨h1, h2, h3⟩ := hline
  have n1 : ¬ (fileNumber f1 - fileNumber f2 = 0) := fun e =>
    h1 (fileNumber_inj hf1 hf2 (by omega))
  have n2 : ¬ (rankNumber r1 - rankNumber r2 = 0) := fun e =>
    h2 (rankNumber_inj hr1 hr2 (by omega))
  have n3 : ¬ ((fileNumber f1 - fileNumber f2).natAbs = (rankNumber r1 - rankNumber r2).natAbs) := by
    unfold SameDiagonal at h3
    omega
  rw [getNumericCoordinates_on_board hf1 hr1 hf2 hr2]
  have hsd : sharesDiagonal
      { startCol := fileNumber f1, startRow := some (rankNumber r1),
        destCol := fileNumber f2, destRow := some (rankNumber r2) } = false := by
    simp only [sharesDiagonal, absDiff, numEq]
    exact decide_eq_false (by omega)
  have hq : numEq (numSub (some (rankNumber r1)) (some (rankNumber r2))) (some 0) = false := by
    simp only [numSub, numEq]
    exact decide_eq_false n2
  unfold isBlocked
  simp only [n1, if_false, hq, hsd, Bool.false_eq_true]

theorem clearBetween_iff (b : Board) (f1 r1 f2 r2 : Char) :
    ClearBetween b f1 r1 f2 r2 ↔ ¬ BlockedBetween b f1 r1 f2 r2 := by
  unfold ClearBetween BlockedBetween
  constructor
  · rintro h ⟨f, hf, r, hr, hb, hocc⟩
    exact hocc (h f hf r hr hb)
  · intro h f hf r hr hb
    by_contra hocc
    exact h ⟨f, hf, r, hr, hb, hocc⟩

/-- C17. For two different squares of a full board: when they share a column,
a row or a diagonal, `isBlocked` returns `true` if some cell strictly between
them is not empty and `false` if every such cell is empty, and the answer is
the same on every full board that has the same cells strictly between them,
so no other cell, on or off the board, is consulted; when they share no line
it throws. -/
theorem isBlocked_between (b : Board) (hfull : FullBoard b) (f1 r1 f2 r2 : Char)
    (hf1 : f1 ∈ files) (hr1 : r1 ∈ ranks) (hf2 : f2 ∈ files) (hr2 : r2 ∈ ranks)
    (hne : ([f1, r1] : Str) ≠ [f2, r2]) :
    (f1 = f2 ∨ r1 = r2 ∨ SameDiagonal f1 r1 f2 r2 →
      (BlockedBetween b f1 r1 f2 r2 →
        isBlocked b (getNumericCoordinates [f1, r1] [f2, r2]) = .ok true) ∧
      (ClearBetween b f1 r1 f2 r2 →
        isBlocked b (getNumericCoordinates [f1, r1] [f2, r2]) = .ok false) ∧
      (∀ b' : Board, FullBoard b' →
        (∀ f ∈ files, ∀ r ∈ ranks, StrictlyBetween f1 r1 f2 r2 f r →
          b'.cell [f, r] = b.cell [f, r]) →
        isBlocked b' (getNumericCoordinates [f1, r1] [f2, r2])
          = isBlocked b (getNumericCoordinates [f1, r1] [f2, r2]))) ∧
      (¬ (f1 = f2 ∨ r1 = r2 ∨ SameDiagonal f1 r1 f2 r2) →
        isBlocked b (getNumericCoordinates [f1, r1] [f2, r2]) = .error .notOnLine) := by
  have hne' : ¬ (f1 = f2 ∧ r1 = r2) := by
    rintro ⟨rfl, rfl⟩
    exact hne rfl
  refine ⟨fun hline => ?_, isBlocked_off_line b hf1 hr1 hf2 hr2⟩
  obtain ⟨res, hres, hiff⟩ := isBlocked_on_board hfull hf1 hr1 hf2 hr2 hne' hline
  refine ⟨?_, ?_, ?_⟩
  · intro hb
    rw [hres, hiff.2 hb]
  · intro hc
    rw [hres]
    cases res with
    | false => rfl
    | true => exact absurd (hiff.1 rfl) ((clearBetween_iff _ _ _ _ _).1 hc)
  · intro b' hfull' hsame
    obtain ⟨res', hres', hiff'⟩ := isBlocked_on_board hfull' hf1 hr1 hf2 hr2 hne' hline
    rw [hres, hres']
    have : res' = true ↔ res = true := by
      rw [hiff, hiff']
      unfold BlockedBetween
      constructor
      · rintro ⟨f, hf, r, hr, hb, hocc⟩
        exact ⟨f, hf, r, hr, hb, by rw [← hsame f hf r hr hb]; exact hocc⟩
      · rintro ⟨f, hf, r, hr, hb, hocc⟩
        exact ⟨f, hf, r, hr, hb, by rw [hsame f hf r hr hb]; exact hocc⟩
    cases res <;> cases res' <;> simp_all

/-- C17 on the starting position: between a1 and a4 the pawn of a2 blocks,
between a3 and h3 nothing does, and b1 and d4 share no line. -/
theorem isBlocked_between_witness :
    isBlocked initialBoard (getNumericCoordinates "a1".toList "a4".toList) = .ok true ∧
      isBlocked initialBoard (getNumericCoordinates "a3".toList "h3".toList) = .ok false ∧
      isBlocked initialBoard (getNumericCoordinates "b1".toList "d4".toList)
        = .error .notOnLine :=
  ⟨((isBlocked_between initialBoard fullBoard_initialBoard 'a' '1' 'a' '4' (by decide)
      (by decide) (by decide) (by decide) (by decide)).1 (Or.inl rfl)).1
      ⟨'a', by decide, '2', by decide, ⟨1, by decide, by decide, by decide, by decide⟩,
        by decide⟩,
    by decide,
    (isBlocked_between initialBoard fullBoard_initialBoard 'b' '1' 'd' '4' (by decide)
      (by decide) (by decide) (by decide) (by decide)).2 (by
        unfold SameDiagonal
        decide)⟩

/-! ## Access of the sliding pieces -/

theorem shares_on_board {f1 r1 f2 r2 : Char} (hf1 : f1 ∈ files) (hr1 : r1 ∈ ranks)
    (hf2 : f2 ∈ files) (hr2 : r2 ∈ ranks) :
    (sharesColumn (getNumericCoordinates [f1, r1] [f2, r2]) = true ↔ f1 = f2) ∧
      (sharesRow (getNumericCoordinates [f1, r1] [f2, r2]) = true ↔ r1 = r2) ∧
      (sharesDiagonal (getNumericCoordinates [f1, r1] [f2, r2]) = true
        ↔ SameDiagonal f1 r1 f2 r2) := by
  rw [getNumericCoordinates_on_board hf1 hr1 hf2 hr2]
  simp only [sharesColumn, sharesRow, sharesDiagonal, numEq, absDiff, decide_eq_true_eq,
    SameDiagonal]
  refine ⟨⟨fun h => fileNumber_inj hf1 hf2 h, fun h => by rw [h]⟩,
    ⟨fun h => rankNumber_inj hr1 hr2 h, fun h => by rw [h]⟩, ?_⟩
  constructor <;> intro h <;> omega

/-- The answer of `pieceHasAccess` for a rook, a bishop or a queen between two
different squares of a full board. -/
theorem pieceHasAccess_sliding {b : Board} (hfull : FullBoard b) {f1 r1 f2 r2 : Char}
    (hf1 : f1 ∈ files) (hr1 : r1 ∈ ranks) (hf2 : f2 ∈ files) (hr2 : r2 ∈ ranks)
    (hne : ¬ (f1 = f2 ∧ r1 = r2)) (piece : Str) (hN : includes piece "N".toList = false) :
    ∃ res, pieceHasAccess b [f1, r1] [f2, r2] piece = .ok res ∧
      (res = true ↔
        ((f1 = f2 ∨ r1 = r2)
            ∧ (includes piece "Q".toList || includes piece "R".toList) = true
            ∧ ClearBetween b f1 r1 f2 r2) ∨
          (SameDiagonal f1 r1 f2 r2
            ∧ (includes piece "Q".toList || includes piece "B".toList) = true
            ∧ ClearBetween b f1 r1 f2 r2)) := by
  obtain ⟨hsc, hsr, hsd⟩ := shares_on_board hf1 hr1 hf2 hr2
  have hexcl : (f1 = f2 ∨ r1 = r2) → ¬ SameDiagonal f1 r1 f2 r2 := by
    intro h hd
    unfold SameDiagonal at hd
    rcases h with h | h
    · subst h
      exact hne ⟨rfl, rankNumber_inj hr1 hr2 (by omega)⟩
    · subst h
      exact hne ⟨fileNumber_inj hf1 hf2 (by omega), rfl⟩
  unfold pieceHasAccess
  simp only [hN, Bool.false_eq_true, if_false]
  by_cases hrook : f1 = f2 ∨ r1 = r2
  · have hnd := hexcl hrook
    have h1 : (sharesColumn (getNumericCoordinates [f1, r1] [f2, r2])
        || sharesRow (getNumericCoordinates [f1, r1] [f2, r2])) = true := by
      rw [Bool.or_eq_true, hsc, hsr]
      exact hrook
    have h2 : sharesDiagonal (getNumericCoordinates [f1, r1] [f2, r2]) = false := by
      cases h : sharesDiagonal (getNumericCoordinates [f1, r1] [f2, r2]) with
      | false => rfl
      | true => exact absurd (hsd.1 h) hnd
    obtain ⟨res, hres, hiff⟩ := isBlocked_on_board hfull hf1 hr1 hf2 hr2 hne
      (hrook.elim Or.inl (fun h => Or.inr (Or.inl h)))
    rw [h1, h2, hres]
    cases hp : (includes piece "Q".toList || includes piece "R".toList) with
    | false =>
      refine ⟨false, by simp, ?_⟩
      simp [hnd]
    | true =>
      cases res with
      | false =>
        refine ⟨true, by simp, ?_⟩
        have : ClearBetween b f1 r1 f2 r2 :=
          (clearBetween_iff _ _ _ _ _).2 (fun hb => by simpa using hiff.2 hb)
        simp [hrook, this]
      | true =>
        refine ⟨false, by simp, ?_⟩
        have : ¬ ClearBetween b f1 r1 f2 r2 := fun hc =>
          (clearBetween_iff _ _ _ _ _).1 hc (hiff.1 rfl)
        simp [this]
  · have h1 : (sharesColumn (getNumericCoordinates [f1, r1] [f2, r2])
        || sharesRow (getNumericCoordinates [f1, r1] [f2, r2])) = false := by
      cases h : (sharesColumn (getNumericCoordinates [f1, r1] [f2, r2])
        || sharesRow (getNumericCoordinates [f1, r1] [f2, r2])) with
      | false => rfl
      | true =>
        rw [Bool.or_eq_true, hsc, hsr] at h
        exact absurd h hrook
    rw [h1]
    by_cases hdiag : SameDiagonal f1 r1 f2 r2
    · have h2 : sharesDiagonal (getNumericCoordinates [f1, r1] [f2, r2]) = true := hsd.2 hdiag
      obtain ⟨res, hres, hiff⟩ := isBlocked_on_board hfull hf1 hr1 hf2 hr2 hne
        (Or.inr (Or.inr hdiag))
      rw [h2, hres]
      cases hp : (includes piece "Q".toList || includes piece "B".toList) with
      | false =>
        refine ⟨false, by simp, ?_⟩
        simp [hrook]
      | true =>
        cases res with
        | false =>
          refine ⟨true, by simp, ?_⟩
          have : ClearBetween b f1 r1 f2 r2 :=
            (clearBetween_iff _ _ _ _ _).2 (fun hb => by simpa using hiff.2 hb)
          simp [hdiag, this]
        | true =>
          refine ⟨false, by simp, ?_⟩
          have : ¬ ClearBetween b f1 r1 f2 r2 := fun hc =>
            (clearBetween_iff _ _ _ _ _).1 hc (hiff.1 rfl)
          simp [this]
    · have h2 : sharesDiagonal (getNumericCoordinates [f1, r1] [f2, r2]) = false := by
        cases h : sharesDiagonal (getNumericCoordinates [f1, r1] [f2, r2]) with
        | false => rfl
        | true => exact absurd (hsd.1 h) hdiag
      rw [h2]
      refine ⟨false, by simp, ?_⟩
      simp [hrook, hdiag]
theorem clearBetween_congr {b b' : Board} {f1 r1 f2 r2 : Char}
    (hsame : ∀ f ∈ files, ∀ r ∈ ranks, StrictlyBetween f1 r1 f2 r2 f r →
      b'.cell [f, r] = b.cell [f, r]) :
    ClearBetween b' f1 r1 f2 r2 ↔ ClearBetween b f1 r1 f2 r2 := by
  unfold ClearBetween
  constructor
  · intro h f hf r hr hb
    rw [← hsame f hf r hr hb]
    exact h f hf r hr hb
  · intro h f hf r hr hb
    rw [hsame f hf r hr hb]
    exact h f hf r hr hb

/-- C16. For two different squares of a full board, `pieceHasAccess` answers
`true` for a rook exactly when the squares share a column or a row and every
cell strictly between them is empty, for a bishop exactly when their absolute
column and row deltas are equal and every cell strictly between them is
empty, and for a queen exactly when one of the two holds; otherwise it
answers `false`; and the answer is the same on every full board with the same
cells strictly between the two squares, whatever the origin and destination
cells hold. -/
theorem sliding_access (b : Board) (hfull : FullBoard b) (f1 r1 f2 r2 : Char)
    (hf1 : f1 ∈ files) (hr1 : r1 ∈ ranks) (hf2 : f2 ∈ files) (hr2 : r2 ∈ ranks)
    (hne : ([f1, r1] : Str) ≠ [f2, r2]) :
    (pieceHasAccess b [f1, r1] [f2, r2] "R".toList = .ok true ↔
        (f1 = f2 ∨ r1 = r2) ∧ ClearBetween b f1 r1 f2 r2) ∧
      (pieceHasAccess b [f1, r1] [f2, r2] "B".toList = .ok true ↔
        SameDiagonal f1 r1 f2 r2 ∧ ClearBetween b f1 r1 f2 r2) ∧
      (pieceHasAccess b [f1, r1] [f2, r2] "Q".toList = .ok true ↔
        ((f1 = f2 ∨ r1 = r2) ∧ ClearBetween b f1 r1 f2 r2) ∨
          (SameDiagonal f1 r1 f2 r2 ∧ ClearBetween b f1 r1 f2 r2)) ∧
      (∀ piece ∈ ["R".toList, "B".toList, "Q".toList],
        (pieceHasAccess b [f1, r1] [f2, r2] piece = .ok true ∨
          pieceHasAccess b [f1, r1] [f2, r2] piece = .ok false) ∧
        ∀ b' : Board, FullBoard b' →
          (∀ f ∈ files, ∀ r ∈ ranks, StrictlyBetween f1 r1 f2 r2 f r →
            b'.cell [f, r] = b.cell [f, r]) →
          pieceHasAccess b' [f1, r1] [f2, r2] piece
            = pieceHasAccess b [f1, r1] [f2, r2] piece) := by
  have hne' : ¬ (f1 = f2 ∧ r1 = r2) := by
    rintro ⟨rfl, rfl⟩
    exact hne rfl
  refine ⟨?_, ?_, ?_, ?_⟩
  · obtain ⟨res, hres, hiff⟩ := pieceHasAccess_sliding hfull hf1 hr1 hf2 hr2 hne'
      "R".toList (by decide)
    rw [hres]
    have e1 : (includes "R".toList "Q".toList || includes "R".toList "R".toList) = true := by
      decide
    have e2 : (includes "R".toList "Q".toList || includes "R".toList "B".toList) = false := by
      decide
    rw [e1, e2] at hiff
    simp only [Except.ok.injEq, hiff]
    simp
  · obtain ⟨res, hres, hiff⟩ := pieceHasAccess_sliding hfull hf1 hr1 hf2 hr2 hne'
      "B".toList (by decide)
    rw [hres]
    have e1 : (includes "B".toList "Q".toList || includes "B".toList "R".toList) = false := by
      decide
    have e2 : (includes "B".toList "Q".toList || includes "B".toList "B".toList) = true := by
      decide
    rw [e1, e2] at hiff
    simp only [Except.ok.injEq, hiff]
    simp
  · obtain ⟨res, hres, hiff⟩ := pieceHasAccess_sliding hfull hf1 hr1 hf2 hr2 hne'
      "Q".toList (by decide)
    rw [hres]
    have e1 : (includes "Q".toList "Q".toList || includes "Q".toList "R".toList) = true := by
      decide
    have e2 : (includes "Q".toList "Q".toList || includes "Q".toList "B".toList) = true := by
      decide
    rw [e1, e2] at hiff
    simp only [Except.ok.injEq, hiff]
    simp
  · intro piece hp
    have hN : includes piece "N".toList = false := by
      simp only [List.mem_cons, List.mem_singleton, List.not_mem_nil, or_false] at hp
      rcases hp with rfl | rfl | rfl <;> decide
    obtain ⟨res, hres, hiff⟩ := pieceHasAccess_sliding hfull hf1 hr1 hf2 hr2 hne' piece hN
    refine ⟨?_, ?_⟩
    · rw [hres]
      cases res <;> simp
    · intro b' hfull' hsame
      obtain ⟨res', hres', hiff'⟩ := pieceHasAccess_sliding hfull' hf1 hr1 hf2 hr2 hne' piece hN
      rw [hres, hres']
      have : res' = true ↔ res = true := by
        rw [hiff, hiff', clearBetween_congr hsame]
      cases res <;> cases res' <;> simp_all

/-- C16 on the starting position: the rook of a1 has no access to a4, past the
pawn of a2, and a queen on a3 would have access to h3 along the empty third
rank. -/
theorem sliding_access_witness :
    pieceHasAccess initialBoard "a1".toList "a4".toList "R".toList = .ok false ∧
      pieceHasAccess initialBoard "a3".toList "h3".toList "Q".toList = .ok true ∧
      (pieceHasAccess initialBoard "a3".toList "h3".toList "Q".toList = .ok true ↔
        (('a' = 'h' ∨ '3' = '3') ∧ ClearBetween initialBoard 'a' '3' 'h' '3') ∨
          (SameDiagonal 'a' '3' 'h' '3' ∧ ClearBetween initialBoard 'a' '3' 'h' '3')) :=
  ⟨by decide, by decide,
    (sliding_access initialBoard fullBoard_initialBoard 'a' '3' 'h' '3' (by decide) (by decide)
      (by decide) (by decide) (by decide)).2.2.1⟩

/-! ## Access from an indexed square never throws half-way -/

theorem columnsIndexOf_cases (k : Option Char) :
    columnsIndexOf k = -1 ∨ ∃ f ∈ files, k = some f ∧ columnsIndexOf k = fileNumber f := by
  cases k with
  | none => exact Or.inl rfl
  | some c =>
    by_cases hc : c ∈ files
    · exact Or.inr ⟨c, hc, rfl, (file_numbers c hc).1⟩
    · left
      simp only [files, List.mem_cons, List.mem_singleton, List.not_mem_nil, or_false,
        not_or] at hc
      obtain ⟨h1, h2, h3, h4, h5, h6, h7, h8⟩ := hc
      simp [columnsIndexOf, indexOfFrom, columns, Ne.symm h1, Ne.symm h2, Ne.symm h3,
        Ne.symm h4, Ne.symm h5, Ne.symm h6, Ne.symm h7, Ne.symm h8]

theorem isBlockedLoop_errors (b : Board) (c : Coordinates) (rowDir colDir : Int) :
    ∀ (fuel : Nat) (row : Option Int) (col : Int) (e : Err),
      isBlockedLoop b c rowDir colDir fuel row col = .error e →
      e = .typeError ∨ e = .bound := by
  intro fuel
  induction fuel with
  | zero =>
    intro row col e h
    simp only [isBlockedLoop, Except.error.injEq] at h
    exact Or.inr h.symm
  | succ k ih =>
    intro row col e h
    unfold isBlockedLoop at h
    split at h
    · simp at h
    · split at h
      · simp only [Except.error.injEq] at h
        exact Or.inl h.symm
      · split at h
        · simp at h
        · exact ih _ _ e h

/-- Along a column that exists the loop of `isBlocked` never meets a missing
column. -/
theorem isBlockedLoop_column (b : Board) (c : Coordinates) (rowDir col : Int)
    (hcol : ∃ cells, b.columnNamed (columnName col) = some cells) :
    ∀ (fuel : Nat) (row : Option Int),
      isBlockedLoop b c rowDir 0 fuel row col ≠ .error .typeError := by
  intro fuel
  induction fuel with
  | zero => intro row h; simp [isBlockedLoop] at h
  | succ k ih =>
    intro row
    obtain ⟨cells, hcells⟩ := hcol
    unfold isBlockedLoop
    split
    · simp
    · rw [hcells]
      simp only
      split
      · simp
      · rw [Int.add_zero]
        exact ih _

/-- Towards a destination column that is not on the board the loop of
`isBlocked` never reaches the destination. -/
theorem isBlockedLoop_off_board (b : Board) (c : Coordinates) (rowDir : Int)
    (hdest : c.destCol = -1) :
    ∀ (fuel : Nat) (row : Option Int) (col : Int), 0 ≤ col →
      isBlockedLoop b c rowDir (-1) fuel row col ≠ .ok false := by
  intro fuel
  induction fuel with
  | zero => intro row col _ h; simp [isBlockedLoop] at h
  | succ k ih =>
    intro row col hcol
    unfold isBlockedLoop
    have hexit : (numEq c.destRow row && decide (c.destCol = col)) = false := by
      rw [Bool.and_eq_false_iff]
      right
      exact decide_eq_false (by omega)
    rw [hexit]
    simp only [Bool.false_eq_true, if_false]
    split
    · simp
    · rename_i cells hcells
      obtain ⟨h1, -, -⟩ := columnNamed_some hcells
      split
      · simp
      · exact ih _ _ (by omega)

theorem isBlocked_off_board (b : Board) (c : Coordinates) (hdest : c.destCol = -1)
    (hstart : 1 ≤ c.startCol) : isBlocked b c ≠ .ok false := by
  unfold isBlocked
  have c1 : ¬ (c.startCol - c.destCol = 0) := by omega
  have c2 : c.startCol > c.destCol := by omega
  simp only [c1, if_false, c2, if_true]
  split
  · simp
  · rename_i rowDir colDir hdirs
    have hcd : colDir = -1 := by
      split at hdirs
      · simp only [Option.some.injEq, Prod.mk.injEq] at hdirs
        exact hdirs.2.symm
      · split at hdirs
        · simp only [Option.some.injEq, Prod.mk.injEq] at hdirs
          exact hdirs.2.symm
        · simp at hdirs
    subst hcd
    exact isBlockedLoop_off_board b c rowDir hdest _ _ _ (by omega)
theorem isBlocked_errors (b : Board) (c : Coordinates) (e : Err)
    (h : isBlocked b c = .error e) : e = .typeError ∨ e = .notOnLine := by
  have hb := isBlocked_ne_bound b c
  unfold isBlocked at h hb
  simp only at h hb
  split at h
  · simp only [Except.error.injEq] at h
    exact Or.inr h.symm
  · rename_i rowDir colDir hdirs
    rw [hdirs] at hb
    simp only at hb
    rcases isBlockedLoop_errors b c rowDir colDir _ _ _ e h with h1 | h1
    · exact Or.inl h1
    · subst h1
      exact absurd h hb

theorem sign_facts (x : Int) :
    (0 < x ∧ x.sign = 1) ∨ (x < 0 ∧ x.sign = -1) ∨ (x = 0 ∧ x.sign = 0) := by
  rcases lt_trichotomy x 0 with h | h | h
  · exact Or.inr (Or.inl ⟨h, Int.sign_eq_neg_one_of_neg h⟩)
  · exact Or.inr (Or.inr ⟨h, by rw [h]; rfl⟩)
  · exact Or.inl ⟨h, Int.sign_eq_one_of_pos h⟩

/-- Between two columns of a full board, `isBlocked` returns a Boolean whenever
the squares share a line. -/
theorem isBlocked_ok {b : Board} (hfull : FullBoard b) (c : Coordinates)
    (hs1 : 1 ≤ c.startCol) (hs8 : c.startCol ≤ 8) (hd1 : 1 ≤ c.destCol) (hd8 : c.destCol ≤ 8)
    (hshare : sharesColumn c = true ∨ sharesRow c = true ∨ sharesDiagonal c = true) :
    ∃ res, isBlocked b c = .ok res := by
  by_cases hcol : c.startCol = c.destCol
  · -- along the column
    have hte : isBlocked b c ≠ .error .typeError := by
      unfold isBlocked
      have c1 : c.startCol - c.destCol = 0 := by omega
      simp only [c1, if_true]
      exact isBlockedLoop_column b c _ _
        (by rw [Int.add_zero]; exact columnNamed_of_full hfull _ hs1 hs8) _ _
    have hnl : isBlocked b c ≠ .error .notOnLine := by
      unfold isBlocked
      have c1 : c.startCol - c.destCol = 0 := by omega
      simp only [c1, if_true]
      intro h
      rcases isBlockedLoop_errors b c _ _ _ _ _ _ h with h1 | h1 <;> simp at h1
    cases h : isBlocked b c with
    | ok res => exact ⟨res, rfl⟩
    | error e =>
      rcases isBlocked_errors b c e h with h1 | h1
      · subst h1; exact absurd h hte
      · subst h1; exact absurd h hnl
  · -- along a row or a diagonal
    have hrows : ∃ sr dr, c.startRow = some sr ∧ c.destRow = some dr ∧
        (sr = dr ∨ (c.destCol - c.startCol).natAbs = (dr - sr).natAbs) := by
      rcases hshare with h | h | h
      · simp only [sharesColumn, decide_eq_true_eq] at h
        exact absurd h hcol
      · unfold sharesRow numEq at h
        split at h
        · rename_i x y hx hy
          simp only [decide_eq_true_eq] at h
          exact ⟨x, y, hx, hy, Or.inl h⟩
        · simp at h
      · unfold sharesDiagonal absDiff at h
        split at h
        · rename_i hx hy
          rename_i x y
          simp only [numEq, decide_eq_true_eq] at h
          exact ⟨x, y, hx, hy, Or.inr (by omega)⟩
        · simp [numEq] at h
    obtain ⟨sr, dr, hsr, hdr, hshape⟩ := hrows
    have sx := sign_facts (c.destCol - c.startCol)
    have sy := sign_facts (dr - sr)
    have hrd := sign_cases (dr - sr)
    have hcd := sign_cases (c.destCol - c.startCol)
    have hdir : (dr - sr).sign ≠ 0 ∨ (c.destCol - c.startCol).sign ≠ 0 := by
      right
      rcases sx with ⟨h, e⟩ | ⟨h, e⟩ | ⟨h, e⟩ <;> rw [e] <;> omega
    have hrow : dr = sr + ((c.destCol - c.startCol).natAbs : Int) * (dr - sr).sign := by
      rcases sy with ⟨h, e⟩ | ⟨h, e⟩ | ⟨h, e⟩ <;> rw [e] <;> omega
    have hcl : c.destCol = c.startCol
        + ((c.destCol - c.startCol).natAbs : Int) * (c.destCol - c.startCol).sign := by
      rcases sx with ⟨h, e⟩ | ⟨h, e⟩ | ⟨h, e⟩ <;> rw [e] <;> omega
    have hn1 : 1 ≤ (c.destCol - c.startCol).natAbs := by omega
    rw [isBlocked_line b c sr dr _ _ _ hsr hdr hn1 hrd hcd hdir hrow hcl]
    have hbound : (c.destCol - c.startCol).natAbs - 1 < walkBound b := by
      have := walkBound_ge b
      omega
    obtain ⟨res, hres, -⟩ := isBlockedLoop_walk b c _ _ dr hdr hdir
      ((c.destCol - c.startCol).natAbs - 1) (walkBound b) hbound
      (fun i h1 h2 => columnNamed_of_full hfull _
        (by rcases sx with ⟨h, e⟩ | ⟨h, e⟩ | ⟨h, e⟩ <;> rw [e] <;> omega)
        (by rcases sx with ⟨h, e⟩ | ⟨h, e⟩ | ⟨h, e⟩ <;> rw [e] <;> omega))
    exact ⟨res, hres⟩
/-- The access test throws nothing when the origin is on a file of a full
board and the first character of the destination is a file. -/
theorem pieceHasAccess_ok {b : Board} (hfull : FullBoard b) (start dest piece : Str)
    {f : Char} (hf : f ∈ files) (hstart : start.get? 0 = some f)
    (hdest : columnsIndexOf (dest.get? 0) ≠ -1) :
    ∃ res, pieceHasAccess b start dest piece = .ok res := by
  obtain ⟨hsc, hs1, hs8, -⟩ := file_numbers f hf
  rcases columnsIndexOf_cases (dest.get? 0) with h | ⟨g, hg, hk, hgn⟩
  · exact absurd h hdest
  obtain ⟨-, hd1, hd8, -⟩ := file_numbers g hg
  have hcs : (getNumericCoordinates start dest).startCol = fileNumber f := by
    simp only [getNumericCoordinates, hstart, hsc]
  have hcd : (getNumericCoordinates start dest).destCol = fileNumber g := by
    simp only [getNumericCoordinates, hgn]
  unfold pieceHasAccess
  simp only
  by_cases hsh : sharesColumn (getNumericCoordinates start dest) = true
      ∨ sharesRow (getNumericCoordinates start dest) = true
      ∨ sharesDiagonal (getNumericCoordinates start dest) = true
  · obtain ⟨res, hres⟩ := isBlocked_ok hfull (getNumericCoordinates start dest)
      (by omega) (by omega) (by omega) (by omega) hsh
    rw [hres]
    simp only
    split
    · exact ⟨_, rfl⟩
    · split
      · rename_i h1
        split at h1 <;> simp at h1
      · exact ⟨_, rfl⟩
      · split <;> exact ⟨_, rfl⟩
  · simp only [not_or, Bool.not_eq_true] at hsh
    obtain ⟨h1, h2, h3⟩ := hsh
    rw [h1, h2, h3]
    simp only [Bool.or_self, Bool.false_and, Bool.false_eq_true, if_false]
    split <;> exact ⟨_, rfl⟩

/-- A sliding piece has no access to a destination whose first character is not
a file: the walk never reaches it. -/
theorem pieceHasAccess_off_board (b : Board) (start dest piece : Str)
    {f : Char} (hf : f ∈ files) (hstart : start.get? 0 = some f)
    (hN : includes piece "N".toList = false)
    (hdest : columnsIndexOf (dest.get? 0) = -1) :
    pieceHasAccess b start dest piece ≠ .ok true := by
  obtain ⟨hsc, hs1, hs8, -⟩ := file_numbers f hf
  have hcs : (getNumericCoordinates start dest).startCol = fileNumber f := by
    simp only [getNumericCoordinates, hstart, hsc]
  have hcd : (getNumericCoordinates start dest).destCol = -1 := by
    simp only [getNumericCoordinates, hdest]
  have hblk := isBlocked_off_board b (getNumericCoordinates start dest) hcd (by omega)
  unfold pieceHasAccess
  simp only [hN, Bool.false_eq_true, if_false]
  cases hres : isBlocked b (getNumericCoordinates start dest) with
  | error e =>
    simp only
    split
    · simp
    · rename_i h1
      split at h1 <;> simp at h1
    · split <;> simp
  | ok blocked =>
    cases blocked with
    | false => exact absurd hres hblk
    | true =>
      simp only [Bool.not_true]
      split
      · simp
      · rename_i h1
        split at h1 <;> simp at h1
      · split <;> simp

/-- When one square of a list has access, the access test throws for none of
them. -/
theorem access_defined {b : Board} (hfull : FullBoard b) (dest piece : Str) (l : List Str)
    (hfiles : ∀ s ∈ l, ∃ f ∈ files, s.get? 0 = some f)
    (hsome : ∃ s ∈ l, pieceHasAccess b s dest piece = .ok true) :
    ∀ s ∈ l, ∃ res, pieceHasAccess b s dest piece = .ok res := by
  intro s hs
  obtain ⟨f, hf, hstart⟩ := hfiles s hs
  cases hN : includes piece "N".toList with
  | true =>
    unfold pieceHasAccess
    simp only [hN, if_true]
    exact ⟨_, rfl⟩
  | false =>
    obtain ⟨t, ht, hacc⟩ := hsome
    obtain ⟨g, hg, htstart⟩ := hfiles t ht
    have hdest : columnsIndexOf (dest.get? 0) ≠ -1 := fun h =>
      pieceHasAccess_off_board b t dest piece hg htstart hN h hacc
    exact pieceHasAccess_ok hfull s dest piece hf hstart hdest

/-- When the access test throws for no square, the loop of lines 453-458 keeps
the squares that have access. -/
theorem accessFilter_eq (b : Board) (dest piece : Str) :
    ∀ l : List Str, (∀ s ∈ l, ∃ res, pieceHasAccess b s dest piece = .ok res) →
      accessFilter b dest piece l
        = .ok (l.filter (fun s => decide (pieceHasAccess b s dest piece = .ok true))) := by
  intro l
  induction l with
  | nil => intro _; rfl
  | cons s rest ih =>
    intro h
    obtain ⟨res, hres⟩ := h s (List.mem_cons_self _ _)
    have hrest := ih (fun t ht => h t (List.mem_cons_of_mem _ ht))
    unfold accessFilter
    rw [hres, hrest]
    cases res <;> simp [List.filter, hres]
/-! ## The index names files of the board -/

theorem Board.column_key {b : Board} {c : Char} {col : List Cell} (h : b.column c = some col) :
    c ∈ b.map Prod.fst := by
  induction b with
  | nil => simp [Board.column] at h
  | cons x rest ih =>
    obtain ⟨k, col0⟩ := x
    simp only [Board.column] at h
    split at h
    · rename_i hk
      subst hk
      simp
    · simp only [List.map_cons, List.mem_cons]
      exact Or.inr (ih h)

theorem filesOnly_initialBoard : FilesOnly initialBoard := by
  intro c cells h
  have hkeys : initialBoard.map Prod.fst = files := rfl
  rw [← hkeys]
  exact Board.column_key h

theorem filesOnly_write {b : Board} (h : FilesOnly b) (sq : Str) (v : Cell) :
    FilesOnly (b.write sq v) := by
  unfold Board.write
  split
  · rename_i c i _ _
    intro c' cells hc
    rw [Board.column_setCell] at hc
    split at hc
    · rename_i heq
      subst heq
      cases hcol : b.column c' with
      | none => rw [hcol] at hc; simp at hc
      | some col => exact h c' col hcol
    · exact h c' cells hc
  · exact h

theorem filesOnly_moveOnce {st st1 : Session} {move mp : Str} (hf : FilesOnly st.board)
    (h : moveOnce st move = (⟨st1, none⟩, mp)) : FilesOnly st1.board := by
  obtain ⟨c, r, c', r', rest, sCell, d, m1, m2, m3, -, -, -, -, -, -, -, hst⟩ := moveOnce_ok h
  rw [hst]
  exact filesOnly_write (filesOnly_write hf _ _) _ _

theorem filesOnly_of_reachable {color : Color} {st : Session} (h : Reachable color st) :
    FilesOnly st.board := by
  induction h with
  | init => exact filesOnly_initialBoard
  | move m _ hok ih =>
    rcases movePiece_ok hok with ⟨mp, h1, -⟩ | ⟨st1, mp, rookMove, mp2, h1, -, -, h2⟩
    · exact filesOnly_moveOnce ih h1
    · exact filesOnly_moveOnce (filesOnly_moveOnce ih h1) h2

/-- In every reachable session the squares of the index begin with a file. -/
theorem indexOnFiles_of_reachable {color : Color} {st : Session} (h : Reachable color st) :
    IndexOnFiles st := by
  intro e he
  have hcell := (inv_of_reachable h).onBoard e he
  have hfiles := filesOnly_of_reachable h
  unfold Board.cell Board.columnOf at hcell
  cases hk : e.1.get? 0 with
  | none => rw [hk] at hcell; simp at hcell
  | some c =>
    rw [hk] at hcell
    simp only at hcell
    cases hcol : st.board.column c with
    | none => rw [hcol] at hcell; simp at hcell
    | some col => exact ⟨c, hfiles c col hcol, rfl⟩

/-- C13. For a piece input with no disambiguation fragment, in a session with a
full board whose index squares begin with a file (as in every reachable
session), when the user has two or more pieces of the named type and exactly
one of their squares has `pieceHasAccess(square, destination, letter)` true on
the board, `getUCIFromSAN` returns that square followed by the destination,
the last two characters of the input (capture mark stripped). -/
theorem access_selects_square (st : Session) (input rest : Str) (L : Char) (sq : Str)
    (hfull : FullBoard st.board) (hfiles : IndexOnFiles st)
    (hstrip : removeCaptureNotation input = L :: rest) (hL : isQRBNK L = true)
    (hfrag : fragmentOf (L :: rest) = [])
    (hmany : 2 ≤ (candidates st L).length)
    (hone : (candidates st L).filter
        (fun s => decide (pieceHasAccess st.board s (destinationOf (L :: rest)) [L] = .ok true))
      = [sq]) :
    getUCIFromSAN st input = .ok (.str (sq ++ destinationOf (L :: rest))) := by
  rw [getUCIFromSAN_piece _ hstrip hL]
  unfold getPieceMove
  simp only [List.take, getPieceList_eq _ hL, getPieceMoveComponents_eq]
  have h0 : ¬ (candidates st L).length = 0 := by omega
  have h1 : ¬ (candidates st L).length = 1 := by omega
  simp only [h0, h1, if_false]
  have hsq : sq ∈ (candidates st L).filter
      (fun s => decide (pieceHasAccess st.board s (destinationOf (L :: rest)) [L] = .ok true)) := by
    rw [hone]
    exact List.mem_singleton_self sq
  rw [List.mem_filter] at hsq
  have hkeys : ∀ s ∈ candidates st L, ∃ f ∈ files, s.get? 0 = some f := by
    intro s hs
    unfold candidates at hs
    rw [List.mem_map] at hs
    obtain ⟨e, he, rfl⟩ := hs
    exact hfiles e (List.mem_filter.mp he).1
  have hdef := access_defined hfull (destinationOf (L :: rest)) [L] (candidates st L) hkeys
    ⟨sq, hsq.1, by simpa using hsq.2⟩
  unfold findValidPiece
  simp only [hfrag, ne_eq, not_true_eq_false, if_false,
    accessFilter_eq st.board _ _ _ hdef, hone, List.length_singleton, List.get?]
  simp

/-- C13 at the session of the white player after `a2a4`: of the rooks on a1
and h1 only the first has access to a3, and `Ra3` gives `a1a3`. -/
theorem access_selects_square_witness :
    candidates (movePiece (freshSession .w) "a2a4".toList).st 'R'
        = ["a1".toList, "h1".toList] ∧
      pieceHasAccess (movePiece (freshSession .w) "a2a4".toList).st.board "a1".toList
        "a3".toList "R".toList = .ok true ∧
      pieceHasAccess (movePiece (freshSession .w) "a2a4".toList).st.board "h1".toList
        "a3".toList "R".toList = .ok false ∧
      getUCIFromSAN (movePiece (freshSession .w) "a2a4".toList).st "Ra3".toList
        = .ok (.str "a1a3".toList) :=
  have hr : Reachable .w (movePiece (freshSession .w) "a2a4".toList).st :=
    Reachable.move _ Reachable.init (by decide)
  ⟨by decide, by decide, by decide,
    access_selects_square (movePiece (freshSession .w) "a2a4".toList).st "Ra3".toList
      "a3".toList 'R' "a1".toList (wellFormed_of_reachable hr).1 (indexOnFiles_of_reachable hr)
      (by decide) (by decide) (by decide) (by decide) (by decide)⟩

/-! ## A move from an empty square -/

/-- The two reads and the test of lines 186-192 on an empty moving square: a
`TypeError` when the destination names no column of the board, the exception
of line 191 otherwise. -/
theorem readMove_empty {b : Board} {move : Str}
    (hempty : b.cell (move.take 2) = some (.str "--".toList)) :
    readMove b move
      = if (b.columnOf (((move.drop 2).take 2).get? 0)).isSome then .error .emptyOrigin
        else .error .typeError := by
  unfold Board.cell at hempty
  unfold readMove
  simp only
  cases hcol : b.columnOf ((move.take 2).get? 0) with
  | none => rw [hcol] at hempty; simp at hempty
  | some sCol =>
    rw [hcol] at hempty
    simp only at hempty
    simp only [hempty]
    cases hd : b.columnOf (((move.drop 2).take 2).get? 0) with
    | none => simp
    | some dCol => simp [Cell.toStr]

/-- C21. For every session and every move whose origin square (its first two
characters) is a cell of the board that holds `'--'`, `movePiece` throws, the
exception of line 191 when the destination names a column of the board and a
`TypeError` of line 188 otherwise, and the session after the call, board and
index included, is the session before it. -/
theorem empty_origin_fails (st : Session) (move : Str)
    (hempty : st.board.cell (move.take 2) = some (.str "--".toList)) :
    (movePiece st move).err
        = (if (st.board.columnOf (((move.drop 2).take 2).get? 0)).isSome
            then some .emptyOrigin else some .typeError) ∧
      (movePiece st move).err ≠ none ∧
      (movePiece st move).st = st ∧
      (movePiece st move).st.board = st.board ∧
      (movePiece st move).st.userPieceMap = st.userPieceMap := by
  have hrun : movePiece st move
      = ⟨st, if (st.board.columnOf (((move.drop 2).take 2).get? 0)).isSome
          then some .emptyOrigin else some .typeError⟩ := by
    unfold movePiece movePieceAux moveOnce
    rw [readMove_empty hempty]
    cases (st.board.columnOf (((move.drop 2).take 2).get? 0)).isSome <;> rfl
  rw [hrun]
  refine ⟨rfl, ?_, rfl, rfl, rfl⟩
  simp only
  split <;> simp

/-- C21 on the fresh session of the white player: `e4e5` from the empty e4
throws the exception of line 191, `e4z9` a `TypeError`, and both leave the
session as it was. -/
theorem empty_origin_fails_witness :
    (freshSession .w).board.cell ("e4e5".toList.take 2) = some (.str "--".toList) ∧
      (movePiece (freshSession .w) "e4e5".toList).err = some .emptyOrigin ∧
      (movePiece (freshSession .w) "e4e5".toList).st = freshSession .w ∧
      (movePiece (freshSession .w) "e4z9".toList).err = some .typeError ∧
      (movePiece (freshSession .w) "e4z9".toList).st = freshSession .w :=
  ⟨by decide,
    (empty_origin_fails (freshSession .w) "e4e5".toList (by decide)).1,
    (empty_origin_fails (freshSession .w) "e4e5".toList (by decide)).2.2.1,
    (empty_origin_fails (freshSession .w) "e4z9".toList (by decide)).1,
    (empty_origin_fails (freshSession .w) "e4z9".toList (by decide)).2.2.1⟩

/-! ## The order of the index -/

/-- On squares that share a line `isBlocked` does not throw the exception of
line 561. -/
theorem isBlocked_shared (b : Board) (c : Coordinates)
    (hshare : sharesColumn c = true ∨ sharesRow c = true ∨ sharesDiagonal c = true) :
    isBlocked b c ≠ .error .notOnLine := by
  have hloop : ∀ rowDir colDir fuel row col,
      isBlockedLoop b c rowDir colDir fuel row col ≠ .error .notOnLine := by
    intro rowDir colDir fuel row col h
    rcases isBlockedLoop_errors b c rowDir colDir fuel row col _ h with h1 | h1 <;> simp at h1
  unfold isBlocked
  simp only
  by_cases h1 : c.startCol - c.destCol = 0
  · simp only [h1, if_true]
    exact hloop _ _ _ _ _
  · simp only [h1, if_false]
    by_cases h2 : numEq (numSub c.startRow c.destRow) (some 0) = true
    · simp only [h2, if_true]
      exact hloop _ _ _ _ _
    · simp only [h2, if_false]
      by_cases h3 : sharesDiagonal c = true
      · simp only [h3, if_true]
        exact hloop _ _ _ _ _
      · exfalso
        rcases hshare with h | h | h
        · simp only [sharesColumn, decide_eq_true_eq] at h
          omega
        · apply h2
          unfold sharesRow numEq at h
          split at h
          · rename_i x y hx hy
            simp only [decide_eq_true_eq] at h
            simp only [hx, hy, numSub, numEq, decide_eq_true_eq]
            omega
          · simp at h
        · exact h3 h

/-- The only exception of the access test is a `TypeError`. -/
theorem pieceHasAccess_errors (b : Board) (start dest piece : Str) (e : Err)
    (h : pieceHasAccess b start dest piece = .error e) : e = .typeError := by
  have key : ∀ e, sharesColumn (getNumericCoordinates start dest) = true
      ∨ sharesRow (getNumericCoordinates start dest) = true
      ∨ sharesDiagonal (getNumericCoordinates start dest) = true →
      isBlocked b (getNumericCoordinates start dest) = .error e → e = .typeError := by
    intro e hs hb
    rcases isBlocked_errors b _ e hb with h1 | h1
    · exact h1
    · subst h1
      exact absurd hb (isBlocked_shared b _ hs)
  unfold pieceHasAccess at h
  simp only at h
  split at h
  · simp at h
  · split at h
    · rename_i e1 hrook
      simp only [Except.error.injEq] at h
      subst h
      split at hrook
      · rename_i hc
        simp only [Bool.and_eq_true, Bool.or_eq_true] at hc
        split at hrook
        · rename_i e2 hb
          simp only [Except.error.injEq] at hrook
          subst hrook
          exact key _ (hc.1.elim Or.inl (fun h => Or.inr (Or.inl h))) hb
        · simp at hrook
      · simp at hrook
    · simp at h
    · split at h
      · rename_i hc
        simp only [Bool.and_eq_true] at hc
        split at h
        · rename_i e2 hb
          simp only [Except.error.injEq] at h
          subst h
          exact key _ (Or.inr (Or.inr hc.1)) hb
        · simp at h
      · simp at h

/-- When the access test throws for some square, the loop of lines 453-458
throws a `TypeError`. -/
theorem accessFilter_throws (b : Board) (dest piece : Str) :
    ∀ l : List Str, (∃ s ∈ l, ∃ e, pieceHasAccess b s dest piece = .error e) →
      accessFilter b dest piece l = .error .typeError := by
  intro l
  induction l with
  | nil => rintro ⟨s, hs, -⟩; simp at hs
  | cons t rest ih =>
    rintro ⟨s, hs, e, he⟩
    unfold accessFilter
    cases ht : pieceHasAccess b t dest piece with
    | error e1 =>
      simp only
      rw [pieceHasAccess_errors b t dest piece e1 ht]
    | ok access =>
      have hrest : accessFilter b dest piece rest = .error .typeError := by
        apply ih
        rcases List.mem_cons.mp hs with h | h
        · subst h
          rw [ht] at he
          simp at he
        · exact ⟨s, h, e, he⟩
      simp only [hrest]

theorem accessFilter_perm (b : Board) (dest piece : Str) {l1 l2 : List Str}
    (h : l1.Perm l2) :
    (accessFilter b dest piece l1 = .error .typeError
        ∧ accessFilter b dest piece l2 = .error .typeError) ∨
      ∃ v1 v2, accessFilter b dest piece l1 = .ok v1 ∧ accessFilter b dest piece l2 = .ok v2
        ∧ v1.Perm v2 := by
  by_cases hthrow : ∃ s ∈ l1, ∃ e, pieceHasAccess b s dest piece = .error e
  · left
    refine ⟨accessFilter_throws b dest piece l1 hthrow, accessFilter_throws b dest piece l2 ?_⟩
    obtain ⟨s, hs, he⟩ := hthrow
    exact ⟨s, h.mem_iff.mp hs, he⟩
  · right
    have hok : ∀ l : List Str, (∀ s ∈ l, s ∈ l1) →
        ∀ s ∈ l, ∃ res, pieceHasAccess b s dest piece = .ok res := by
      intro l hl s hs
      cases hc : pieceHasAccess b s dest piece with
      | ok res => exact ⟨res, rfl⟩
      | error e => exact absurd ⟨s, hl s hs, e, hc⟩ hthrow
    exact ⟨_, _, accessFilter_eq b dest piece l1 (hok l1 (fun _ hs => hs)),
      accessFilter_eq b dest piece l2 (hok l2 (fun _ hs => h.mem_iff.mpr hs)), h.filter _⟩

/-- The square that `findValidPiece` selects does not depend on the order of
the candidates. -/
theorem findValidPiece_perm (b : Board) (mc : MoveComponents) {l1 l2 : List Str}
    (h : l1.Perm l2) : findValidPiece b l1 mc = findValidPiece b l2 mc := by
  have hsel : ∀ {v1 v2 : List Str}, v1.Perm v2 →
      (if v1.length = 0 then (.ok none : Except Err (Option Str))
        else if v1.length = 1 then .ok (v1.get? 0) else .ok none)
      = (if v2.length = 0 then .ok none else if v2.length = 1 then .ok (v2.get? 0)
          else .ok none) := by
    intro v1 v2 hv
    by_cases h1 : v2.length = 1
    · obtain ⟨a, ha⟩ := List.length_eq_one.mp h1
      subst ha
      rw [List.perm_singleton.mp hv]
    · simp only [hv.length_eq, h1, if_false]
  unfold findValidPiece
  by_cases hfrag : mc.squareInfo = []
  · simp only [hfrag, ne_eq, not_true_eq_false, if_false]
    rcases accessFilter_perm b mc.destination mc.piece h with ⟨e1, e2⟩ | ⟨v1, v2, e1, e2, hv⟩
    · rw [e1, e2]
    · rw [e1, e2]
      exact hsel hv
  · simp only [hfrag, ne_eq, not_false_eq_true, if_true]
    exact hsel (h.filter _)

/-- C22. For every input and every two sessions with the same board, the same
user colour and the same castle targets whose indexes hold the same entries in
any two orders, `getUCIFromSAN` gives the same outcome: the same value, or an
exception in both, `'panik'`, `INVALID_MOVE` or a `TypeError` of the access
test, which is thrown whichever candidate comes first. -/
theorem order_not_observable (st1 st2 : Session) (input : Str)
    (hboard : st1.board = st2.board) (hcolor : st1.userColor = st2.userColor)
    (hking : st1.kingSideCastle = st2.kingSideCastle)
    (hqueen : st1.queenSideCastle = st2.queenSideCastle)
    (hperm : st1.userPieceMap.Perm st2.userPieceMap) :
    getUCIFromSAN st1 input = getUCIFromSAN st2 input := by
  obtain ⟨b1, c1, m1, ml1, k1, q1, x1⟩ := st1
  obtain ⟨b2, c2, m2, ml2, k2, q2, x2⟩ := st2
  simp only at hboard hcolor hking hqueen hperm
  subst hboard hcolor hking hqueen
  have hpawn : ∀ s, getPawnMove ⟨b1, c1, m1, ml1, k1, q1, x1⟩ s
      = getPawnMove ⟨b1, c1, m2, ml2, k1, q1, x2⟩ s := fun _ => rfl
  have hcastle : ∀ s, getCastleMove ⟨b1, c1, m1, ml1, k1, q1, x1⟩ s
      = getCastleMove ⟨b1, c1, m2, ml2, k1, q1, x2⟩ s := fun _ => rfl
  have hpiece : ∀ s, getPieceMove ⟨b1, c1, m1, ml1, k1, q1, x1⟩ s
      = getPieceMove ⟨b1, c1, m2, ml2, k1, q1, x2⟩ s := by
    intro s
    have hl : ((m1.filter (fun e => decide (e.2 = c1.toStr ++ toUpperCase (s.take 1)))).map
          (fun e => e.1)).Perm
        ((m2.filter (fun e => decide (e.2 = c1.toStr ++ toUpperCase (s.take 1)))).map
          (fun e => e.1)) := (hperm.filter _).map _
    unfold getPieceMove getPieceList
    simp only [hl.length_eq]
    by_cases h0 : ((m2.filter (fun e => decide (e.2 = c1.toStr ++ toUpperCase (s.take 1)))).map
        (fun e => e.1)).length = 0
    · simp only [h0, if_true]
    · simp only [h0, if_false]
      by_cases h1 : ((m2.filter
          (fun e => decide (e.2 = c1.toStr ++ toUpperCase (s.take 1)))).map
            (fun e => e.1)).length = 1
      · obtain ⟨a, ha⟩ := List.length_eq_one.mp h1
        rw [ha] at hl
        rw [ha, List.perm_singleton.mp hl]
      · simp only [hl.length_eq, h1, if_false]
        rw [findValidPiece_perm b1 (getPieceMoveComponents s) hl]
  unfold getUCIFromSAN
  simp only [hpawn, hcastle, hpiece]

/-- C22 at the sessions of the white player after `g1f3`, `b1c3` and after
`b1c3`, `g1f3`: the boards are the same, the knights are indexed in the two
orders, and `Ne5` gives `f3e5` in both. -/
theorem order_not_observable_witness :
    candidates (movePiece (movePiece (freshSession .w) "g1f3".toList).st "b1c3".toList).st 'N'
        = ["f3".toList, "c3".toList] ∧
      candidates (movePiece (movePiece (freshSession .w) "b1c3".toList).st "g1f3".toList).st 'N'
        = ["c3".toList, "f3".toList] ∧
      getUCIFromSAN (movePiece (movePiece (freshSession .w) "g1f3".toList).st "b1c3".toList).st
          "Ne5".toList = .ok (.str "f3e5".toList) ∧
      getUCIFromSAN (movePiece (movePiece (freshSession .w) "g1f3".toList).st "b1c3".toList).st
          "Ne5".toList
        = getUCIFromSAN
          (movePiece (movePiece (freshSession .w) "b1c3".toList).st "g1f3".toList).st
          "Ne5".toList :=
  ⟨by decide, by decide, by decide,
    order_not_observable
      (movePiece (movePiece (freshSession .w) "g1f3".toList).st "b1c3".toList).st
      (movePiece (movePiece (freshSession .w) "b1c3".toList).st "g1f3".toList).st
      "Ne5".toList (by decide) (by decide) (by decide) (by decide) (by decide)⟩

end BoardState
